import Mathlib

/-!
# timemory call-graph storage: `graph_data` over a parent-linked tree

A shallow embedding of `source/timemory/data/graph_data.hpp`.

* `tim::graph_data<_Node>` becomes the structure `tim.graph_data α` and every member
  function becomes a function on that structure (explicit state passing).  Member
  functions that dereference an iterator return `Option`: `none` stands for the
  undefined behaviour / failed assertion of dereferencing an iterator that designates
  no node.
* `int64_t` counters are mathematical integers (`Int`); signed overflow is undefined
  behaviour in C++ and is not part of the model.
* `timemory/data/graph.hpp` (the tree container `tim::graph`) is not among the sources.
  The container is modelled as an arena of slots addressed by stable indices, with
  parent and child links stored as indices.
-/

set_option autoImplicit false

namespace tim

/-! ## The node type parameter -/

/-- Operations that `graph_data.hpp` uses on its template parameter `_Node`:
`id()`, `depth()` and `operator==`. -/
class graph_node (α : Type) where
  /-- The scope identity `_Node::id()`. -/
  id : α → Int
  /-- The call depth `_Node::depth()`. -/
  depth : α → Int
  /-- The payload comparison `_Node::operator==`. -/
  eq : α → α → Bool

/-- Modelled from the spec: the concrete node type instantiating `_Node` is not among the
sources.  A node carries an identity made of a scope id and a call depth and an
is-dummy flag; the measurement bundle is left out.  Two nodes are payload-equal when
their identities (scope id and call depth) agree. -/
structure call_node where
  id : Int
  depth : Int
  is_dummy : Bool
  deriving DecidableEq

instance : graph_node call_node where
  id := call_node.id
  depth := call_node.depth
  eq := fun a b => decide (a.id = b.id ∧ a.depth = b.depth)

/-- Further operations that `add_dummy` uses on `_Node`: the constructor
`_Node(id, obj, depth)` and the static member `get_dummy()`, which yields the sentinel
payload; `obj` reads the payload back.  The three laws say that the constructor stores
its arguments. -/
class dummy_node (α : Type) (β : outParam Type) [graph_node α] where
  /-- The payload of a node. -/
  obj : α → β
  /-- The sentinel payload `_Node::get_dummy()`. -/
  get_dummy : β
  /-- The constructor `_Node(id, obj, depth)`. -/
  make : Int → β → Int → α
  id_make : ∀ i o d, graph_node.id (make i o d) = i
  obj_make : ∀ i o d, obj (make i o d) = o
  depth_make : ∀ i o d, graph_node.depth (make i o d) = d

instance : dummy_node call_node Bool where
  obj := call_node.is_dummy
  get_dummy := true
  make := fun i o d => { id := i, depth := d, is_dummy := o }
  id_make := fun _ _ _ => rfl
  obj_make := fun _ _ _ => rfl
  depth_make := fun _ _ _ => rfl

/-! ## The tree container `tim::graph` -/

/-- Modelled from the spec: the iterator of `tim::graph` (graph.hpp is missing).  An
iterator is a nullable handle: `null` is the null iterator, `feet` is the end sentinel
returned by `end()`, and `node i` designates slot `i` of the arena. -/
inductive iterator where
  | null
  | feet
  | node (i : Nat)
  deriving DecidableEq

/-- The conversion `operator bool` of an iterator: true unless the iterator is null. -/
def iterator.to_bool : iterator → Bool
  | iterator.null => false
  | _ => true

/-- Modelled from the spec: one node of the tree (graph.hpp is missing).  It holds the
payload, the structural parent (none at a root) and the children in insertion order. -/
structure tree_node (α : Type) where
  data : α
  parent : Option Nat
  children : List Nat
  deriving DecidableEq

/-- Modelled from the spec: the container `tim::graph` (graph.hpp is missing), an ordered,
multi-child, parent-linked tree kept in an arena.  Slot `i` of `nodes` is the node with
handle `i`, or `none` once that node has been erased; `top` lists the top-level nodes
(the head and its siblings) in order. -/
structure graph (α : Type) where
  nodes : List (Option (tree_node α))
  top : List Nat
  deriving DecidableEq

variable {α : Type}

/-- The empty container, as left by the default constructor. -/
def graph.empty : graph α := { nodes := [], top := [] }

/-- Dereference: the tree node an iterator designates, if it designates a live one. -/
def graph.get (g : graph α) : iterator → Option (tree_node α)
  | iterator.node i => (g.nodes[i]?).join
  | _ => none

/-- The end sentinel `end()`. -/
def graph.end_sentinel (_g : graph α) : iterator := iterator.feet

/-- Modelled from the spec: `set_head(x)` of the missing graph.hpp.  It establishes the root
of an empty tree and returns an iterator to it; setting a head twice is an error. -/
def graph.set_head (g : graph α) (x : α) : Option (graph α × iterator) :=
  if g.top.isEmpty then
    some ({ nodes := g.nodes ++ [some { data := x, parent := none, children := [] }],
            top := [g.nodes.length] },
          iterator.node g.nodes.length)
  else none

/-- Modelled from the spec: `append_child(position, x)` of the missing graph.hpp.  It inserts
`x` as a new last child of the node at `position` and returns an iterator to the new
node; inserting under a cursor that designates no node is rejected. -/
def graph.append_child (g : graph α) (position : iterator) (x : α) :
    Option (graph α × iterator) :=
  match position with
  | iterator.node p =>
    match g.get (iterator.node p) with
    | some n =>
      some ({ nodes := g.nodes.set p (some { n with children := n.children ++ [g.nodes.length] })
                        ++ [some { data := x, parent := some p, children := [] }],
              top := g.top },
            iterator.node g.nodes.length)
    | none => none
  | _ => none

/-- Modelled from the spec: `parent(position)` of the missing graph.hpp.  It returns the
structural parent, or the null iterator at a root; `none` when `position` designates
no node. -/
def graph.parent (g : graph α) (position : iterator) : Option iterator :=
  match g.get position with
  | some n =>
    match n.parent with
    | some p => some (iterator.node p)
    | none => some iterator.null
  | none => none

/-- Modelled from the spec: `is_head(it)` of the missing graph.hpp.  It tells whether the
node is a root of the tree, that is, has no parent; `none` when `it` designates no
node. -/
def graph.is_head (g : graph α) (it : iterator) : Option Bool :=
  match g.get it with
  | some n => some n.parent.isNone
  | none => none

/-- The children of slot `i` in insertion order: the range `begin() .. end()` of a
sibling iterator positioned on that node. -/
def graph.children (g : graph α) (i : Nat) : List Nat :=
  match g.get (iterator.node i) with
  | some n => n.children
  | none => []

/-- Pre-order listing (parent before children, children in order) of the subtree below
slot `i`, descending at most `fuel` levels. -/
def graph.subtree (g : graph α) : Nat → Nat → List Nat
  | 0, _ => []
  | fuel + 1, i => i :: (g.children i).flatMap (graph.subtree g fuel)

/-- Modelled from the spec: the pre-order traversal `begin() .. end()` of the missing
graph.hpp, as the list of handles it visits: every top-level node in order, each
followed by its descendants, parent before children. -/
def graph.pre_order (g : graph α) : List Nat :=
  g.top.flatMap (graph.subtree g g.nodes.length)

/-- The strict ancestors of slot `i`, nearest first, following at most `fuel` parent
links. -/
def graph.ancestors (g : graph α) : Nat → Nat → List Nat
  | 0, _ => []
  | fuel + 1, i =>
    match g.get (iterator.node i) with
    | some n =>
      match n.parent with
      | some p => p :: graph.ancestors g fuel p
      | none => []
    | none => []

/-- Modelled from the spec: `erase_children(it)` of the missing graph.hpp.  It removes the
entire subtree below the node, that is every node that has it among its ancestors, and
preserves the node itself, which is left without children; `none` when `it` designates
no node. -/
def graph.erase_children (g : graph α) (it : iterator) : Option (graph α) :=
  match it with
  | iterator.node h =>
    match g.get (iterator.node h) with
    | some n =>
      some { nodes := (List.range g.nodes.length).map (fun i =>
                if h ∈ g.ancestors g.nodes.length i then none
                else if i = h then some { n with children := [] }
                else (g.nodes[i]?).join),
             top := g.top }
    | none => none
  | _ => none

/-- Modelled from the spec: `clear()` of the missing graph.hpp.  All nodes are destroyed:
every slot is erased and no top-level node is left. -/
def graph.clear (g : graph α) : graph α :=
  { nodes := g.nodes.map (fun _ => none), top := [] }

/-- Insert `x` right after the first occurrence of `pos` in a list of siblings. -/
def list_insert_after (pos x : Nat) : List Nat → List Nat
  | [] => []
  | a :: rest =>
    if a = pos then a :: x :: rest else a :: list_insert_after pos x rest

/-- Modelled from the spec: `insert_after(position, x)` of the missing graph.hpp.  It inserts
`x` as the next sibling of the node at `position` (same parent, right after it in
sibling order) and returns an iterator to the new node; `none` when `position`
designates no node. -/
def graph.insert_after (g : graph α) (position : iterator) (x : α) :
    Option (graph α × iterator) :=
  match position with
  | iterator.node q =>
    match g.get (iterator.node q) with
    | some n =>
      match n.parent with
      | none =>
        some ({ nodes := g.nodes ++ [some { data := x, parent := none, children := [] }],
                top := list_insert_after q g.nodes.length g.top },
              iterator.node g.nodes.length)
      | some p =>
        match g.get (iterator.node p) with
        | some m =>
          some ({ nodes := g.nodes.set p
                      (some { m with children := list_insert_after q g.nodes.length m.children })
                    ++ [some { data := x, parent := some p, children := [] }],
                  top := g.top },
                iterator.node g.nodes.length)
        | none => none
    | none => none
  | _ => none

/-! ## The ordered multimap of dummy nodes -/

/-- The `std::multimap::insert` of `m_dummies`: entries are kept in key order and a new
entry goes after the entries with an equal key. -/
def multimap_insert {β : Type} (k : Int) (v : β) : List (Int × β) → List (Int × β)
  | [] => [(k, v)]
  | (k0, v0) :: rest =>
    if k < k0 then (k, v) :: (k0, v0) :: rest
    else (k0, v0) :: multimap_insert k v rest

/-! ## `graph_data` -/

/-- The data members of `tim::graph_data<_Node>`.  `m_master` is the address of the master
graph data (`none` is `nullptr`); `m_dummies` lists the multimap in iteration order. -/
structure graph_data (α : Type) where
  m_has_head : Bool
  m_depth : Int
  m_sea_level : Int
  m_graph : graph α
  m_current : iterator
  m_head : iterator
  m_master : Option Nat
  m_dummies : List (Int × iterator)
  deriving DecidableEq

namespace graph_data

/-- The constructor `graph_data(rhs, _depth, _master)` (the transition `construct` of
the state machine). -/
def construct (rhs : α) (_depth : Int) (_master : Option Nat) : Option (tim.graph_data α) :=
  match graph.empty.set_head rhs with
  | some (g, h) =>
    some { m_has_head := true
           m_depth := _depth
           m_sea_level := _depth
           m_graph := g
           m_current := h
           m_head := h
           m_master := _master
           m_dummies := multimap_insert _depth h [] }
  | none => none

/-- The accessor `has_head()`. -/
def has_head (s : tim.graph_data α) : Bool := s.m_has_head

/-- The accessor `depth()`. -/
def depth (s : tim.graph_data α) : Int := s.m_depth

/-- The accessor `sea_level()`. -/
def sea_level (s : tim.graph_data α) : Int := s.m_sea_level

/-- The accessor `current()`. -/
def current (s : tim.graph_data α) : iterator := s.m_current

/-- The accessor `head()`. -/
def head (s : tim.graph_data α) : iterator := s.m_head

/-- The member `at_sea_level()`. -/
def at_sea_level (s : tim.graph_data α) : Bool := decide (s.m_depth = s.m_sea_level)

/-- The member `pop_graph()`: the new state and the returned iterator. -/
def pop_graph (s : tim.graph_data α) : Option (tim.graph_data α × iterator) :=
  -- m_depth > 0 && !m_graph.is_head(m_current)
  let cond : Option Bool :=
    if 0 < s.m_depth then (s.m_graph.is_head s.m_current).map (fun b => !b) else some false
  match cond with
  | none => none
  | some true =>
    -- --m_depth; m_current = graph_t::parent(m_current);
    match s.m_graph.parent s.m_current with
    | some p => some ({ s with m_depth := s.m_depth - 1, m_current := p }, p)
    | none => none
  | some false =>
    if s.m_depth = 0 then some ({ s with m_current := s.m_head }, s.m_head)
    else some (s, s.m_current)

/-- The member `append_child(node)`: the new state and the returned iterator. -/
def append_child (s : tim.graph_data α) (node : α) : Option (tim.graph_data α × iterator) :=
  -- ++m_depth; return (m_current = m_graph.append_child(m_current, node));
  match s.m_graph.append_child s.m_current node with
  | some (g, it) => some ({ s with m_depth := s.m_depth + 1, m_graph := g, m_current := it }, it)
  | none => none

/-- The `while(_parent)` loop of `get_rolling_hash`: collects the ids of the ancestors,
nearest first.  `owner` is the tree the iterator points into. -/
def hierarchy_loop [graph_node α] (owner : graph α) :
    Nat → iterator → List Int → Option (List Int)
  | 0, _, _ => none
  | fuel + 1, _parent, _hierarchy =>
    if _parent.to_bool then
      match owner.get _parent, owner.parent _parent with
      | some n, some p =>
        if !p.to_bool then some (_hierarchy ++ [graph_node.id n.data])
        else hierarchy_loop owner fuel p (_hierarchy ++ [graph_node.id n.data])
      | _, _ => none
    else some _hierarchy

/-- The member `get_rolling_hash(itr)`.  `owner` is the tree the iterator points into
(the function only follows the parent links of `itr`).  Everything below the first
line is reached only for a null iterator, on which `parent` has no defined result, so
the `int` accumulator of `std::accumulate(.., 0)` never comes into play. -/
def get_rolling_hash [graph_node α] (owner : graph α) (itr : iterator) : Option Int :=
  -- if(itr) return 0;
  if itr.to_bool then some 0
  else
    match owner.parent itr with
    | none => none
    | some _parent =>
      match hierarchy_loop owner (owner.nodes.length + 1) _parent [] with
      | none => none
      | some h =>
        let _hierarchy := if 1 < h.length then h.reverse else h
        match owner.get itr with
        | some n => some ((_hierarchy ++ [graph_node.id n.data]).foldl (fun a b => a + b) 0)
        | none => none

/-- The test `cand && *itr == *cand && get_rolling_hash(itr) == get_rolling_hash(cand)`
of `find`, with the short-circuit evaluation of `&&`.  `src` is the tree `itr` points
into, `cand` points into the tree of `s`. -/
def node_match [graph_node α] (s : tim.graph_data α) (src : graph α) (itr cand : iterator) :
    Option Bool :=
  if !cand.to_bool then some false
  else
    match src.get itr, s.m_graph.get cand with
    | some a, some b =>
      if graph_node.eq a.data b.data then
        match get_rolling_hash src itr, get_rolling_hash s.m_graph cand with
        | some x, some y => some (decide (x = y))
        | _, _ => none
      else some false
    | _, _ => none

/-- The inner loop of `find` over the sibling range `entry.begin() .. entry.end()`. -/
def find_sibling [graph_node α] (s : tim.graph_data α) (src : graph α) (itr : iterator) :
    List Nat → Option (Option Nat)
  | [] => some none
  | sitr :: rest =>
    match node_match s src itr (iterator.node sitr) with
    | none => none
    | some true => some (some sitr)
    | some false => find_sibling s src itr rest

/-- The outer loop of `find` over the pre-order range `begin() .. end()`. -/
def find_loop [graph_node α] (s : tim.graph_data α) (src : graph α) (itr : iterator) :
    List Nat → Option iterator
  | [] => some s.m_graph.end_sentinel
  | fitr :: rest =>
    match node_match s src itr (iterator.node fitr) with
    | none => none
    | some true => some (iterator.node fitr)
    | some false =>
      match find_sibling s src itr (s.m_graph.children fitr) with
      | none => none
      | some (some sitr) => some (iterator.node sitr)
      | some none => find_loop s src itr rest

/-- The member `find(itr)`.  `src` is the tree `itr` points into. -/
def find [graph_node α] (s : tim.graph_data α) (src : graph α) (itr : iterator) :
    Option iterator :=
  -- if(!itr) return end();
  if !itr.to_bool then some s.m_graph.end_sentinel
  else find_loop s src itr s.m_graph.pre_order

/-- The member `get_inverse_insert()`. -/
def get_inverse_insert (s : tim.graph_data α) : List (Int × iterator) :=
  (s.m_dummies.foldl (fun ret itr => ret ++ [(itr.1, itr.2)]) []).reverse

/-- The member `clear()`. -/
def clear (s : tim.graph_data α) : tim.graph_data α :=
  { s with m_graph := s.m_graph.clear
           m_has_head := false
           m_depth := 0
           m_sea_level := 0
           m_current := iterator.null
           m_dummies := [] }

/-- The member `reset()`. -/
def reset (s : tim.graph_data α) : Option (tim.graph_data α) :=
  -- m_graph.erase_children(m_head); m_depth = 0; m_current = m_head;
  match s.m_graph.erase_children s.m_head with
  | some g => some { s with m_graph := g, m_depth := 0, m_current := s.m_head }
  | none => none

/-- The member `add_dummy()`.  `master` is the graph data that `m_master` points to; it
is read only when `m_master` is not null. -/
def add_dummy {β : Type} [graph_node α] [dummy_node α β] (s master : tim.graph_data α) :
    Option (tim.graph_data α) :=
  match s.m_master with
  | none => some s
  | some _ =>
    -- auto _current = m_master->current(); _current->id(); _current->depth();
    match master.m_graph.get master.m_current with
    | some cn =>
      let _id := graph_node.id cn.data
      let _depth := graph_node.depth cn.data
      let node : α := dummy_node.make _id (dummy_node.get_dummy α) _depth
      match s.m_graph.insert_after s.m_head node with
      | some (g, it) =>
        some { s with m_depth := _depth
                      m_sea_level := _depth
                      m_graph := g
                      m_current := it
                      m_dummies := multimap_insert _depth it s.m_dummies }
      | none => none
    | none => none

end graph_data

/-! ## Sequences of calls -/

/-- One call of the push/pop interface. -/
inductive call (α : Type) where
  | append_child (node : α)
  | pop_graph

/-- Perform one call, dropping the returned iterator. -/
def graph_data.step (s : graph_data α) : call α → Option (graph_data α)
  | call.append_child node => (s.append_child node).map Prod.fst
  | call.pop_graph => s.pop_graph.map Prod.fst

/-- Perform a sequence of calls from left to right. -/
def graph_data.run (s : graph_data α) : List (call α) → Option (graph_data α)
  | [] => some s
  | c :: cs =>
    match s.step c with
    | some s1 => graph_data.run s1 cs
    | none => none

/-- One call of the interface that moves the cursor: push, pop, `add_dummy()` (with the
graph data `m_master` points to at that moment) and `reset()`. -/
inductive event (α : Type) where
  | append_child (node : α)
  | pop_graph
  | add_dummy (master : graph_data α)
  | reset

/-- Perform one event, dropping a returned iterator. -/
def graph_data.step_event {β : Type} [graph_node α] [dummy_node α β] (s : graph_data α) :
    event α → Option (graph_data α)
  | event.append_child node => (s.append_child node).map Prod.fst
  | event.pop_graph => s.pop_graph.map Prod.fst
  | event.add_dummy master => s.add_dummy master
  | event.reset => s.reset

/-- Perform a sequence of events from left to right. -/
def graph_data.run_events {β : Type} [graph_node α] [dummy_node α β] (s : graph_data α) :
    List (event α) → Option (graph_data α)
  | [] => some s
  | e :: es =>
    match s.step_event e with
    | some s1 => graph_data.run_events s1 es
    | none => none

/-! ## Specification-side notions used to state the properties -/

/-- The depth stored in the node that `current()` designates, if it designates one. -/
def graph_data.current_node_depth [graph_node α] (s : graph_data α) : Option Int :=
  (s.m_graph.get s.m_current).map (fun n => graph_node.depth n.data)

/-- The caller keeps the depth of a pushed node in step with the counter: a node handed to
`append_child` carries the depth the counter has right after that call. -/
def graph_data.call_tracked [graph_node α] (s : graph_data α) : call α → Bool
  | call.append_child node => decide (graph_node.depth node = s.m_depth + 1)
  | call.pop_graph => true

/-- Every call of the sequence is tracked in the state in which it is made. -/
def graph_data.depth_tracked [graph_node α] (s : graph_data α) : List (call α) → Bool
  | [] => true
  | c :: cs =>
    s.call_tracked c &&
    (match s.step c with
      | some s1 => graph_data.depth_tracked s1 cs
      | none => true)

/-- The rolling hash in the words of the specification: the sum of the scope identities
of the node and of all its ancestors up to the root.  `fuel` bounds the length of the
chain that is followed. -/
def graph.spec_rolling_hash [graph_node α] (g : graph α) : Nat → iterator → Int
  | 0, _ => 0
  | fuel + 1, it =>
    match g.get it with
    | some n =>
      (match n.parent with
        | some p => graph.spec_rolling_hash g fuel (iterator.node p)
        | none => 0) + graph_node.id n.data
    | none => 0

/-- Structural well-formedness of the arena: top-level entries designate live nodes
without parent, a child link designates a live node whose parent link points back, a
parent link points to an older live node that lists the node among its children, and a
node without parent is a top-level node. -/
structure graph.wf (g : graph α) : Prop where
  top_root : ∀ i, i ∈ g.top → ∃ n, g.get (iterator.node i) = some n ∧ n.parent = none
  child_link : ∀ i n c, g.get (iterator.node i) = some n → c ∈ n.children →
    ∃ m, g.get (iterator.node c) = some m ∧ m.parent = some i
  parent_link : ∀ i n p, g.get (iterator.node i) = some n → n.parent = some p →
    p < i ∧ ∃ m, g.get (iterator.node p) = some m ∧ i ∈ m.children
  root_top : ∀ i n, g.get (iterator.node i) = some n → n.parent = none → i ∈ g.top

/-- The events of the sample call path: a root with scope id 1, below it a scope 2
containing a scope 4, then a scope 3 containing a scope 4 again. -/
def sample_events : List (call call_node) :=
  [call.append_child ⟨2, 1, false⟩, call.append_child ⟨4, 2, false⟩, call.pop_graph,
   call.pop_graph, call.append_child ⟨3, 1, false⟩, call.append_child ⟨4, 2, false⟩]

/-- The graph data a thread builds from `sample_events` below a root with scope id 1. -/
def sample_thread : Option (graph_data call_node) :=
  (graph_data.construct ⟨1, 0, false⟩ 0 none).bind (fun s => s.run sample_events)

/-- The events of a straight call path: scope 2 below the root, scope 3 below scope 2. -/
def chain_events : List (call call_node) :=
  [call.append_child ⟨2, 1, false⟩, call.append_child ⟨3, 2, false⟩]

/-- The graph data a thread builds from `chain_events` below a root with scope id 1. -/
def chain_thread : Option (graph_data call_node) :=
  (graph_data.construct ⟨1, 0, false⟩ 0 none).bind (fun s => s.run chain_events)

/-- The graph data right after construction from a root with scope id 1 at depth 0. -/
def sample_root_state : graph_data call_node :=
  { m_has_head := true, m_depth := 0, m_sea_level := 0,
    m_graph := { nodes := [some { data := ⟨1, 0, false⟩, parent := none, children := [] }],
                 top := [0] },
    m_current := iterator.node 0, m_head := iterator.node 0, m_master := none,
    m_dummies := [(0, iterator.node 0)] }

/-- The graph data after `sample_events`: the cursor is on the second scope 4 (slot 4),
two levels below the root. -/
def sample_nested_state : graph_data call_node :=
  { m_has_head := true, m_depth := 2, m_sea_level := 0,
    m_graph :=
      { nodes := [some ⟨⟨1, 0, false⟩, none, [1, 3]⟩, some ⟨⟨2, 1, false⟩, some 0, [2]⟩,
                  some ⟨⟨4, 2, false⟩, some 1, []⟩, some ⟨⟨3, 1, false⟩, some 0, [4]⟩,
                  some ⟨⟨4, 2, false⟩, some 3, []⟩],
        top := [0] },
    m_current := iterator.node 4, m_head := iterator.node 0, m_master := none,
    m_dummies := [(0, iterator.node 0)] }

/-- The graph data after `chain_events`: the cursor is on scope 3 (slot 2), two levels
below the root. -/
def chain_nested_state : graph_data call_node :=
  { m_has_head := true, m_depth := 2, m_sea_level := 0,
    m_graph :=
      { nodes := [some ⟨⟨1, 0, false⟩, none, [1]⟩, some ⟨⟨2, 1, false⟩, some 0, [2]⟩,
                  some ⟨⟨3, 2, false⟩, some 1, []⟩],
        top := [0] },
    m_current := iterator.node 2, m_head := iterator.node 0, m_master := none,
    m_dummies := [(0, iterator.node 0)] }

/-- The structural invariant of a graph data driven through its push/pop interface: the
tree is well formed and both cursors designate live nodes. -/
structure graph_data.inv (s : graph_data α) : Prop where
  wf : s.m_graph.wf
  current_live : ∃ c n, s.m_current = iterator.node c ∧ s.m_graph.get (iterator.node c) = some n
  head_live : ∃ h n, s.m_head = iterator.node h ∧ s.m_graph.get (iterator.node h) = some n

/-- The depth bookkeeping invariant: the node under the cursor stores the value of the
depth counter, every child stores the depth of its parent plus one, no node stores a
negative depth, and the head is the only node without parent. -/
structure graph_data.depth_inv [graph_node α] (s : graph_data α) : Prop where
  current_depth : ∀ n, s.m_graph.get s.m_current = some n → graph_node.depth n.data = s.m_depth
  child_depth : ∀ i n p m, s.m_graph.get (iterator.node i) = some n → n.parent = some p →
    s.m_graph.get (iterator.node p) = some m →
    graph_node.depth n.data = graph_node.depth m.data + 1
  nonneg : ∀ i n, s.m_graph.get (iterator.node i) = some n → 0 ≤ graph_node.depth n.data
  root_head : ∀ i n, s.m_graph.get (iterator.node i) = some n → n.parent = none →
    iterator.node i = s.m_head

/-- A graph data whose catalogue holds the root at depth 0 and two dummies at depths 2
and 1, the second inserted later. -/
def sample_catalogue_state : graph_data call_node :=
  { sample_root_state with
    m_dummies := multimap_insert 1 (iterator.node 2)
      (multimap_insert 2 (iterator.node 1) [(0, iterator.node 0)]) }

/-- A freshly constructed worker graph data (root with scope id 1 at depth 0) whose master
pointer is set. -/
def sample_worker_state : graph_data call_node :=
  { sample_root_state with m_master := some 1 }

/-- Whether an event is a call of `add_dummy()`. -/
def event.is_add_dummy : event α → Bool
  | event.add_dummy _ => true
  | _ => false

/-- The open-scope invariant of a graph data driven without dummies: the head is the only
node without parent, and the cursor has at most `depth()` ancestors. -/
structure graph_data.scope_inv (s : graph_data α) : Prop where
  root_head : ∀ i n, s.m_graph.get (iterator.node i) = some n → n.parent = none →
    iterator.node i = s.m_head
  head_root : ∀ h n, s.m_head = iterator.node h → s.m_graph.get (iterator.node h) = some n →
    n.parent = none
  dist_le : ∀ c, s.m_current = iterator.node c →
    ((s.m_graph.ancestors s.m_graph.nodes.length c).length : Int) ≤ s.m_depth

/-- A worker graph data after `add_dummy()` under a master at depth 0, one `append_child`
and one `pop_graph()`: the events of `dummy_pop_events`. -/
def dummy_pop_events : List (event call_node) :=
  [event.add_dummy sample_root_state, event.append_child ⟨5, 1, false⟩, event.pop_graph]

/-- The state a fresh worker reaches through `dummy_pop_events`: the cursor is on the
dummy node (slot 1) and the depth counter is 0. -/
def dummy_pop_state : graph_data call_node :=
  { sample_worker_state with
    m_graph := { nodes := [some ⟨⟨1, 0, false⟩, none, []⟩,
                           some ⟨⟨1, 0, true⟩, none, [2]⟩,
                           some ⟨⟨5, 1, false⟩, some 1, []⟩],
                 top := [0, 1] },
    m_current := iterator.node 1,
    m_dummies := [(0, iterator.node 0), (0, iterator.node 1)] }

/-! ## The tuple dispatch engine, `mpl/apply.hpp`

A bundle (`std::tuple` of components) is the list of its elements in declaration order,
over one element type `E`; `std::get<I>` is the lookup at position `I`, and an
instantiation in which it is out of range does not compile (`none`).  The extra
arguments forwarded to every operation are one value of type `A`, and `W` is the rest
of the program state an operation or a callable may act on. -/

/-- An entry of an `Access` list: the operation type whose construction
`Op(element, args...)` acts on the element, taken by reference, and on the program
state. -/
def operation (E A W : Type) : Type := E → A → W → E × W

/-- An entry of the `Access` list of `access2`: the operation type whose construction
`Op(a, b, args...)` acts on the two elements and on the program state. -/
def operation2 (E A W : Type) : Type := E → E → A → W → E × E × W

/-- Modelled from the spec: the macro `TIMEMORY_FOLD_EXPRESSION` is defined in a header
that is not among the sources.  It evaluates its pack expansion once for every index
of the pack, in index order. -/
def TIMEMORY_FOLD_EXPRESSION {S : Type} (expr : Nat → S → Option S) : List Nat → S → Option S
  | [], st => some st
  | i :: rest, st =>
    match expr i st with
    | some st1 => TIMEMORY_FOLD_EXPRESSION expr rest st1
    | none => none

/-- The expression folded by `access_fold`: `Access_t<Idx, Access>(std::get<Idx>(_t),
_args...)`. -/
def apply_void.access_expr {E A W : Type} (Access : List (operation E A W)) (_args : A)
    (i : Nat) (st : List E × W) : Option (List E × W) :=
  match Access[i]?, st.1[i]? with
  | some op, some e => some (st.1.set i (op e _args st.2).1, (op e _args st.2).2)
  | _, _ => none

/-- The function `apply<void>::access_fold<Access>(_t, index_sequence<Idx...>, _args...)`. -/
def apply_void.access_fold {E A W : Type} (Access : List (operation E A W)) (_t : List E)
    (Idx : List Nat) (_args : A) (w : W) : Option (List E × W) :=
  TIMEMORY_FOLD_EXPRESSION (apply_void.access_expr Access _args) Idx (_t, w)

/-- The function `apply<void>::access<Access>(__t, __args...)`; the `static_assert` on
the two sizes makes a mismatched instantiation fail to compile (`none`). -/
def apply_void.access {E A W : Type} (Access : List (operation E A W)) (__t : List E)
    (__args : A) (w : W) : Option (List E × W) :=
  -- constexpr auto N = tuple_size<Access>; constexpr auto Nt = tuple_size<Tuple>;
  if Access.length = __t.length then
    apply_void.access_fold Access __t (List.range Access.length) __args w
  else none

/-- The expression folded by `apply_access2`:
`tuple_element<Idx, Access>::type(std::get<Idx>(__ta), std::get<Idx>(__tb), __args...)`. -/
def internal.apply_void.access2_expr {E A W : Type} (Access : List (operation2 E A W))
    (__args : A) (i : Nat) (st : List E × List E × W) : Option (List E × List E × W) :=
  match Access[i]?, st.1[i]?, st.2.1[i]? with
  | some op, some a, some b =>
    some (st.1.set i (op a b __args st.2.2).1,
          st.2.1.set i (op a b __args st.2.2).2.1,
          (op a b __args st.2.2).2.2)
  | _, _, _ => none

/-- The function `internal::apply<void>::apply_access2<Access>(__ta, __tb,
index_sequence<Idx...>, __args...)`. -/
def internal.apply_void.apply_access2 {E A W : Type} (Access : List (operation2 E A W))
    (__ta __tb : List E) (Idx : List Nat) (__args : A) (w : W) :
    Option (List E × List E × W) :=
  TIMEMORY_FOLD_EXPRESSION (internal.apply_void.access2_expr Access __args) Idx (__ta, __tb, w)

/-- The function `apply<void>::access2<Access>(__ta, __tb, __args...)`; the
`static_assert` compares the sizes of the two bundles only, and the index sequence
is that of `Access`. -/
def apply_void.access2 {E A W : Type} (Access : List (operation2 E A W))
    (__ta __tb : List E) (__args : A) (w : W) : Option (List E × List E × W) :=
  -- constexpr size_t N = tuple_size<Access>; Na = tuple_size<TupleA>; Nb = tuple_size<TupleB>;
  if __ta.length = __tb.length then
    internal.apply_void.apply_access2 Access __ta __tb (List.range Access.length) __args w
  else none

/-- The argument pack `std::get<Idx>(__t)...`. -/
def get_pack {E : Type} (__t : List E) : List Nat → Option (List E)
  | [] => some []
  | i :: rest =>
    match __t[i]?, get_pack __t rest with
    | some e, some es => some (e :: es)
    | _, _ => none

/-- The function `internal::apply<Ret>::invoke(__f, __t, index_sequence<Idx...>)`: the
callable applied to the argument list `std::get<Idx>(__t)...`, with its result. -/
def internal.apply_ret.invoke {E W R : Type} (__f : List E → W → R × W) (__t : List E)
    (Idx : List Nat) (w : W) : Option (R × W) :=
  match get_pack __t Idx with
  | some pack => some (__f pack w)
  | none => none

/-- The function `internal::apply<void>::invoke(__f, __t, index_sequence<Idx...>)`: as
before, the result of the callable being dropped. -/
def internal.apply_void.invoke {E W R : Type} (__f : List E → W → R × W) (__t : List E)
    (Idx : List Nat) (w : W) : Option W :=
  match get_pack __t Idx with
  | some pack => some (__f pack w).2
  | none => none

/-- The function `apply<Ret>::invoke(__f, __t)` on a tuple. -/
def apply_ret.invoke {E W R : Type} (__f : List E → W → R × W) (__t : List E) (w : W) :
    Option (R × W) :=
  internal.apply_ret.invoke __f __t (List.range __t.length) w

/-- The function `apply<void>::invoke(__f, __t)` on a tuple. -/
def apply_void.invoke {E W R : Type} (__f : List E → W → R × W) (__t : List E) (w : W) :
    Option W :=
  internal.apply_void.invoke __f __t (List.range __t.length) w

/-- Dispatch in the words of the specification: operation `i` is applied to element `i`,
once, for the indices in increasing order; elements beyond the operations are left
as they are. -/
def dispatch_in_order {E A W : Type} :
    List (operation E A W) → List E → A → W → List E × W
  | op :: ops, e :: es, args, w =>
    ((op e args w).1 :: (dispatch_in_order ops es args (op e args w).2).1,
     (dispatch_in_order ops es args (op e args w).2).2)
  | _, es, _, w => (es, w)

/-- Pairwise dispatch in the words of the specification: operation `i` is applied to the
pair of the elements `i` of the two bundles, once, for the indices in increasing
order; pairs beyond the operations are left as they are. -/
def dispatch_pairs_in_order {E A W : Type} :
    List (operation2 E A W) → List E → List E → A → W → List E × List E × W
  | op :: ops, a :: as, b :: bs, args, w =>
    ((op a b args w).1 :: (dispatch_pairs_in_order ops as bs args (op a b args w).2.2).1,
     (op a b args w).2.1 :: (dispatch_pairs_in_order ops as bs args (op a b args w).2.2).2.1,
     (dispatch_pairs_in_order ops as bs args (op a b args w).2.2).2.2)
  | _, as, bs, _, w => (as, bs, w)

/-- An operation that leaves the element alone and records, in a log, its own position
in the `Access` list, the element it was given and the extra arguments. -/
def logging_op {E A : Type} (i : Nat) : operation E A (List (Nat × E × A)) :=
  fun e args log => (e, log ++ [(i, e, args)])

/-- A pairwise operation that leaves the elements alone and records, in a log, its own
position in the `Access` list and the two elements it was given. -/
def logging_op2 {E A : Type} (i : Nat) : operation2 E A (List (Nat × E × E)) :=
  fun a b _ log => (a, b, log ++ [(i, a, b)])

/-- A callable that records, in a log, the argument list of each of its calls. -/
def logging_fn {E : Type} : List E → List (List E) → Unit × List (List E) :=
  fun pack log => ((), log ++ [pack])

/-! ### Out-of-order access and `set_value` -/

/-- The static type of a bundle element, as far as `get_index_of` tells types apart: a
named type or a pointer to a type. -/
inductive cpp_type where
  | named (n : Nat)
  | pointer (t : cpp_type)
  deriving DecidableEq

/-- The slot of a bundle holds the component `Tp`: it is declared as `Tp` or as `Tp*`
(the two partial specialisations of `get_index_of` with value 0). -/
def cpp_type.holds (Tp Head : cpp_type) : Bool :=
  decide (Head = Tp) || decide (Head = cpp_type.pointer Tp)

/-- The trait `internal::apply<void>::get_index_of<Tp, std::tuple<...>>::value`; `none`
when the instantiation runs into `static_assert(sizeof...(Tail) != 0, "Type not
found")`. -/
def internal.apply_void.get_index_of (Tp : cpp_type) : List cpp_type → Option Nat
  | [] => none
  | Head :: Tail =>
    if Head = Tp then some 0
    else if Head = cpp_type.pointer Tp then some 0
    else (internal.apply_void.get_index_of Tp Tail).map (fun value => 1 + value)

/-- An entry `Operator<Type, Types...>` of the `Access` list of `out_of_order`: the
component type it targets and what its construction does. -/
structure typed_operation (E A W : Type) where
  target : cpp_type
  run : operation E A W

/-- The function `internal::apply<void>::out_of_order_T<Operator<Type, Types...>, TypeU,
1>::access(__t, __args...)`.  A bundle is given with the declared type of every slot. -/
def internal.apply_void.out_of_order_T.access {E A W : Type} (Op : typed_operation E A W)
    (__t : List (cpp_type × E)) (__args : A) (w : W) : Option (List (cpp_type × E) × W) :=
  -- static_assert(std::tuple_size<TupleT>::value != 0, "Error! tuple_size = 0");
  if __t.length = 0 then none
  else
    match internal.apply_void.get_index_of Op.target (__t.map Prod.fst) with
    | none => none
    | some N =>
      match __t[N]? with
      | some slot =>
        some (__t.set N (slot.1, (Op.run slot.2 __args w).1), (Op.run slot.2 __args w).2)
      | none => none

/-- The function `internal::apply<void>::out_of_order<std::tuple<Access...>, AccessU,
1>::access(__t, __args...)`: the fold over the entries of `Access`. -/
def internal.apply_void.out_of_order.access {E A W : Type}
    (Access : List (typed_operation E A W)) (__t : List (cpp_type × E)) (__args : A) (w : W) :
    Option (List (cpp_type × E) × W) :=
  TIMEMORY_FOLD_EXPRESSION
    (fun i st =>
      match Access[i]? with
      | some Op => internal.apply_void.out_of_order_T.access Op st.1 __args st.2
      | none => none)
    (List.range Access.length) (__t, w)

/-- The function `apply<void>::out_of_order<Access, Mapper, 1>(__t, __args...)`: the
overload for `N > 0 && Nt > 0` forwards to the fold, the overload for `N == 0 || Nt ==
0` does nothing. -/
def apply_void.out_of_order {E A W : Type} (Access : List (typed_operation E A W))
    (__t : List (cpp_type × E)) (__args : A) (w : W) : Option (List (cpp_type × E) × W) :=
  if 0 < Access.length ∧ 0 < __t.length then
    internal.apply_void.out_of_order.access Access __t __args w
  else some (__t, w)

/-- The overload set `set_value_fold(Tp&&, int, Value&&)` / `set_value_fold(Tp&&, long,
Value&&)` called with the literal `0`: `assign _t _v` is the outcome of
`_t = std::forward<Value>(_v)` where that expression is well-formed for the type of the
element, namely the element after the assignment and the value after it (an rvalue
of a movable type is left moved-from), and `none` where it is not well-formed.  The
first overload is chosen where it is viable, the second one does nothing. -/
def apply_void.set_value_fold_one {E V : Type} (assign : E → V → Option (E × V)) (_t : E)
    (_v : V) : E × V :=
  match assign _t _v with
  | some r => r
  | none => (_t, _v)

/-- The function `apply<void>::set_value_fold(_t, _v, index_sequence<Idx...>)`.  The same
`std::forward<Value>(_v)` goes into every call of the fold, so each element is
assigned from the value as the assignments before it have left it. -/
def apply_void.set_value_fold {E V : Type} (assign : E → V → Option (E × V)) (_t : List E)
    (_v : V) (Idx : List Nat) : Option (List E × V) :=
  TIMEMORY_FOLD_EXPRESSION
    (fun i st =>
      match st.1[i]? with
      | some e =>
        some (st.1.set i (apply_void.set_value_fold_one assign e st.2).1,
              (apply_void.set_value_fold_one assign e st.2).2)
      | none => none)
    Idx (_t, _v)

/-- The function `apply<void>::set_value(_t, _v)`: the bundle and the value after the
call. -/
def apply_void.set_value {E V : Type} (assign : E → V → Option (E × V)) (_t : List E)
    (_v : V) : Option (List E × V) :=
  apply_void.set_value_fold assign _t _v (List.range _t.length)

/-- A sample overload set for a value that is copied: an integer element is assignable
from an integer, which the assignment leaves as it is; a string element is not
assignable from it. -/
def sample_assign : Int ⊕ String → Int → Option ((Int ⊕ String) × Int)
  | Sum.inl _, v => some (Sum.inl v, v)
  | Sum.inr _, _ => none

/-- A sample overload set for a value that is moved: a `std::string` element assigned
from an rvalue `std::string` takes over its characters and leaves the value empty. -/
def moving_assign : String → String → Option (String × String) :=
  fun _ v => some (v, "")

/-! ### The UPC++ backend, `backends/upcxx.hpp` -/

/-- What the functions of `upcxx.hpp` read from and write to: the UPC++ library, present
only in a build with `TIMEMORY_USE_UPCXX`, and the static flag of `is_finalized()`. -/
structure upc.state where
  upcxx_initialized : Bool
  upcxx_rank_me : Int
  upcxx_rank_n : Int
  is_finalized : Bool

/-- The initial value of the static of `is_finalized()`, by build. -/
def upc.is_finalized_init (TIMEMORY_USE_UPCXX : Bool) : Bool :=
  if TIMEMORY_USE_UPCXX then false else true

/-- The function `upc::is_supported()`. -/
def upc.is_supported (TIMEMORY_USE_UPCXX : Bool) : Bool :=
  if TIMEMORY_USE_UPCXX then true else false

/-- The function `upc::is_initialized()`. -/
def upc.is_initialized (TIMEMORY_USE_UPCXX : Bool) (st : upc.state) : Bool :=
  if TIMEMORY_USE_UPCXX then
    if !st.is_finalized then st.upcxx_initialized else false
  else false

/-- The function `upc::initialize(args...)`; `::upcxx::init()` makes the library
initialized. -/
def upc.initialize {A : Type} (TIMEMORY_USE_UPCXX : Bool) (_args : List A) (st : upc.state) :
    upc.state :=
  if TIMEMORY_USE_UPCXX then
    if !upc.is_initialized TIMEMORY_USE_UPCXX st then { st with upcxx_initialized := true }
    else st
  else st

/-- The function `upc::rank(args...)`. -/
def upc.rank {A : Type} (TIMEMORY_USE_UPCXX : Bool) (_args : List A) (st : upc.state) : Int :=
  if TIMEMORY_USE_UPCXX then
    if upc.is_initialized TIMEMORY_USE_UPCXX st then st.upcxx_rank_me else 0
  else 0

/-- The function `upc::size(args...)`. -/
def upc.size {A : Type} (TIMEMORY_USE_UPCXX : Bool) (_args : List A) (st : upc.state) : Int :=
  if TIMEMORY_USE_UPCXX then
    if upc.is_initialized TIMEMORY_USE_UPCXX st then st.upcxx_rank_n else 1
  else 1

/-- An operation that adds the extra argument to the element and counts, in the program
state, how often it has been run. -/
def counting_op : operation Int Int Nat :=
  fun e args calls => (e + args, calls + 1)

/-- The function `upc::finalize()`; `::upcxx::finalize()` ends the library. -/
def upc.finalize (TIMEMORY_USE_UPCXX : Bool) (st : upc.state) : upc.state :=
  if TIMEMORY_USE_UPCXX then
    if upc.is_initialized TIMEMORY_USE_UPCXX st then
      { st with upcxx_initialized := false, is_finalized := true }
    else st
  else st

/-- The number of tree edges on the way from the node under `current()` up to the node
without parent that its chain of parents ends in. -/
def graph_data.edges_to_current (s : graph_data α) : Nat :=
  match s.m_current with
  | iterator.node c => (s.m_graph.ancestors s.m_graph.nodes.length c).length
  | _ => 0

/-- The node in which the chain of parents of the node under `current()` ends: the last
of its ancestors, or the node itself when it has none. -/
def graph_data.root_of_current (s : graph_data α) : iterator :=
  match s.m_current with
  | iterator.node c =>
    match (s.m_graph.ancestors s.m_graph.nodes.length c).getLast? with
    | some r => iterator.node r
    | none => iterator.node c
  | it => it

/-- The level invariant of a graph data driven through push and pop from a non-negative
starting depth: the head is the only node without parent, the sea level is not
negative, and the depth counter is the sea level plus the number of edges above the
cursor. -/
structure graph_data.level_inv (s : graph_data α) : Prop where
  root_head : ∀ i n, s.m_graph.get (iterator.node i) = some n → n.parent = none →
    iterator.node i = s.m_head
  head_root : ∀ h n, s.m_head = iterator.node h → s.m_graph.get (iterator.node h) = some n →
    n.parent = none
  sea_nonneg : 0 ≤ s.m_sea_level
  depth_eq : s.m_depth = s.m_sea_level + (s.edges_to_current : Int)

/-- A root constructed at the starting depth -1, then one `append_child` and one
`pop_graph()`. -/
def below_zero_thread : Option (graph_data call_node) :=
  (graph_data.construct ⟨1, -1, false⟩ (-1) none).bind
    (fun s => s.run [call.append_child ⟨2, 0, false⟩, call.pop_graph])

/-- The state `below_zero_thread` ends in: the cursor is back on the root (slot 0), the
depth counter is 0 and the sea level is -1. -/
def below_zero_state : graph_data call_node :=
  { m_has_head := true, m_depth := 0, m_sea_level := -1,
    m_graph := { nodes := [some ⟨⟨1, -1, false⟩, none, [1]⟩, some ⟨⟨2, 0, false⟩, some 0, []⟩],
                 top := [0] },
    m_current := iterator.node 0, m_head := iterator.node 0, m_master := none,
    m_dummies := [(-1, iterator.node 0)] }

/-- The order in which `find` tests the nodes of the tree: every node of the pre-order
traversal, each followed at once by its children. -/
def graph_data.scan_order (s : graph_data α) : List Nat :=
  s.m_graph.pre_order.flatMap (fun f => f :: s.m_graph.children f)

/-- The first node of a list of candidates that passes the test of `find`, or the end
sentinel when none does; `none` when a test has no defined result. -/
def graph_data.first_match [graph_node α] (s : graph_data α) (src : graph α) (itr : iterator) :
    List Nat → Option iterator
  | [] => some s.m_graph.end_sentinel
  | c :: rest =>
    match graph_data.node_match s src itr (iterator.node c) with
    | none => none
    | some true => some (iterator.node c)
    | some false => graph_data.first_match s src itr rest

/-- A call path in which scope 9 is entered below scope 0 and then again right below
the root; both nodes of scope 9 are handed over with the depth 1. -/
def shadow_events : List (call call_node) :=
  [call.append_child ⟨0, 1, false⟩, call.append_child ⟨9, 1, false⟩, call.pop_graph,
   call.pop_graph, call.append_child ⟨9, 1, false⟩]

/-- The graph data after `shadow_events` below a root with scope id 1: slot 2 is the
scope 9 below scope 0, slot 3 the scope 9 below the root. -/
def shadow_state : graph_data call_node :=
  { m_has_head := true, m_depth := 1, m_sea_level := 0,
    m_graph :=
      { nodes := [some ⟨⟨1, 0, false⟩, none, [1, 3]⟩, some ⟨⟨0, 1, false⟩, some 0, [2]⟩,
                  some ⟨⟨9, 1, false⟩, some 1, []⟩, some ⟨⟨9, 1, false⟩, some 0, []⟩],
        top := [0] },
    m_current := iterator.node 3, m_head := iterator.node 0, m_master := none,
    m_dummies := [(0, iterator.node 0)] }

/-! ### The roofline component, `components/roofline/cpu_roofline.hpp`

The counters are `long long` (integers here; signed overflow has no defined result
and is outside the model), the elapsed time is a `double`, kept abstract: `F` with the
addition and subtraction of `double`.  Reading a `std::vector` at an index that is not
below its size has no defined result (`none`). -/

/-- The arithmetic of `double` that the component uses: `+` and `-`. -/
class double_arith (F : Type) where
  add : F → F → F
  sub : F → F → F

/-- A stand-in for `double` in the examples: whole ticks. -/
instance : double_arith Int where
  add := fun a b => a + b
  sub := fun a b => a - b

/-- The data of a `cpu_roofline` instance: `value` and `accum` of type
`std::pair<std::vector<long long>, double>` and the flags `is_transient` and
`is_running` of the base class, and the private member `m_events`. -/
structure cpu_roofline (F : Type) where
  value : List Int × F
  accum : List Int × F
  is_transient : Bool
  is_running : Bool
  m_events : List Int
  deriving DecidableEq

/-- The call `v.resize(n, x)` of `std::vector`. -/
def vector_resize (v : List Int) (n : Nat) (x : Int) : List Int :=
  v.take n ++ List.replicate (n - v.length) x

/-- Modelled from the spec: `set_started()` of the base class (base.hpp is missing)
marks the component as running and leaves `value` and `accum` alone. -/
def cpu_roofline.set_started {F : Type} (a : cpu_roofline F) : cpu_roofline F :=
  { a with is_running := true }

/-- Modelled from the spec: `set_stopped()` of the base class (base.hpp is missing)
marks the component as not running and leaves `value` and `accum` alone. -/
def cpu_roofline.set_stopped {F : Type} (a : cpu_roofline F) : cpu_roofline F :=
  { a with is_running := false }

/-- The static member `size()`: the number of entries of the event list `events()` of the
calling thread. -/
def cpu_roofline.size (events : List Int) : Nat := events.length

/-- The private member `resize(sz)`.  `events` is the event list `events()` of the
calling thread. -/
def cpu_roofline.resize {F : Type} (events : List Int) (a : cpu_roofline F) (sz : Nat) :
    cpu_roofline F :=
  let sz1 := max (cpu_roofline.size events) sz
  { a with
    value := (vector_resize a.value.1 (max sz1 a.value.1.length) 0, a.value.2)
    accum := (vector_resize a.accum.1 (max sz1 a.accum.1.length) 0, a.accum.2) }

/-- The loop `for(i = 0; i < lhs.size(); ++i) lhs[i] = f(lhs[i], rhs[i])` of
`operator+=` and `operator-=`. -/
def cpu_roofline.combine_loop (f : Int → Int → Int) : List Int → List Int → Option (List Int)
  | [], _ => some []
  | _ :: _, [] => none
  | x :: xs, y :: ys => (cpu_roofline.combine_loop f xs ys).map (fun r => f x y :: r)

/-- The member `operator+=(rhs)`, for an `rhs` that is another object. -/
def cpu_roofline.plus_assign {F : Type} [double_arith F] (events : List Int)
    (a rhs : cpu_roofline F) : Option (cpu_roofline F) :=
  let a1 := cpu_roofline.resize events a (max a.m_events.length events.length)
  match cpu_roofline.combine_loop (fun x y => x + y) a1.accum.1 rhs.accum.1,
        cpu_roofline.combine_loop (fun x y => x + y) a1.value.1 rhs.value.1 with
  | some acc, some val =>
    some { a1 with
           accum := (acc, double_arith.add a1.accum.2 rhs.accum.2)
           value := (val, double_arith.add a1.value.2 rhs.value.2)
           is_transient := if rhs.is_transient then rhs.is_transient else a1.is_transient }
  | _, _ => none

/-- The member `operator-=(rhs)`, for an `rhs` that is another object. -/
def cpu_roofline.minus_assign {F : Type} [double_arith F] (events : List Int)
    (a rhs : cpu_roofline F) : Option (cpu_roofline F) :=
  let a1 := cpu_roofline.resize events a (max a.m_events.length events.length)
  match cpu_roofline.combine_loop (fun x y => x - y) a1.accum.1 rhs.accum.1,
        cpu_roofline.combine_loop (fun x y => x - y) a1.value.1 rhs.value.1 with
  | some acc, some val =>
    some { a1 with
           accum := (acc, double_arith.sub a1.accum.2 rhs.accum.2)
           value := (val, double_arith.sub a1.value.2 rhs.value.2)
           is_transient := if rhs.is_transient then rhs.is_transient else a1.is_transient }
  | _, _ => none

/-- The member `start()`; `reading` is what `m_record()` returns. -/
def cpu_roofline.start {F : Type} (a : cpu_roofline F) (reading : List Int × F) :
    cpu_roofline F :=
  { a.set_started with value := reading }

/-- The loop `for(i = 0; i < accum.first.size(); ++i) accum.first[i] += (tmp.first[i] -
value.first[i])` of `stop()`. -/
def cpu_roofline.stop_loop : List Int → List Int → List Int → Option (List Int)
  | [], _, _ => some []
  | x :: xs, t :: ts, v :: vs => (cpu_roofline.stop_loop xs ts vs).map (fun r => (x + (t - v)) :: r)
  | _ :: _, _, _ => none

/-- The member `stop()`; `tmp` is what `m_record()` returns. -/
def cpu_roofline.stop {F : Type} [double_arith F] (events : List Int) (a : cpu_roofline F)
    (tmp : List Int × F) : Option (cpu_roofline F) :=
  let a1 := cpu_roofline.resize events a (max tmp.1.length a.value.1.length)
  match cpu_roofline.stop_loop a1.accum.1 tmp.1 a1.value.1 with
  | some acc =>
    let a2 : cpu_roofline F :=
      { a1 with accum := (acc, double_arith.add a1.accum.2 (double_arith.sub tmp.2 a1.value.2))
                value := tmp }
    some a2.set_stopped
  | none => none

/-- Two events of a thread, by their codes. -/
def sample_roofline_events : List Int := [100, 101]

/-- An instance whose arrays hold one counter each although the event list has two
entries, as after loading `value` and `accum` through `serialize` from an archive
written with one event. -/
def sample_short_roofline : cpu_roofline Int :=
  { value := ([3], 10), accum := ([5], 20), is_transient := false, is_running := false,
    m_events := [100, 101] }

/-- An instance with two counters per array for the two events. -/
def sample_roofline_a : cpu_roofline Int :=
  { value := ([3, 4], 10), accum := ([5, 6], 20), is_transient := false, is_running := false,
    m_events := [100, 101] }

/-- A second instance with two counters per array for the two events. -/
def sample_roofline_b : cpu_roofline Int :=
  { value := ([30, 40], 1), accum := ([50, 60], 2), is_transient := true, is_running := false,
    m_events := [100, 101] }

/-- A second instance whose arrays hold one counter each. -/
def sample_short_roofline_b : cpu_roofline Int :=
  { value := ([7], 1), accum := ([9], 2), is_transient := false, is_running := false,
    m_events := [100, 101] }

/-! ### The merge of a tree into another, section 4.5 of the specification

The function that merges the trees is not among the sources; it is written here from
the specification, on top of `graph_data::find`. -/

/-- What the merge needs of the node type besides `graph_node`: the is-dummy flag, the
accumulator of the measurement bundle, and `plus`, the fold `lhs += rhs` over the
bundles of two nodes (`apply<void>::plus`), which adds the accumulators and leaves
the identity that the payload comparison sees alone. -/
class bundle_node (α : Type) [graph_node α] where
  is_dummy : α → Bool
  accum : α → Int
  plus : α → α → α
  accum_plus : ∀ a b : α, accum (plus a b) = accum a + accum b
  eq_plus : ∀ a b c : α, graph_node.eq c (plus a b) = graph_node.eq c a
  eq_self : ∀ a : α, graph_node.eq a a = true

/-- Modelled from the spec: a node with its measurement (the node type is not among the
sources): scope id, call depth, is-dummy flag and one accumulator standing for the
measurement bundle.  Two nodes are payload-equal when scope id and call depth agree. -/
structure measured_node where
  id : Int
  depth : Int
  is_dummy : Bool
  accum : Int
  deriving DecidableEq

instance : graph_node measured_node where
  id := measured_node.id
  depth := measured_node.depth
  eq := fun a b => decide (a.id = b.id ∧ a.depth = b.depth)

instance : bundle_node measured_node where
  is_dummy := measured_node.is_dummy
  accum := measured_node.accum
  plus := fun a b => { a with accum := a.accum + b.accum }
  accum_plus := fun _ _ => rfl
  eq_plus := fun _ _ _ => rfl
  eq_self := fun a => by simp [graph_node.eq]

/-- Modelled from the spec: the fold of a source bundle into the bundle of the
destination node in slot `j` ("accumulate, not overwrite"). -/
def graph.plus_at [graph_node α] [bundle_node α] (g : graph α) (j : Nat) (x : α) : graph α :=
  match g.get (iterator.node j) with
  | some n =>
    { g with nodes := g.nodes.set j (some { n with data := bundle_node.plus n.data x }) }
  | none => g

/-- Modelled from the spec: the position below which a source node that has no
equivalent in the destination is grafted: the destination node that `find` resolves
the parent of the source node to, and the head of the destination when there is no
such node. -/
def graph_data.graft_position [graph_node α] (dest : graph_data α) (src : graph α)
    (parent : Option Nat) : Option iterator :=
  match parent with
  | some p =>
    match dest.find src (iterator.node p) with
    | some (iterator.node q) => some (iterator.node q)
    | some _ => some dest.m_head
    | none => none
  | none => some dest.m_head

/-- Modelled from the spec: the merge of the source node in slot `i` into the
destination.  A dummy node of the source is skipped; a real node is resolved through
`find`; when it is found its bundle is folded into the node found, unless that is a
dummy, which is never a merge target; when it is not found it is grafted as a new
child at the resolved parent position. -/
def graph_data.merge_node [graph_node α] [bundle_node α] (dest : graph_data α) (src : graph α)
    (i : Nat) : Option (graph_data α) :=
  match src.get (iterator.node i) with
  | none => none
  | some n =>
    if bundle_node.is_dummy n.data then some dest
    else
      match dest.find src (iterator.node i) with
      | none => none
      | some (iterator.node j) =>
        match dest.m_graph.get (iterator.node j) with
        | some m =>
          if bundle_node.is_dummy m.data then some dest
          else some { dest with m_graph := dest.m_graph.plus_at j n.data }
        | none => none
      | some _ =>
        match dest.graft_position src n.parent with
        | some pos =>
          (dest.m_graph.append_child pos n.data).map (fun r => { dest with m_graph := r.1 })
        | none => none

/-- Modelled from the spec: the merge over a list of source nodes, from left to right. -/
def graph_data.merge_loop [graph_node α] [bundle_node α] (src : graph α) :
    List Nat → graph_data α → Option (graph_data α)
  | [], dest => some dest
  | i :: rest, dest =>
    match dest.merge_node src i with
    | some d1 => graph_data.merge_loop src rest d1
    | none => none

/-- Modelled from the spec: the merge of the source tree `src` into the destination: every
node of the source in pre-order. -/
def graph_data.merge [graph_node α] [bundle_node α] (dest : graph_data α) (src : graph α) :
    Option (graph_data α) :=
  graph_data.merge_loop src src.pre_order dest

/-- No two live nodes of the tree are payload-equal. -/
def graph.distinct_payloads [graph_node α] (g : graph α) : Bool :=
  (List.range g.nodes.length).all (fun i =>
    (List.range g.nodes.length).all (fun j =>
      match g.get (iterator.node i), g.get (iterator.node j) with
      | some n, some m => !(graph_node.eq n.data m.data) || decide (i = j)
      | _, _ => true))

/-- The accumulator of the node in slot `i`, if the slot is live. -/
def graph.accum_at [graph_node α] [bundle_node α] (g : graph α) (i : Nat) : Option Int :=
  (g.get (iterator.node i)).map (fun n => bundle_node.accum n.data)

/-- A call path that reaches scope 7 once through the scopes 2, 3 and once through the
scopes 3, 2: the ids along both paths sum to 13. -/
def permuted_events : List (call measured_node) :=
  [call.append_child ⟨2, 1, false, 1⟩, call.append_child ⟨3, 2, false, 2⟩,
   call.append_child ⟨7, 3, false, 10⟩, call.pop_graph, call.pop_graph, call.pop_graph,
   call.append_child ⟨3, 1, false, 4⟩, call.append_child ⟨2, 2, false, 5⟩,
   call.append_child ⟨7, 3, false, 100⟩]

/-- The graph data after `permuted_events` below a root with scope id 1: the two nodes
of scope 7 are in the slots 3 and 6, with the accumulators 10 and 100. -/
def permuted_state : graph_data measured_node :=
  { m_has_head := true, m_depth := 3, m_sea_level := 0,
    m_graph :=
      { nodes := [some ⟨⟨1, 0, false, 0⟩, none, [1, 4]⟩, some ⟨⟨2, 1, false, 1⟩, some 0, [2]⟩,
                  some ⟨⟨3, 2, false, 2⟩, some 1, [3]⟩, some ⟨⟨7, 3, false, 10⟩, some 2, []⟩,
                  some ⟨⟨3, 1, false, 4⟩, some 0, [5]⟩, some ⟨⟨2, 2, false, 5⟩, some 4, [6]⟩,
                  some ⟨⟨7, 3, false, 100⟩, some 5, []⟩],
        top := [0] },
    m_current := iterator.node 6, m_head := iterator.node 0, m_master := none,
    m_dummies := [(0, iterator.node 0)] }

/-- The result of merging the tree of `permuted_state` into itself: slot 3 has received
both nodes of scope 7, slot 6 none. -/
def permuted_merged : graph_data measured_node :=
  { permuted_state with
    m_graph :=
      { nodes := [some ⟨⟨1, 0, false, 0⟩, none, [1, 4]⟩, some ⟨⟨2, 1, false, 2⟩, some 0, [2]⟩,
                  some ⟨⟨3, 2, false, 4⟩, some 1, [3]⟩, some ⟨⟨7, 3, false, 120⟩, some 2, []⟩,
                  some ⟨⟨3, 1, false, 8⟩, some 0, [5]⟩, some ⟨⟨2, 2, false, 10⟩, some 4, [6]⟩,
                  some ⟨⟨7, 3, false, 100⟩, some 5, []⟩],
        top := [0] } }

/-- The tree of a call path with the scopes 2 and 3 below a root with scope id 1, with
the accumulators 5, 10 and 100. -/
def measured_chain_state : graph_data measured_node :=
  { m_has_head := true, m_depth := 2, m_sea_level := 0,
    m_graph :=
      { nodes := [some ⟨⟨1, 0, false, 5⟩, none, [1]⟩, some ⟨⟨2, 1, false, 10⟩, some 0, [2]⟩,
                  some ⟨⟨3, 2, false, 100⟩, some 1, []⟩],
        top := [0] },
    m_current := iterator.node 2, m_head := iterator.node 0, m_master := none,
    m_dummies := [(0, iterator.node 0)] }

/-- The tree `g` is the tree `g0` in which the bundle of every real node listed in `done`
has received a copy of itself once, and nothing else has changed. -/
structure graph.merged_upto [graph_node α] [bundle_node α] (g0 g : graph α) (done : List Nat) :
    Prop where
  length_eq : g.nodes.length = g0.nodes.length
  top_eq : g.top = g0.top
  dead : ∀ i, g0.get (iterator.node i) = none → g.get (iterator.node i) = none
  live : ∀ i n, g0.get (iterator.node i) = some n →
    ∃ n1, g.get (iterator.node i) = some n1 ∧ n1.parent = n.parent ∧
      n1.children = n.children ∧
      n1.data = if i ∈ done ∧ bundle_node.is_dummy n.data = false
        then bundle_node.plus n.data n.data else n.data

/-- The events of a straight call path with measurements: scope 2 below the root, scope
3 below scope 2. -/
def measured_chain_events : List (call measured_node) :=
  [call.append_child ⟨2, 1, false, 10⟩, call.append_child ⟨3, 2, false, 100⟩]

/-- The graph data right after construction from a measured root with scope id 1 and the
accumulator 5, at depth 0. -/
def measured_root_state : graph_data measured_node :=
  { m_has_head := true, m_depth := 0, m_sea_level := 0,
    m_graph := { nodes := [some { data := ⟨1, 0, false, 5⟩, parent := none, children := [] }],
                 top := [0] },
    m_current := iterator.node 0, m_head := iterator.node 0, m_master := none,
    m_dummies := [(0, iterator.node 0)] }

/-! ### Further members of `graph_data` -/

/-- The member `set_master(_master)`; `self` is the address of the graph data itself
(`this`). -/
def graph_data.set_master (s : graph_data α) (self : Nat) (_master : Option Nat) :
    graph_data α :=
  -- if(_master != this) m_master = _master;
  if _master ≠ some self then { s with m_master := _master } else s

/-- The member `is_dummy(itr)`: `m_dummies.find(itr) != m_dummies.end()`.  The multimap is
keyed by `int64_t`, so `find` takes a key; the iterator reaches the key type through
its `operator bool` (0 for a null iterator, 1 for every other one), and the lookup
tells whether some entry has that key. -/
def graph_data.is_dummy (s : graph_data α) (itr : iterator) : Bool :=
  s.m_dummies.any (fun entry => decide (entry.1 = if itr.to_bool then 1 else 0))

/-- The graph data right after construction from a root with scope id 1 at the starting
depth 1. -/
def mounted_root_state : graph_data call_node :=
  { m_has_head := true, m_depth := 1, m_sea_level := 1,
    m_graph := { nodes := [some { data := ⟨1, 1, false⟩, parent := none, children := [] }],
                 top := [0] },
    m_current := iterator.node 0, m_head := iterator.node 0, m_master := none,
    m_dummies := [(1, iterator.node 0)] }

/-- The graph data `mounted_root_state` after `append_child` of a node with scope id 2:
the cursor is on the new node (slot 1). -/
def mounted_child_state : graph_data call_node :=
  { m_has_head := true, m_depth := 2, m_sea_level := 1,
    m_graph := { nodes := [some ⟨⟨1, 1, false⟩, none, [1]⟩, some ⟨⟨2, 2, false⟩, some 0, []⟩],
                 top := [0] },
    m_current := iterator.node 1, m_head := iterator.node 0, m_master := none,
    m_dummies := [(1, iterator.node 0)] }

/-- The graph data `mounted_root_state` after `reset()`. -/
def mounted_reset_state : graph_data call_node :=
  { mounted_root_state with m_depth := 0 }

/-! ### String joins, `apply<std::string>::join` and `apply<std::tuple<std::string>>::join` -/

/-- An argument handed to `join`, by the kind of its type: the overloads and the stream
tell apart `bool`, integers, `std::string` and `char*`. -/
inductive join_arg where
  | boolean (b : Bool)
  | integer (i : Int)
  | text (s : String)
  | c_string (s : String)
  deriving DecidableEq

/-- The characters that `ss << arg` inserts, for a stream with or without the flag
`std::boolalpha`. -/
def join_arg.render (boolalpha : Bool) : join_arg → String
  | join_arg.boolean b =>
    if boolalpha then (if b then "true" else "false") else (if b then "1" else "0")
  | join_arg.integer i => toString i
  | join_arg.text s => s
  | join_arg.c_string s => s

/-- A `std::stringstream`: the characters written so far and the flag `std::boolalpha`. -/
structure stringstream where
  str : String
  boolalpha : Bool

/-- The insertion `ss << arg`. -/
def stringstream.put (ss : stringstream) (arg : join_arg) : stringstream :=
  { ss with str := ss.str ++ arg.render ss.boolalpha }

/-- The two overloads of `internal::apply<Ret>::join_tail(_ss, _sep, _arg, __args...)`,
for `Ret = std::string`. -/
def internal.apply_string.join_tail (_ss : stringstream) (_sep : join_arg) :
    join_arg → List join_arg → String
  | _arg, [] => ((_ss.put _sep).put _arg).str
  | _arg, a :: __args =>
    internal.apply_string.join_tail ((_ss.put _sep).put _arg) _sep a __args

/-- The two overloads of `internal::apply<Ret>::join(_ss, _sep, _arg, __args...)`, for
`Ret = std::string`. -/
def internal.apply_string.join (_ss : stringstream) (_sep : join_arg) :
    join_arg → List join_arg → String
  | _arg, [] => (_ss.put _arg).str
  | _arg, a :: __args => internal.apply_string.join_tail (_ss.put _arg) _sep a __args

/-- The overload set `apply<std::string>::join(separator, __args...)`, by the number of
arguments after the separator.  With none, only `join(const string_t&)` takes the
call, and only for a separator that converts to `std::string`.  With one, the two
single-argument templates are more specialised than the variadic one: a `char*` is
returned as a string, everything else is written to a fresh stream.  With two or
more, the variadic template sets `std::boolalpha` and forwards to the internal
`join`. -/
def apply_string.join (separator : join_arg) : List join_arg → Option String
  | [] =>
    match separator with
    | join_arg.text _ => some ""
    | join_arg.c_string _ => some ""
    | _ => none
  | [_arg] =>
    match _arg with
    | join_arg.c_string s => some s
    | a => some ((stringstream.mk "" false).put a).str
  | a :: b :: __args =>
    some (internal.apply_string.join (stringstream.mk "" true) separator a (b :: __args))

/-- The pack expansion `apply_v::join(_entry_sep, std::get<Idx>(_label_tup),
std::get<Idx>(_entry_tup))...` of `impl::join`: one `std::string` per index. -/
def apply_string_tuple.impl.join_pack (_entry_sep : join_arg)
    (_label_tup _entry_tup : List join_arg) : List Nat → Option (List join_arg)
  | [] => some []
  | i :: rest =>
    match _label_tup[i]?, _entry_tup[i]?,
      apply_string_tuple.impl.join_pack _entry_sep _label_tup _entry_tup rest with
    | some l, some e, some tail =>
      (apply_string.join _entry_sep [l, e]).map (fun s => join_arg.text s :: tail)
    | _, _, _ => none

/-- The function `apply<std::tuple<std::string>>::impl::join(_label_sep, _entry_sep,
_label_tup, _entry_tup, index_sequence<Idx...>)`. -/
def apply_string_tuple.impl.join (_label_sep _entry_sep : join_arg)
    (_label_tup _entry_tup : List join_arg) (Idx : List Nat) : Option String :=
  match apply_string_tuple.impl.join_pack _entry_sep _label_tup _entry_tup Idx with
  | some strs => apply_string.join _label_sep strs
  | none => none

/-- The two overloads of `apply<std::tuple<std::string>>::join(_label_sep, _entry_sep,
_label_tup, _entry_tup)`, for `N > 0` and for `N == 0` labels. -/
def apply_string_tuple.join (_label_sep _entry_sep : join_arg)
    (_label_tup _entry_tup : List join_arg) : Option String :=
  if 0 < _label_tup.length then
    apply_string_tuple.impl.join _label_sep _entry_sep _label_tup _entry_tup
      (List.range _label_tup.length)
  else some ""

/-! ### Unrolling, `apply<void>::unroll` -/

/-- The device tags `device::cpu` and `device::gpu`. -/
inductive device where
  | cpu
  | gpu
  deriving DecidableEq

/-- The overloads of `internal::apply<void>::unroll<N, Device>(__func, __args...)`: for
each device one for `N == 1` and one for `N > 1`; for `N == 0` there is none (`none`).
The callable acts on the program state `W`. -/
def internal.apply_void.unroll {A W : Type} :
    Nat → device → (A → W → W) → A → W → Option W
  | 0, _, _, _, _ => none
  | 1, device.gpu, __func, __args, w => some (__func __args w)
  | N + 2, device.gpu, __func, __args, w =>
    internal.apply_void.unroll (N + 1) device.gpu __func __args (__func __args w)
  | 1, device.cpu, __func, __args, w => some (__func __args w)
  | N + 2, device.cpu, __func, __args, w =>
    internal.apply_void.unroll (N + 1) device.cpu __func __args (__func __args w)

/-- The two overloads of `apply<void>::unroll<N, Device>(__func, __args...)`, one for
each device. -/
def apply_void.unroll {A W : Type} (N : Nat) (Device : device) (__func : A → W → W)
    (__args : A) (w : W) : Option W :=
  match Device with
  | device.gpu => internal.apply_void.unroll N device.gpu __func __args w
  | device.cpu => internal.apply_void.unroll N device.cpu __func __args w

/-- A callable that records, in a log, the arguments of each of its calls. -/
def recording_fn {A : Type} : A → List A → List A :=
  fun args log => log ++ [args]

/-! ### The collection mode of the roofline component -/

/-- The enumeration `cpu_roofline::MODE`. -/
inductive MODE where
  | OP
  | AI
  deriving DecidableEq

/-- The lambda `aslc` of `event_mode()`: the string with every character passed through
`tolower`. -/
def cpu_roofline.aslc (str : String) : String :=
  String.mk (str.data.map Char.toLower)

/-- The lambda `_get` of `event_mode()`.  The settings `settings::cpu_roofline_mode()` and
`settings::roofline_mode()` belong to a header that is not among the sources and are
taken as parameters. -/
def cpu_roofline.event_mode_get (cpu_roofline_mode roofline_mode : String) : MODE :=
  let _env0 := cpu_roofline.aslc cpu_roofline_mode
  let _env := if _env0 = "" then cpu_roofline.aslc roofline_mode else _env0
  if _env = "op" ∨ _env = "hw" ∨ _env = "counters" then MODE.OP
  else if _env = "ai" ∨ _env = "ac" ∨ _env = "activity" then MODE.AI
  else MODE.OP

/-- The static member `event_mode()`: `static MODE _instance = _get(); return _instance;`.
The static is `none` before the first call; the result is the mode together with the
static after the call. -/
def cpu_roofline.event_mode (_instance : Option MODE) (cpu_roofline_mode roofline_mode : String) :
    MODE × Option MODE :=
  match _instance with
  | some m => (m, some m)
  | none =>
    (cpu_roofline.event_mode_get cpu_roofline_mode roofline_mode,
      some (cpu_roofline.event_mode_get cpu_roofline_mode roofline_mode))

/-- The static member `get_mode_string()`. -/
def cpu_roofline.get_mode_string (_instance : Option MODE)
    (cpu_roofline_mode roofline_mode : String) : String :=
  if (cpu_roofline.event_mode _instance cpu_roofline_mode roofline_mode).1 = MODE.OP then "op"
  else "ai"

/-- The setting the mode is decided from: `cpu_roofline_mode`, and `roofline_mode` when
that is empty. -/
def cpu_roofline.chosen_mode (cpu_roofline_mode roofline_mode : String) : String :=
  if cpu_roofline_mode = "" then roofline_mode else cpu_roofline_mode

/-! ### The labels of the roofline component, `label_array()`

A `std::string` is the list of its characters. -/

/-- The call `s.find(pat)` of `std::string`, from position 0: the first index at which
`pat` occurs in `s`, and `none` for `npos`. -/
def string_find (pat : List Char) : List Char → Option Nat
  | [] => if pat = [] then some 0 else none
  | c :: s =>
    if pat.isPrefixOf (c :: s) then some 0
    else (string_find pat s).map (fun n => n + 1)

/-- The call `s.replace(n, len, str)` of `std::string`, for `n` within the string. -/
def string_replace (s : List Char) (n len : Nat) (str : List Char) : List Char :=
  s.take n ++ str ++ s.drop (n + len)

/-- The loop `while((n = itr.find(pat)) != npos) itr.replace(n, pat.size(), str);`, run
for at most `rounds` tests of its condition: `none` when the loop has not ended by
then. -/
def replace_loop (pat str : List Char) : Nat → List Char → Option (List Char)
  | 0, _ => none
  | rounds + 1, itr =>
    match string_find pat itr with
    | none => some itr
    | some n => replace_loop pat str rounds (string_replace itr n pat.length str)

/-- The loop of `replace_loop` with as many rounds as the string has characters, and one
more. -/
def replace_while (pat str : List Char) (itr : List Char) : Option (List Char) :=
  replace_loop pat str (itr.length + 1) itr

/-- A range-based loop `for(auto& itr : arr) body` whose body rewrites the element. -/
def for_each {β : Type} (body : β → Option β) : List β → Option (List β)
  | [] => some []
  | itr :: rest =>
    match body itr, for_each body rest with
    | some y, some ys => some (y :: ys)
    | _, _ => none

/-- The body of the third loop of `label_array()`: blanks become underscores, then double
underscores become single ones. -/
def cpu_roofline.label_array_body3 (itr : List Char) : Option (List Char) :=
  match replace_while " ".toList "_".toList itr with
  | some itr1 => replace_while "__".toList "_".toList itr1
  | none => none

/-- The member `label_array()`.  `short_descr` stands for
`papi::get_event_info(itr).short_descr`, `events_label_array` for the thread-local
array of that name; the result is the returned array and the thread-local array
after the call. -/
def cpu_roofline.label_array (short_descr : Int → List Char) (m_events : List Int)
    (events_label_array : List (List Char)) : Option (List (List Char) × List (List Char)) :=
  let arr0 := m_events.map short_descr ++ ["Runtime".toList]
  match for_each (replace_while "L/S".toList "Loads_Stores".toList) arr0 with
  | none => none
  | some arr1 =>
    match for_each (replace_while "/".toList "_per_".toList) arr1 with
    | none => none
    | some arr2 =>
      match for_each cpu_roofline.label_array_body3 arr2 with
      | none => none
      | some arr =>
        some (arr, if events_label_array.length < arr.length then arr else events_label_array)

/-- Sample short descriptions of two events. -/
def sample_short_descr : Int → List Char
  | 100 => "L/S  instr".toList
  | 101 => "DP ops/cycle".toList
  | _ => "unknown event".toList

/-- The graph data right after construction from a root with scope id 1 at the starting
depth -2. -/
def sunken_root_state : graph_data call_node :=
  { m_has_head := true, m_depth := -2, m_sea_level := -2,
    m_graph := { nodes := [some { data := ⟨1, -2, false⟩, parent := none, children := [] }],
                 top := [0] },
    m_current := iterator.node 0, m_head := iterator.node 0, m_master := none,
    m_dummies := [(-2, iterator.node 0)] }

/-- The graph data `sunken_root_state` after `append_child` of a node with scope id 2: the
cursor is on the new node (slot 1) and the depth counter is -1. -/
def sunken_child_state : graph_data call_node :=
  { m_has_head := true, m_depth := -1, m_sea_level := -2,
    m_graph := { nodes := [some ⟨⟨1, -2, false⟩, none, [1]⟩, some ⟨⟨2, -1, false⟩, some 0, []⟩],
                 top := [0] },
    m_current := iterator.node 1, m_head := iterator.node 0, m_master := none,
    m_dummies := [(-2, iterator.node 0)] }

/-- No two live nodes of the tree are the same logical position for `find`:
payload-equal with the same value of `get_rolling_hash`. -/
def graph.distinct_positions [graph_node α] (g : graph α) : Bool :=
  (List.range g.nodes.length).all (fun i =>
    (List.range g.nodes.length).all (fun j =>
      match g.get (iterator.node i), g.get (iterator.node j) with
      | some n, some m =>
        !(graph_node.eq n.data m.data &&
          decide (graph_data.get_rolling_hash g (iterator.node i) =
            graph_data.get_rolling_hash g (iterator.node j))) || decide (i = j)
      | _, _ => true))

/-! ## Basic facts about the container -/

theorem graph.wf.top_live {g : graph α} (hwf : g.wf) (i : Nat) (hi : i ∈ g.top) :
    ∃ n, g.get (iterator.node i) = some n := by
  obtain ⟨n, hn, _⟩ := hwf.top_root i hi
  exact ⟨n, hn⟩

theorem graph.wf.child_live {g : graph α} (hwf : g.wf) (i : Nat) (n : tree_node α) (c : Nat)
    (h : g.get (iterator.node i) = some n) (hc : c ∈ n.children) :
    ∃ m, g.get (iterator.node c) = some m := by
  obtain ⟨m, hm, _⟩ := hwf.child_link i n c h hc
  exact ⟨m, hm⟩

theorem graph.get_node (g : graph α) (i : Nat) :
    g.get (iterator.node i) = (g.nodes[i]?).join := rfl

theorem graph.get_lt (g : graph α) (i : Nat) (n : tree_node α)
    (h : g.get (iterator.node i) = some n) : i < g.nodes.length := by
  rw [graph.get_node] at h
  by_contra hlt
  rw [List.getElem?_eq_none (Nat.le_of_not_lt hlt)] at h
  simp at h

theorem graph.get_some_iterator (g : graph α) (it : iterator) (n : tree_node α)
    (h : g.get it = some n) : ∃ i, it = iterator.node i := by
  cases it with
  | null => simp [graph.get] at h
  | feet => simp [graph.get] at h
  | node i => exact ⟨i, rfl⟩

theorem graph.append_child_eq (g : graph α) (p : Nat) (n : tree_node α) (x : α)
    (h : g.get (iterator.node p) = some n) :
    g.append_child (iterator.node p) x =
      some ({ nodes := g.nodes.set p (some { n with children := n.children ++ [g.nodes.length] })
                        ++ [some { data := x, parent := some p, children := [] }],
              top := g.top },
            iterator.node g.nodes.length) := by
  simp [graph.append_child, h]

/-- The slots of the arena after `append_child`: the new slot, the parent slot, the rest. -/
theorem graph.get_append_child (g g1 : graph α) (p : Nat) (n : tree_node α) (x : α)
    (it : iterator) (h : g.get (iterator.node p) = some n)
    (happ : g.append_child (iterator.node p) x = some (g1, it)) :
    it = iterator.node g.nodes.length ∧
    g1.nodes.length = g.nodes.length + 1 ∧
    g1.top = g.top ∧
    g1.get (iterator.node g.nodes.length) = some { data := x, parent := some p, children := [] } ∧
    g1.get (iterator.node p) = some { n with children := n.children ++ [g.nodes.length] } ∧
    ∀ j, j ≠ p → j ≠ g.nodes.length → g1.get (iterator.node j) = g.get (iterator.node j) := by
  have hp := graph.get_lt g p n h
  rw [graph.append_child_eq g p n x h] at happ
  simp only [Option.some.injEq, Prod.mk.injEq] at happ
  obtain ⟨hg, hit⟩ := happ
  subst hg
  refine ⟨hit.symm, by simp, rfl, ?_, ?_, ?_⟩
  · simp [graph.get_node, List.getElem?_append_right]
  · have : p < (g.nodes.set p (some { n with children := n.children ++ [g.nodes.length] })).length := by
      simpa using hp
    simp [graph.get_node, List.getElem?_append_left this, List.getElem?_set, hp]
  · intro j hjp hjl
    simp only [graph.get_node]
    by_cases hj : j < g.nodes.length
    · have : j < (g.nodes.set p (some { n with children := n.children ++ [g.nodes.length] })).length := by
        simpa using hj
      rw [List.getElem?_append_left this, List.getElem?_set]
      simp [Ne.symm hjp]
    · have h1 : g.nodes.length + 1 ≤ j := by omega
      rw [List.getElem?_eq_none, List.getElem?_eq_none]
      · omega
      · simp; omega

/-! ## Construction -/

theorem graph_data.construct_eq (root : α) (d : Int) (m : Option Nat) :
    graph_data.construct root d m =
      some { m_has_head := true
             m_depth := d
             m_sea_level := d
             m_graph := { nodes := [some { data := root, parent := none, children := [] }],
                          top := [0] }
             m_current := iterator.node 0
             m_head := iterator.node 0
             m_master := m
             m_dummies := [(d, iterator.node 0)] } := by
  simp [graph_data.construct, graph.set_head, graph.empty, multimap_insert]

/-- C10: constructing a graph data from a root node and a starting depth `d` succeeds and
yields `has_head()`, `depth() = d`, `sea_level() = d`, `current() = head()` designating
the root node (a node without parent that holds the given payload), `at_sea_level()`,
and a dummy catalogue with the single entry `(d, head)`, which is also what
`get_inverse_insert()` returns. -/
theorem graph_data.construct_spec (root : α) (d : Int) (m : Option Nat) :
    ∃ s, graph_data.construct root d m = some s ∧
      s.has_head = true ∧ s.depth = d ∧ s.sea_level = d ∧
      s.current = s.head ∧
      s.m_graph.get s.head = some { data := root, parent := none, children := [] } ∧
      s.m_graph.is_head s.head = some true ∧
      s.m_graph.pre_order = [0] ∧ s.head = iterator.node 0 ∧
      s.at_sea_level = true ∧
      s.m_dummies = [(d, s.head)] ∧
      s.get_inverse_insert = [(d, s.head)] := by
  refine ⟨_, graph_data.construct_eq root d m, ?_⟩
  simp [graph_data.has_head, graph_data.depth, graph_data.sea_level, graph_data.current,
    graph_data.head, graph_data.at_sea_level, graph_data.get_inverse_insert, graph.get,
    graph.is_head, graph.pre_order, graph.subtree, graph.children]

/-! ## Popping at the root -/

theorem graph_data.pop_graph_depth_zero (s : graph_data α) (h0 : s.m_depth = 0) :
    s.pop_graph = some ({ s with m_current := s.m_head }, s.m_head) := by
  simp [graph_data.pop_graph, h0]

theorem graph_data.run_pop_depth_zero (s : graph_data α) (h0 : s.m_depth = 0) (N : Nat) :
    s.run (List.replicate (N + 1) call.pop_graph) = some { s with m_current := s.m_head } := by
  induction N generalizing s with
  | zero =>
    simp [List.replicate, graph_data.run, graph_data.step, graph_data.pop_graph_depth_zero s h0]
  | succ k ih =>
    rw [List.replicate_succ, graph_data.run]
    simp only [graph_data.step, graph_data.pop_graph_depth_zero s h0, Option.map_some']
    rw [ih { s with m_current := s.m_head } h0]

/-- C1: on a graph data whose `depth()` is 0, `pop_graph()` called `N >= 1` times raises no
error (every call returns), and the state after the calls has `current() = head()` and
`depth() = 0`; the head, the tree and every other member are untouched.  As this holds
for every `N >= 1`, it holds after each of the calls. -/
theorem graph_data.pop_graph_root_fixed_point (s : graph_data α) (h0 : s.depth = 0)
    (N : Nat) (hN : 1 ≤ N) :
    ∃ s1, s.run (List.replicate N call.pop_graph) = some s1 ∧
      s1.current = s1.head ∧ s1.depth = 0 ∧ s1.head = s.head ∧
      s1 = { s with m_current := s.m_head } := by
  obtain ⟨k, rfl⟩ : ∃ k, N = k + 1 := ⟨N - 1, by omega⟩
  refine ⟨_, graph_data.run_pop_depth_zero s h0 k, ?_⟩
  simp only [graph_data.current, graph_data.head, graph_data.depth] at h0 ⊢
  simp [h0]

/-- C1, at the graph data built from a root with scope id 1 at depth 0, popped three times. -/
theorem graph_data.pop_graph_root_fixed_point_witness :
    ∃ s1, sample_root_state.run (List.replicate 3 call.pop_graph) = some s1 ∧
      s1.current = s1.head ∧ s1.depth = 0 ∧ s1.head = sample_root_state.head ∧
      s1 = { sample_root_state with m_current := sample_root_state.m_head } :=
  graph_data.pop_graph_root_fixed_point sample_root_state rfl 3 (by decide)

/-! ## Pushing and popping one level -/

/-- C4: on a graph data whose `current()` designates a live node `c` and whose `depth()`
is `k`, `append_child(node)` returns, leaves `depth() = k + 1`, creates a node that did
not exist before, holds the given payload, has no children and has `c` as its parent,
lists it as the last child of `c` (whose payload and parent are kept), leaves every
other node as it was, sets `current()` to the new node and returns that iterator. -/
theorem graph_data.append_child_spec (s : graph_data α) (node : α) (c : Nat) (k : Int)
    (n : tree_node α) (hc : s.current = iterator.node c)
    (hn : s.m_graph.get (iterator.node c) = some n) (hk : s.depth = k) :
    ∃ s1 it, s.append_child node = some (s1, it) ∧
      s1.depth = k + 1 ∧
      s.m_graph.get it = none ∧
      s1.m_graph.get it = some { data := node, parent := some c, children := [] } ∧
      s1.m_graph.parent it = some (iterator.node c) ∧
      it = iterator.node s.m_graph.nodes.length ∧
      s1.m_graph.get (iterator.node c) =
        some { n with children := n.children ++ [s.m_graph.nodes.length] } ∧
      (∀ j, iterator.node j ≠ iterator.node c → iterator.node j ≠ it →
        s1.m_graph.get (iterator.node j) = s.m_graph.get (iterator.node j)) ∧
      s1.current = it ∧ s1.head = s.head := by
  simp only [graph_data.current, graph_data.depth, graph_data.head] at hc hk ⊢
  obtain ⟨g1, it, happ⟩ : ∃ g1 it, s.m_graph.append_child (iterator.node c) node = some (g1, it) :=
    ⟨_, _, graph.append_child_eq s.m_graph c n node hn⟩
  obtain ⟨hit, _, _, hnew, hpar, hrest⟩ :=
    graph.get_append_child s.m_graph g1 c n node it hn happ
  have hs : s.append_child node =
      some ({ s with m_depth := s.m_depth + 1, m_graph := g1, m_current := it }, it) := by
    simp only [graph_data.append_child, hc, happ]
  refine ⟨_, _, hs, ?_⟩
  subst hit
  refine ⟨by simp [hk], ?_, hnew, ?_, rfl, hpar, ?_, rfl, rfl⟩
  · simp [graph.get_node]
  · simp [graph.parent, hnew]
  · intro j hjc hjn
    exact hrest j (fun h => hjc (by rw [h])) (fun h => hjn (by rw [h]))

/-- C4, at the graph data built from a root with scope id 1 at depth 0. -/
theorem graph_data.append_child_spec_witness :
    ∃ s1 it, sample_root_state.append_child ⟨2, 1, false⟩ = some (s1, it) ∧
      s1.depth = 0 + 1 ∧
      sample_root_state.m_graph.get it = none ∧
      s1.m_graph.get it = some { data := ⟨2, 1, false⟩, parent := some 0, children := [] } ∧
      s1.m_graph.parent it = some (iterator.node 0) ∧
      it = iterator.node sample_root_state.m_graph.nodes.length ∧
      s1.m_graph.get (iterator.node 0) =
        some { data := ⟨1, 0, false⟩, parent := none,
               children := [] ++ [sample_root_state.m_graph.nodes.length] } ∧
      (∀ j, iterator.node j ≠ iterator.node 0 → iterator.node j ≠ it →
        s1.m_graph.get (iterator.node j) = sample_root_state.m_graph.get (iterator.node j)) ∧
      s1.current = it ∧ s1.head = sample_root_state.head :=
  graph_data.append_child_spec sample_root_state ⟨2, 1, false⟩ 0 0
    { data := ⟨1, 0, false⟩, parent := none, children := [] } rfl rfl rfl

/-- C5, as stated, fails: the graph data constructed at starting depth 3 has `depth() = 3 > 0`
and its cursor on the head, whose parent is the null iterator; `pop_graph()` leaves
`depth()` at 3 instead of 2 and leaves `current()` on the head instead of moving it to
that parent. -/
theorem graph_data.pop_graph_at_head_keeps_depth :
    ∃ s s1 it, graph_data.construct (⟨1, 3, false⟩ : call_node) 3 none = some s ∧
      s.depth = 3 ∧ s.pop_graph = some (s1, it) ∧
      s1.depth = 3 ∧ s1.depth ≠ 3 - 1 ∧
      s.m_graph.parent s.current = some iterator.null ∧
      s1.current = s.current ∧ s1.current ≠ iterator.null := by
  refine ⟨_, _, _, graph_data.construct_eq _ _ _, rfl, rfl, ?_⟩
  decide

/-- C5, amended: on a graph data with `depth() = k > 0` whose `current()` designates a live
node, if that node has a parent then `pop_graph()` leaves `depth() = k - 1` and moves
`current()` to that parent (which is also the iterator it returns); if that node is a
root of the tree then `pop_graph()` changes nothing. -/
theorem graph_data.pop_graph_nested (s : graph_data α) (k : Int) (c : Nat) (n : tree_node α)
    (hk : s.depth = k) (hpos : 0 < k) (hc : s.current = iterator.node c)
    (hn : s.m_graph.get (iterator.node c) = some n) :
    (∀ p, n.parent = some p →
      s.m_graph.parent s.current = some (iterator.node p) ∧
      s.pop_graph =
        some ({ s with m_depth := k - 1, m_current := iterator.node p }, iterator.node p)) ∧
    (n.parent = none → s.pop_graph = some (s, s.current)) := by
  simp only [graph_data.current, graph_data.depth] at hc hk ⊢
  subst hk
  have hne : s.m_depth ≠ 0 := by omega
  constructor
  · intro p hp
    simp [graph_data.pop_graph, graph.is_head, graph.parent, hc, hn, hp, hpos]
  · intro hp
    simp [graph_data.pop_graph, graph.is_head, hc, hn, hp, hpos, hne]

/-- C5 amended, at the sample call path: the cursor is on the second scope 4 (slot 4, at
depth 2), whose parent is scope 3 (slot 3). -/
theorem graph_data.pop_graph_nested_witness :
    (∀ p, (some 3 : Option Nat) = some p →
      sample_nested_state.m_graph.parent sample_nested_state.current
        = some (iterator.node p) ∧
      sample_nested_state.pop_graph =
        some ({ sample_nested_state with m_depth := 2 - 1, m_current := iterator.node p },
              iterator.node p)) ∧
    ((some 3 : Option Nat) = none →
      sample_nested_state.pop_graph = some (sample_nested_state, sample_nested_state.current)) :=
  graph_data.pop_graph_nested sample_nested_state 2 4 ⟨⟨4, 2, false⟩, some 3, []⟩
    rfl (by decide) rfl rfl

/-- The state `sample_nested_state` is the one the sample thread reaches. -/
theorem sample_thread_eq : sample_thread = some sample_nested_state := by decide

/-- The state `chain_nested_state` is the one the straight call path reaches. -/
theorem chain_thread_eq : chain_thread = some chain_nested_state := by decide

/-- C6: for every two nodes `A` and `B`, constructing a graph data with root `A` at depth 0
and then calling `append_child(B)`, `pop_graph()`, `pop_graph()` returns from every call
and leaves a tree made of the root `A` with the single child `B` (the pre-order
traversal visits exactly these two nodes), with `depth() = 0` and `current() = head()`. -/
theorem graph_data.end_to_end (A B : α) (m : Option Nat) :
    ∃ s, (graph_data.construct A 0 m).bind
        (fun s0 => s0.run [call.append_child B, call.pop_graph, call.pop_graph]) = some s ∧
      s.m_graph = { nodes := [some { data := A, parent := none, children := [1] },
                              some { data := B, parent := some 0, children := [] }],
                    top := [0] } ∧
      s.m_graph.pre_order = [0, 1] ∧
      s.head = iterator.node 0 ∧ s.depth = 0 ∧ s.current = s.head := by
  refine ⟨{ m_has_head := true, m_depth := 0, m_sea_level := 0,
            m_graph := { nodes := [some { data := A, parent := none, children := [1] },
                                   some { data := B, parent := some 0, children := [] }],
                         top := [0] },
            m_current := iterator.node 0, m_head := iterator.node 0, m_master := m,
            m_dummies := [(0, iterator.node 0)] }, ?_, rfl, ?_, rfl, rfl, rfl⟩
  · simp [graph_data.construct_eq, graph_data.run, graph_data.step, graph_data.append_child,
      graph.append_child, graph.get, graph_data.pop_graph, graph.is_head, graph.parent]
  · simp [graph.pre_order, graph.subtree, graph.children, graph.get]

/-! ## The rolling hash -/

/-- What `get_rolling_hash` computes: 0 for every non-null iterator; on the null iterator
the call to `parent` has no defined result. -/
theorem graph_data.get_rolling_hash_eq [graph_node α] (owner : graph α) (itr : iterator) :
    graph_data.get_rolling_hash owner itr = if itr.to_bool then some 0 else none := by
  cases itr <;> simp [graph_data.get_rolling_hash, iterator.to_bool, graph.parent, graph.get]

/-- C7 fails on the code: in the tree of the straight call path root(id 1) -> scope 2 ->
scope 3 the sum of the scope identities along the chain of the deepest node is
1 + 2 + 3 = 6 and that of the root is 1, but `get_rolling_hash` returns 0 for both. -/
theorem graph_data.get_rolling_hash_ignores_chain :
    ∃ s, chain_thread = some s ∧
      s.m_graph.spec_rolling_hash 3 (iterator.node 2) = 6 ∧
      graph_data.get_rolling_hash s.m_graph (iterator.node 2) = some 0 ∧
      s.m_graph.spec_rolling_hash 3 (iterator.node 0) = 1 ∧
      graph_data.get_rolling_hash s.m_graph (iterator.node 0) = some 0 := by
  decide

/-- C8 fails on the code: two threads build their trees from the same events
(`sample_events` below a root with id 1).  The second scope 4 (slot 4, below scope 3,
ancestor-path sum 1 + 3 + 4 = 8) of the first tree is looked up in the second tree, and
`find` returns slot 2, the scope 4 below scope 2 (ancestor-path sum 1 + 2 + 4 = 7),
not the node at the same position. -/
theorem graph_data.find_resolves_other_position :
    ∃ a b, sample_thread = some a ∧ sample_thread = some b ∧
      b.find a.m_graph (iterator.node 4) = some (iterator.node 2) ∧
      a.m_graph.spec_rolling_hash 5 (iterator.node 4) = 8 ∧
      b.m_graph.spec_rolling_hash 5 (iterator.node 4) = 8 ∧
      b.m_graph.spec_rolling_hash 5 (iterator.node 2) = 7 ∧
      (b.m_graph.get (iterator.node 4)).map tree_node.parent = some (some 3) ∧
      (b.m_graph.get (iterator.node 2)).map tree_node.parent = some (some 1) := by
  refine ⟨sample_nested_state, sample_nested_state, sample_thread_eq, sample_thread_eq, ?_⟩
  decide

/-- On the straight call path root(id 1) -> scope 2 -> scope 3 built twice from the same
events, the deepest node is resolved to the deepest node. -/
theorem graph_data.find_on_chain :
    ∃ a b, chain_thread = some a ∧ chain_thread = some b ∧
      b.find a.m_graph (iterator.node 2) = some (iterator.node 2) := by
  refine ⟨chain_nested_state, chain_nested_state, chain_thread_eq, chain_thread_eq, ?_⟩
  decide

/-! ## Well-formed trees and the pre-order traversal -/

theorem graph.children_of_get (g : graph α) (i : Nat) (n : tree_node α)
    (h : g.get (iterator.node i) = some n) : g.children i = n.children := by
  simp [graph.children, h]

theorem graph.wf.children_live {g : graph α} (hwf : g.wf) (f c : Nat)
    (hc : c ∈ g.children f) : ∃ b, g.get (iterator.node c) = some b := by
  unfold graph.children at hc
  cases hf : g.get (iterator.node f) with
  | none => simp [hf] at hc
  | some n =>
    simp only [hf] at hc
    exact hwf.child_live f n c hf hc

theorem graph.wf.subtree_live {g : graph α} (hwf : g.wf) (fuel : Nat) :
    ∀ i, (∃ n, g.get (iterator.node i) = some n) →
      ∀ j, j ∈ g.subtree fuel i → ∃ b, g.get (iterator.node j) = some b := by
  induction fuel with
  | zero => intro i _ j hj; simp [graph.subtree] at hj
  | succ f ih =>
    intro i hi j hj
    simp only [graph.subtree, List.mem_cons, List.mem_flatMap] at hj
    rcases hj with rfl | ⟨c, hc, hjc⟩
    · exact hi
    · exact ih c (hwf.children_live i c hc) j hjc

/-- Every handle the pre-order traversal of a well-formed tree visits is a live node. -/
theorem graph.wf.pre_order_live {g : graph α} (hwf : g.wf) (j : Nat)
    (hj : j ∈ g.pre_order) : ∃ b, g.get (iterator.node j) = some b := by
  simp only [graph.pre_order, List.mem_flatMap] at hj
  obtain ⟨r, hr, hjr⟩ := hj
  exact hwf.subtree_live _ r (hwf.top_live r hr) j hjr

theorem graph.subtree_mono (g : graph α) (f : Nat) :
    ∀ f1 r j, f ≤ f1 → j ∈ g.subtree f r → j ∈ g.subtree f1 r := by
  induction f with
  | zero => intro f1 r j _ hj; simp [graph.subtree] at hj
  | succ f ih =>
    intro f1 r j hle hj
    obtain ⟨f2, rfl⟩ : ∃ f2, f1 = f2 + 1 := ⟨f1 - 1, by omega⟩
    simp only [graph.subtree, List.mem_cons, List.mem_flatMap] at hj ⊢
    rcases hj with rfl | ⟨c, hc, hjc⟩
    · exact Or.inl rfl
    · exact Or.inr ⟨c, hc, ih f2 c j (by omega) hjc⟩

theorem graph.subtree_step (g : graph α) (f : Nat) :
    ∀ r p i, p ∈ g.subtree f r → i ∈ g.children p → i ∈ g.subtree (f + 1) r := by
  induction f with
  | zero => intro r p i hp _; simp [graph.subtree] at hp
  | succ f ih =>
    intro r p i hp hi
    rw [graph.subtree] at hp
    simp only [List.mem_cons, List.mem_flatMap] at hp
    rw [graph.subtree]
    simp only [List.mem_cons, List.mem_flatMap]
    rcases hp with rfl | ⟨c, hc, hpc⟩
    · exact Or.inr ⟨i, hi, by simp [graph.subtree]⟩
    · exact Or.inr ⟨c, hc, ih c p i hpc hi⟩

theorem graph.wf.mem_subtree {g : graph α} (hwf : g.wf) (i : Nat) :
    ∀ n, g.get (iterator.node i) = some n → ∃ r, r ∈ g.top ∧ i ∈ g.subtree (i + 1) r := by
  induction i using Nat.strong_induction_on with
  | _ i ih =>
    intro n hn
    cases hp : n.parent with
    | none => exact ⟨i, hwf.root_top i n hn hp, by simp [graph.subtree]⟩
    | some p =>
      obtain ⟨hlt, m, hm, him⟩ := hwf.parent_link i n p hn hp
      obtain ⟨r, hr, hpr⟩ := ih p hlt m hm
      refine ⟨r, hr, ?_⟩
      have h1 : p ∈ g.subtree i r := g.subtree_mono (p + 1) i r p (by omega) hpr
      exact g.subtree_step i r p i h1 (by rw [g.children_of_get p m hm]; exact him)

/-- Every live node of a well-formed tree is visited by the pre-order traversal. -/
theorem graph.wf.mem_pre_order {g : graph α} (hwf : g.wf) (i : Nat) (n : tree_node α)
    (hn : g.get (iterator.node i) = some n) : i ∈ g.pre_order := by
  obtain ⟨r, hr, hir⟩ := hwf.mem_subtree i n hn
  have hlt := g.get_lt i n hn
  simp only [graph.pre_order, List.mem_flatMap]
  exact ⟨r, hr, g.subtree_mono (i + 1) _ r i (by omega) hir⟩

/-! ## Well-formedness is kept by the operations -/

/-- The tree right after `set_head` on the empty container is well formed. -/
theorem graph.wf_single (x : α) :
    graph.wf { nodes := [some { data := x, parent := none, children := [] }], top := [0] } := by
  have key : ∀ i n,
      graph.get { nodes := [some { data := x, parent := none, children := [] }], top := [0] }
        (iterator.node i) = some n →
      i = 0 ∧ n = { data := x, parent := none, children := [] } := by
    intro i n h
    have hlt := graph.get_lt _ i n h
    simp only [List.length_singleton, Nat.lt_one_iff] at hlt
    subst hlt
    simp [graph.get] at h
    exact ⟨rfl, h.symm⟩
  refine ⟨?_, ?_, ?_, ?_⟩
  · intro i hi
    simp only [List.mem_singleton] at hi
    subst hi
    exact ⟨_, rfl, rfl⟩
  · intro i n c h hc
    obtain ⟨_, rfl⟩ := key i n h
    simp at hc
  · intro i n p h hp
    obtain ⟨_, rfl⟩ := key i n h
    simp at hp
  · intro i n h _
    obtain ⟨rfl, _⟩ := key i n h
    simp

/-- Where a live slot of the tree after `append_child` comes from. -/
theorem graph.get_append_child_cases (g g1 : graph α) (p : Nat) (n : tree_node α) (x : α)
    (it : iterator) (h : g.get (iterator.node p) = some n)
    (happ : g.append_child (iterator.node p) x = some (g1, it)) (j : Nat) (m1 : tree_node α)
    (hj : g1.get (iterator.node j) = some m1) :
    (j = g.nodes.length ∧ m1 = { data := x, parent := some p, children := [] }) ∨
    (j = p ∧ m1 = { n with children := n.children ++ [g.nodes.length] }) ∨
    (j ≠ p ∧ j ≠ g.nodes.length ∧ g.get (iterator.node j) = some m1) := by
  obtain ⟨_, _, _, hnew, hpar, hrest⟩ := graph.get_append_child g g1 p n x it h happ
  by_cases h1 : j = g.nodes.length
  · subst h1
    rw [hnew] at hj
    exact Or.inl ⟨rfl, (Option.some.inj hj).symm⟩
  · by_cases h2 : j = p
    · subst h2
      rw [hpar] at hj
      exact Or.inr (Or.inl ⟨rfl, (Option.some.inj hj).symm⟩)
    · rw [hrest j h2 h1] at hj
      exact Or.inr (Or.inr ⟨h2, h1, hj⟩)

/-- A live node stays live under `append_child`, with its payload, its parent and its
earlier children. -/
theorem graph.get_append_child_old (g g1 : graph α) (p : Nat) (n : tree_node α) (x : α)
    (it : iterator) (h : g.get (iterator.node p) = some n)
    (happ : g.append_child (iterator.node p) x = some (g1, it)) (j : Nat) (m : tree_node α)
    (hj : g.get (iterator.node j) = some m) :
    ∃ m1, g1.get (iterator.node j) = some m1 ∧ m1.data = m.data ∧ m1.parent = m.parent ∧
      ∀ c, c ∈ m.children → c ∈ m1.children := by
  obtain ⟨_, _, _, _, hpar, hrest⟩ := graph.get_append_child g g1 p n x it h happ
  have hlt := g.get_lt j m hj
  by_cases h2 : j = p
  · subst h2
    rw [h] at hj
    obtain rfl := Option.some.inj hj
    exact ⟨_, hpar, rfl, rfl, fun c hc => by simp [hc]⟩
  · exact ⟨m, by rw [hrest j h2 (by omega)]; exact hj, rfl, rfl, fun c hc => hc⟩

/-- The container operation `append_child` keeps the tree well formed. -/
theorem graph.wf.append_child {g : graph α} (hwf : g.wf) (g1 : graph α) (p : Nat)
    (n : tree_node α) (x : α) (it : iterator) (h : g.get (iterator.node p) = some n)
    (happ : g.append_child (iterator.node p) x = some (g1, it)) : g1.wf := by
  obtain ⟨_, _, htop, hnew, hpar, _⟩ := graph.get_append_child g g1 p n x it h happ
  have hplt := g.get_lt p n h
  refine ⟨?_, ?_, ?_, ?_⟩
  · intro i hi
    rw [htop] at hi
    obtain ⟨m, hm, hmp⟩ := hwf.top_root i hi
    obtain ⟨m1, hm1, _, hp1, _⟩ := graph.get_append_child_old g g1 p n x it h happ i m hm
    exact ⟨m1, hm1, by rw [hp1, hmp]⟩
  · intro i m1 c hi hc
    rcases graph.get_append_child_cases g g1 p n x it h happ i m1 hi with
      ⟨_, rfl⟩ | ⟨rfl, rfl⟩ | ⟨_, _, hold⟩
    · simp at hc
    · simp only [List.mem_append, List.mem_singleton] at hc
      rcases hc with hc | rfl
      · obtain ⟨m, hm, hmp⟩ := hwf.child_link i n c h hc
        obtain ⟨m2, hm2, _, hp2, _⟩ := graph.get_append_child_old g g1 i n x it h happ c m hm
        exact ⟨m2, hm2, by rw [hp2, hmp]⟩
      · exact ⟨_, hnew, rfl⟩
    · obtain ⟨m, hm, hmp⟩ := hwf.child_link i m1 c hold hc
      obtain ⟨m2, hm2, _, hp2, _⟩ := graph.get_append_child_old g g1 p n x it h happ c m hm
      exact ⟨m2, hm2, by rw [hp2, hmp]⟩
  · intro i m1 q hi hq
    rcases graph.get_append_child_cases g g1 p n x it h happ i m1 hi with
      ⟨rfl, rfl⟩ | ⟨rfl, rfl⟩ | ⟨_, _, hold⟩
    · simp only [Option.some.injEq] at hq
      subst hq
      exact ⟨hplt, _, hpar, by simp⟩
    · obtain ⟨hlt, m, hm, him⟩ := hwf.parent_link i n q h hq
      obtain ⟨m2, hm2, _, _, hch⟩ := graph.get_append_child_old g g1 i n x it h happ q m hm
      exact ⟨hlt, m2, hm2, hch i him⟩
    · obtain ⟨hlt, m, hm, him⟩ := hwf.parent_link i m1 q hold hq
      obtain ⟨m2, hm2, _, _, hch⟩ := graph.get_append_child_old g g1 p n x it h happ q m hm
      exact ⟨hlt, m2, hm2, hch i him⟩
  · intro i m1 hi hnone
    rw [htop]
    rcases graph.get_append_child_cases g g1 p n x it h happ i m1 hi with
      ⟨_, rfl⟩ | ⟨rfl, rfl⟩ | ⟨_, _, hold⟩
    · simp at hnone
    · exact hwf.root_top i n h hnone
    · exact hwf.root_top i m1 hold hnone

/-! ## The push/pop interface keeps the invariant -/

theorem graph_data.inv_construct (root : α) (d : Int) (m : Option Nat) (s0 : graph_data α)
    (h0 : graph_data.construct root d m = some s0) : s0.inv := by
  rw [graph_data.construct_eq] at h0
  obtain rfl := Option.some.inj h0
  exact ⟨graph.wf_single root, ⟨0, _, rfl, rfl⟩, ⟨0, _, rfl, rfl⟩⟩

/-- What `pop_graph` does when the cursor designates a live node. -/
theorem graph_data.pop_graph_live (s : graph_data α) (c : Nat) (n : tree_node α)
    (hc : s.m_current = iterator.node c) (hn : s.m_graph.get (iterator.node c) = some n) :
    s.pop_graph =
      if 0 < s.m_depth then
        match n.parent with
        | some p => some ({ s with m_depth := s.m_depth - 1, m_current := iterator.node p },
                          iterator.node p)
        | none => some (s, s.m_current)
      else if s.m_depth = 0 then some ({ s with m_current := s.m_head }, s.m_head)
      else some (s, s.m_current) := by
  by_cases hpos : 0 < s.m_depth
  · have hne : s.m_depth ≠ 0 := by omega
    cases hp : n.parent with
    | none => simp [graph_data.pop_graph, graph.is_head, hc, hn, hp, hpos, hne]
    | some p => simp [graph_data.pop_graph, graph.is_head, graph.parent, hc, hn, hp, hpos]
  · simp [graph_data.pop_graph, hpos]

/-- What `append_child` does when the cursor designates a live node. -/
theorem graph_data.append_child_live (s : graph_data α) (node : α) (c : Nat) (n : tree_node α)
    (hc : s.m_current = iterator.node c) (hn : s.m_graph.get (iterator.node c) = some n) :
    ∃ g1 it, s.m_graph.append_child (iterator.node c) node = some (g1, it) ∧
      s.append_child node =
        some ({ s with m_depth := s.m_depth + 1, m_graph := g1, m_current := it }, it) := by
  refine ⟨_, _, graph.append_child_eq s.m_graph c n node hn, ?_⟩
  simp only [graph_data.append_child, hc, graph.append_child_eq s.m_graph c n node hn]

/-- Every call of the push/pop interface returns from a state that satisfies the
invariant, keeps the invariant and keeps the depth counter non-negative. -/
theorem graph_data.inv_step (s : graph_data α) (hinv : s.inv) (c : call α) :
    ∃ s1, s.step c = some s1 ∧ s1.inv ∧ (0 ≤ s.m_depth → 0 ≤ s1.m_depth) := by
  obtain ⟨hwf, ⟨cur, n, hc, hn⟩, ⟨hd, nh, hh, hnh⟩⟩ := hinv
  cases c with
  | append_child node =>
    obtain ⟨g1, it, happ, hs⟩ := graph_data.append_child_live s node cur n hc hn
    obtain ⟨hit, _, _, hnew, _, _⟩ := graph.get_append_child s.m_graph g1 cur n node it hn happ
    refine ⟨{ s with m_depth := s.m_depth + 1, m_graph := g1, m_current := it },
      by simp only [graph_data.step, hs, Option.map_some'], ⟨?_, ?_, ?_⟩, ?_⟩
    · exact hwf.append_child g1 cur n node it hn happ
    · exact ⟨_, _, hit, hnew⟩
    · obtain ⟨m1, hm1, _⟩ :=
        graph.get_append_child_old s.m_graph g1 cur n node it hn happ hd nh hnh
      exact ⟨hd, m1, hh, hm1⟩
    · intro h; show 0 ≤ s.m_depth + 1; omega
  | pop_graph =>
    have hpop := graph_data.pop_graph_live s cur n hc hn
    by_cases hpos : 0 < s.m_depth
    · cases hp : n.parent with
      | none =>
        rw [if_pos hpos, hp] at hpop
        exact ⟨s, by simp only [graph_data.step, hpop, Option.map_some'],
          ⟨hwf, ⟨cur, n, hc, hn⟩, ⟨hd, nh, hh, hnh⟩⟩, fun h => h⟩
      | some p =>
        rw [if_pos hpos, hp] at hpop
        obtain ⟨_, m, hm, _⟩ := hwf.parent_link cur n p hn hp
        refine ⟨{ s with m_depth := s.m_depth - 1, m_current := iterator.node p },
          by simp only [graph_data.step, hpop, Option.map_some'],
          ⟨hwf, ⟨p, m, rfl, hm⟩, ⟨hd, nh, hh, hnh⟩⟩, ?_⟩
        intro _; show 0 ≤ s.m_depth - 1; omega
    · rw [if_neg hpos] at hpop
      by_cases hz : s.m_depth = 0
      · rw [if_pos hz] at hpop
        exact ⟨{ s with m_current := s.m_head },
          by simp only [graph_data.step, hpop, Option.map_some'],
          ⟨hwf, ⟨hd, nh, hh, hnh⟩, ⟨hd, nh, hh, hnh⟩⟩, fun h => h⟩
      · rw [if_neg hz] at hpop
        exact ⟨s, by simp only [graph_data.step, hpop, Option.map_some'],
          ⟨hwf, ⟨cur, n, hc, hn⟩, ⟨hd, nh, hh, hnh⟩⟩, fun h => h⟩

/-- Every finite sequence of calls returns from a state that satisfies the invariant. -/
theorem graph_data.inv_run (cs : List (call α)) :
    ∀ s : graph_data α, s.inv → 0 ≤ s.m_depth →
      ∃ s1, s.run cs = some s1 ∧ s1.inv ∧ 0 ≤ s1.m_depth := by
  induction cs with
  | nil => intro s hinv hd; exact ⟨s, rfl, hinv, hd⟩
  | cons c cs ih =>
    intro s hinv hd
    obtain ⟨s1, hstep, hinv1, hd1⟩ := graph_data.inv_step s hinv c
    obtain ⟨s2, hrun, hinv2, hd2⟩ := ih s1 hinv1 (hd1 hd)
    exact ⟨s2, by simp only [graph_data.run, hstep, hrun], hinv2, hd2⟩

/-- C3: for every graph data constructed with a starting depth `d >= 0` and every finite
sequence of `append_child` / `pop_graph` calls, every call returns and `depth() >= 0`
holds after each of them: for every `k`, after the first `k` calls of the sequence. -/
theorem graph_data.depth_nonneg (root : α) (d : Int) (m : Option Nat) (cs : List (call α))
    (hd : 0 ≤ d) :
    ∃ s0, graph_data.construct root d m = some s0 ∧
      ∀ k, ∃ s, s0.run (cs.take k) = some s ∧ 0 ≤ s.depth := by
  refine ⟨_, graph_data.construct_eq root d m, ?_⟩
  intro k
  obtain ⟨s, hrun, _, hs⟩ := graph_data.inv_run (cs.take k) _
    (graph_data.inv_construct root d m _ (graph_data.construct_eq root d m)) hd
  exact ⟨s, hrun, hs⟩

/-- C3, at the sample events below a root constructed at depth 0. -/
theorem graph_data.depth_nonneg_witness :
    ∃ s0, graph_data.construct (⟨1, 0, false⟩ : call_node) 0 none = some s0 ∧
      ∀ k, ∃ s, s0.run (sample_events.take k) = some s ∧ 0 ≤ s.depth :=
  graph_data.depth_nonneg ⟨1, 0, false⟩ 0 none sample_events (by decide)

/-! ## `find` -/

/-- The test of `find` on a live candidate, for a live target: the payload comparison
decides alone, because the two rolling hashes are always equal. -/
theorem graph_data.node_match_live [graph_node α] (s : graph_data α) (src : graph α)
    (itr : iterator) (f : Nat) (a b : tree_node α) (ha : src.get itr = some a)
    (hb : s.m_graph.get (iterator.node f) = some b) :
    graph_data.node_match s src itr (iterator.node f) = some (graph_node.eq a.data b.data) := by
  obtain ⟨i, rfl⟩ := graph.get_some_iterator src itr a ha
  cases h : graph_node.eq a.data b.data <;>
    simp [graph_data.node_match, iterator.to_bool, ha, hb, graph_data.get_rolling_hash_eq, h]

/-- The inner loop of `find` over live candidates: it returns the first payload-equal one,
or reports that there is none. -/
theorem graph_data.find_sibling_spec [graph_node α] (s : graph_data α) (src : graph α)
    (itr : iterator) (a : tree_node α) (ha : src.get itr = some a) (cs : List Nat)
    (hlive : ∀ c, c ∈ cs → ∃ b, s.m_graph.get (iterator.node c) = some b) :
    (∃ c b, graph_data.find_sibling s src itr cs = some (some c) ∧ c ∈ cs ∧
        s.m_graph.get (iterator.node c) = some b ∧ graph_node.eq a.data b.data = true) ∨
    (graph_data.find_sibling s src itr cs = some none ∧
      ∀ c b, c ∈ cs → s.m_graph.get (iterator.node c) = some b →
        graph_node.eq a.data b.data = false) := by
  induction cs with
  | nil => exact Or.inr ⟨rfl, fun c b hc => by simp at hc⟩
  | cons c cs ih =>
    obtain ⟨b, hb⟩ := hlive c (by simp)
    have hm := graph_data.node_match_live s src itr c a b ha hb
    cases he : graph_node.eq a.data b.data with
    | true =>
      rw [he] at hm
      exact Or.inl ⟨c, b, by simp only [graph_data.find_sibling, hm], by simp, hb, he⟩
    | false =>
      rw [he] at hm
      rcases ih (fun c1 hc1 => hlive c1 (by simp [hc1])) with ⟨c1, b1, h1, h2, h3, h4⟩ | ⟨h1, h2⟩
      · exact Or.inl ⟨c1, b1, by simp only [graph_data.find_sibling, hm, h1], by simp [h2], h3, h4⟩
      · refine Or.inr ⟨by simp only [graph_data.find_sibling, hm, h1], ?_⟩
        intro c1 b1 hc1 hb1
        simp only [List.mem_cons] at hc1
        rcases hc1 with rfl | hc1
        · rw [hb] at hb1
          obtain rfl := Option.some.inj hb1
          exact he
        · exact h2 c1 b1 hc1 hb1

/-- The outer loop of `find` over live candidates with live children: it returns a
payload-equal node, or the end sentinel when no candidate is payload-equal. -/
theorem graph_data.find_loop_spec [graph_node α] (s : graph_data α) (src : graph α)
    (itr : iterator) (a : tree_node α) (ha : src.get itr = some a) (fs : List Nat)
    (hlive : ∀ f, f ∈ fs → ∃ b, s.m_graph.get (iterator.node f) = some b)
    (hch : ∀ f c, f ∈ fs → c ∈ s.m_graph.children f →
      ∃ b, s.m_graph.get (iterator.node c) = some b) :
    (∃ i b, graph_data.find_loop s src itr fs = some (iterator.node i) ∧
        s.m_graph.get (iterator.node i) = some b ∧ graph_node.eq a.data b.data = true) ∨
    (graph_data.find_loop s src itr fs = some s.m_graph.end_sentinel ∧
      ∀ f b, f ∈ fs → s.m_graph.get (iterator.node f) = some b →
        graph_node.eq a.data b.data = false) := by
  induction fs with
  | nil => exact Or.inr ⟨rfl, fun f b hf => by simp at hf⟩
  | cons f fs ih =>
    obtain ⟨b, hb⟩ := hlive f (by simp)
    have hm := graph_data.node_match_live s src itr f a b ha hb
    cases he : graph_node.eq a.data b.data with
    | true =>
      rw [he] at hm
      exact Or.inl ⟨f, b, by simp only [graph_data.find_loop, hm], hb, he⟩
    | false =>
      rw [he] at hm
      rcases graph_data.find_sibling_spec s src itr a ha (s.m_graph.children f)
          (fun c hc => hch f c (by simp) hc) with ⟨c, bc, h1, _, h3, h4⟩ | ⟨h1, _⟩
      · exact Or.inl ⟨c, bc, by simp only [graph_data.find_loop, hm, h1], h3, h4⟩
      · rcases ih (fun f1 hf1 => hlive f1 (by simp [hf1]))
            (fun f1 c hf1 hc => hch f1 c (by simp [hf1]) hc) with ⟨i, bi, h5, h6, h7⟩ | ⟨h5, h6⟩
        · exact Or.inl ⟨i, bi, by simp only [graph_data.find_loop, hm, h1, h5], h6, h7⟩
        · refine Or.inr ⟨by simp only [graph_data.find_loop, hm, h1, h5], ?_⟩
          intro f1 b1 hf1 hb1
          simp only [List.mem_cons] at hf1
          rcases hf1 with rfl | hf1
          · rw [hb] at hb1
            obtain rfl := Option.some.inj hb1
            exact he
          · exact h6 f1 b1 hf1 hb1

/-- The tree of `sample_nested_state` is well formed: the state is reached from a
construction through the push/pop interface. -/
theorem sample_nested_state_wf : sample_nested_state.m_graph.wf := by
  obtain ⟨s1, hrun, hinv, _⟩ := graph_data.inv_run sample_events sample_root_state
    (graph_data.inv_construct ⟨1, 0, false⟩ 0 none sample_root_state (by decide)) (by decide)
  have h : sample_root_state.run sample_events = some sample_nested_state := by decide
  rw [h] at hrun
  obtain rfl := Option.some.inj hrun
  exact hinv.wf

/-- C9: on a well-formed tree, for a target iterator that is null or designates a live node
of its own tree, `find(itr)` returns, and it returns the end sentinel if and only if
`itr` is null or no live node of the tree is both payload-equal to `*itr` and has the
same `get_rolling_hash` value as `itr`; every other result designates a live node that
satisfies both conditions. -/
theorem graph_data.find_end_iff [graph_node α] (s : graph_data α) (src : graph α)
    (itr : iterator) (hwf : s.m_graph.wf)
    (hitr : itr = iterator.null ∨ ∃ a, src.get itr = some a) :
    ∃ r, s.find src itr = some r ∧
      (r = s.m_graph.end_sentinel ↔
        (itr = iterator.null ∨
          ¬ ∃ i a b, src.get itr = some a ∧ s.m_graph.get (iterator.node i) = some b ∧
              graph_node.eq a.data b.data = true ∧
              graph_data.get_rolling_hash src itr =
                graph_data.get_rolling_hash s.m_graph (iterator.node i))) ∧
      (r ≠ s.m_graph.end_sentinel →
        ∃ i a b, r = iterator.node i ∧ src.get itr = some a ∧
          s.m_graph.get (iterator.node i) = some b ∧
          graph_node.eq a.data b.data = true ∧
          graph_data.get_rolling_hash src itr =
            graph_data.get_rolling_hash s.m_graph (iterator.node i)) := by
  rcases hitr with rfl | ⟨a, ha⟩
  · refine ⟨s.m_graph.end_sentinel, by simp [graph_data.find, iterator.to_bool], ?_, ?_⟩
    · exact ⟨fun _ => Or.inl rfl, fun _ => rfl⟩
    · intro h; exact absurd rfl h
  · obtain ⟨j, rfl⟩ := graph.get_some_iterator src itr a ha
    have hfind : s.find src (iterator.node j) =
        graph_data.find_loop s src (iterator.node j) s.m_graph.pre_order := by
      simp [graph_data.find, iterator.to_bool]
    have hhash : ∀ i, graph_data.get_rolling_hash src (iterator.node j) =
        graph_data.get_rolling_hash s.m_graph (iterator.node i) := by
      intro i
      simp [graph_data.get_rolling_hash_eq, iterator.to_bool]
    rcases graph_data.find_loop_spec s src (iterator.node j) a ha s.m_graph.pre_order
        (fun f hf => hwf.pre_order_live f hf)
        (fun f c _ hc => hwf.children_live f c hc) with ⟨i, b, h1, h2, h3⟩ | ⟨h1, h2⟩
    · refine ⟨iterator.node i, by rw [hfind, h1], ?_, ?_⟩
      · constructor
        · intro h; simp [graph.end_sentinel] at h
        · intro h
          rcases h with h | h
          · simp at h
          · exact absurd ⟨i, a, b, ha, h2, h3, hhash i⟩ h
      · intro _
        exact ⟨i, a, b, rfl, ha, h2, h3, hhash i⟩
    · refine ⟨s.m_graph.end_sentinel, by rw [hfind, h1], ?_, ?_⟩
      · refine ⟨fun _ => Or.inr ?_, fun _ => rfl⟩
        rintro ⟨i, a1, b, ha1, hb, he, _⟩
        rw [ha] at ha1
        obtain rfl := Option.some.inj ha1
        have := h2 i b (hwf.mem_pre_order i b hb) hb
        rw [he] at this
        exact Bool.noConfusion this
      · intro h; exact absurd rfl h

/-- C9, at the sample tree, looking up its own second scope 4 (slot 4). -/
theorem graph_data.find_end_iff_witness :
    ∃ r, sample_nested_state.find sample_nested_state.m_graph (iterator.node 4) = some r ∧
      (r = sample_nested_state.m_graph.end_sentinel ↔
        (iterator.node 4 = iterator.null ∨
          ¬ ∃ i a b, sample_nested_state.m_graph.get (iterator.node 4) = some a ∧
              sample_nested_state.m_graph.get (iterator.node i) = some b ∧
              graph_node.eq a.data b.data = true ∧
              graph_data.get_rolling_hash sample_nested_state.m_graph (iterator.node 4) =
                graph_data.get_rolling_hash sample_nested_state.m_graph (iterator.node i))) ∧
      (r ≠ sample_nested_state.m_graph.end_sentinel →
        ∃ i a b, r = iterator.node i ∧
          sample_nested_state.m_graph.get (iterator.node 4) = some a ∧
          sample_nested_state.m_graph.get (iterator.node i) = some b ∧
          graph_node.eq a.data b.data = true ∧
          graph_data.get_rolling_hash sample_nested_state.m_graph (iterator.node 4) =
            graph_data.get_rolling_hash sample_nested_state.m_graph (iterator.node i)) :=
  graph_data.find_end_iff sample_nested_state sample_nested_state.m_graph (iterator.node 4)
    sample_nested_state_wf (Or.inr ⟨⟨⟨4, 2, false⟩, some 3, []⟩, rfl⟩)

/-! ## The depth stored in the nodes -/

/-- A live slot of the tree after `append_child` is the new node or an old node with the
payload and parent it had. -/
theorem graph.get_append_child_inv (g g1 : graph α) (p : Nat) (n : tree_node α) (x : α)
    (it : iterator) (h : g.get (iterator.node p) = some n)
    (happ : g.append_child (iterator.node p) x = some (g1, it)) (j : Nat) (m1 : tree_node α)
    (hj : g1.get (iterator.node j) = some m1) :
    (j = g.nodes.length ∧ m1 = { data := x, parent := some p, children := [] }) ∨
    (j < g.nodes.length ∧
      ∃ m, g.get (iterator.node j) = some m ∧ m1.data = m.data ∧ m1.parent = m.parent) := by
  rcases graph.get_append_child_cases g g1 p n x it h happ j m1 hj with
    ⟨h1, h2⟩ | ⟨rfl, rfl⟩ | ⟨_, _, hold⟩
  · exact Or.inl ⟨h1, h2⟩
  · exact Or.inr ⟨g.get_lt j n h, n, h, rfl, rfl⟩
  · exact Or.inr ⟨g.get_lt j m1 hold, m1, hold, rfl, rfl⟩

/-- A call keeps the depth bookkeeping invariant, provided an appended node carries the
depth the counter has right after the call. -/
theorem graph_data.depth_inv_step [graph_node α] (s : graph_data α) (hinv : s.inv)
    (hdi : s.depth_inv) (c : call α) (hcall : s.call_tracked c = true)
    (s1 : graph_data α) (hstep : s.step c = some s1) : s1.depth_inv := by
  obtain ⟨hwf, ⟨cur, n, hc, hn⟩, _⟩ := hinv
  have hcd : graph_node.depth n.data = s.m_depth := hdi.current_depth n (by rw [hc]; exact hn)
  cases c with
  | append_child node =>
    simp only [graph_data.call_tracked, decide_eq_true_eq] at hcall
    obtain ⟨g1, it, happ, hs⟩ := graph_data.append_child_live s node cur n hc hn
    obtain ⟨hit, _, _, hnew, _, _⟩ := graph.get_append_child s.m_graph g1 cur n node it hn happ
    simp only [graph_data.step, hs, Option.map_some', Option.some.injEq] at hstep
    subst hstep
    have hcases := graph.get_append_child_inv s.m_graph g1 cur n node it hn happ
    refine ⟨?_, ?_, ?_, ?_⟩
    · intro n1 hn1
      simp only [hit, hnew, Option.some.injEq] at hn1
      subst hn1
      exact hcall
    · intro i n1 p m1 hi hp hm
      simp only at hi hm
      rcases hcases p m1 hm with ⟨hpl, _⟩ | ⟨hplt, m0, hm0, hmd, _⟩
      · rcases hcases i n1 hi with ⟨_, rfl⟩ | ⟨hilt, n0, hn0, _, hnp⟩
        · simp only [Option.some.injEq] at hp
          have := s.m_graph.get_lt cur n hn
          omega
        · rw [hnp] at hp
          obtain ⟨hlt, _⟩ := hwf.parent_link i n0 p hn0 hp
          omega
      · rcases hcases i n1 hi with ⟨_, rfl⟩ | ⟨_, n0, hn0, hnd, hnp⟩
        · simp only [Option.some.injEq] at hp
          subst hp
          rw [hn] at hm0
          obtain rfl := Option.some.inj hm0
          rw [hmd, hcd]
          exact hcall
        · rw [hnp] at hp
          rw [hnd, hmd]
          exact hdi.child_depth i n0 p m0 hn0 hp hm0
    · intro i n1 hi
      simp only at hi
      rcases hcases i n1 hi with ⟨_, rfl⟩ | ⟨_, n0, hn0, hnd, _⟩
      · have := hdi.nonneg cur n hn
        simp only
        omega
      · rw [hnd]; exact hdi.nonneg i n0 hn0
    · intro i n1 hi hnone
      simp only at hi
      rcases hcases i n1 hi with ⟨_, rfl⟩ | ⟨_, n0, hn0, _, hnp⟩
      · simp at hnone
      · rw [hnp] at hnone
        exact hdi.root_head i n0 hn0 hnone
  | pop_graph =>
    have hpop := graph_data.pop_graph_live s cur n hc hn
    by_cases hpos : 0 < s.m_depth
    · cases hp : n.parent with
      | none =>
        rw [if_pos hpos, hp] at hpop
        simp only [graph_data.step, hpop, Option.map_some', Option.some.injEq] at hstep
        subst hstep
        exact hdi
      | some p =>
        rw [if_pos hpos, hp] at hpop
        simp only [graph_data.step, hpop, Option.map_some', Option.some.injEq] at hstep
        subst hstep
        refine ⟨?_, hdi.child_depth, hdi.nonneg, hdi.root_head⟩
        intro m hm
        simp only at hm
        have := hdi.child_depth cur n p m hn hp hm
        simp only
        omega
    · rw [if_neg hpos] at hpop
      by_cases hz : s.m_depth = 0
      · rw [if_pos hz] at hpop
        simp only [graph_data.step, hpop, Option.map_some', Option.some.injEq] at hstep
        subst hstep
        refine ⟨?_, hdi.child_depth, hdi.nonneg, hdi.root_head⟩
        intro nh hnh
        simp only at hnh
        have hroot : n.parent = none := by
          cases hp : n.parent with
          | none => rfl
          | some p =>
            obtain ⟨_, m, hm, _⟩ := hwf.parent_link cur n p hn hp
            have h1 := hdi.child_depth cur n p m hn hp hm
            have h2 := hdi.nonneg p m hm
            omega
        have hhead := hdi.root_head cur n hn hroot
        rw [← hhead, hn] at hnh
        obtain rfl := Option.some.inj hnh
        exact hcd
      · rw [if_neg hz] at hpop
        simp only [graph_data.step, hpop, Option.map_some', Option.some.injEq] at hstep
        subst hstep
        exact hdi

theorem graph_data.depth_tracked_take [graph_node α] (cs : List (call α)) :
    ∀ (s : graph_data α) (k : Nat), s.depth_tracked cs = true →
      s.depth_tracked (cs.take k) = true := by
  induction cs with
  | nil => intro s k h; simpa using h
  | cons c cs ih =>
    intro s k h
    cases k with
    | zero => simp [graph_data.depth_tracked]
    | succ k =>
      rw [List.take_succ_cons]
      simp only [graph_data.depth_tracked, Bool.and_eq_true] at h ⊢
      obtain ⟨h1, h2⟩ := h
      refine ⟨h1, ?_⟩
      cases hs : s.step c with
      | none => rfl
      | some s1 =>
        rw [hs] at h2
        exact ih s1 k h2

/-- Every depth-tracked sequence of calls returns and keeps both invariants. -/
theorem graph_data.depth_inv_run [graph_node α] (cs : List (call α)) :
    ∀ s : graph_data α, s.inv → s.depth_inv → s.depth_tracked cs = true →
      ∃ s1, s.run cs = some s1 ∧ s1.inv ∧ s1.depth_inv := by
  induction cs with
  | nil => intro s hinv hdi _; exact ⟨s, rfl, hinv, hdi⟩
  | cons c cs ih =>
    intro s hinv hdi htr
    simp only [graph_data.depth_tracked, Bool.and_eq_true] at htr
    obtain ⟨h1, h2⟩ := htr
    obtain ⟨s1, hstep, hinv1, _⟩ := graph_data.inv_step s hinv c
    rw [hstep] at h2
    have hdi1 := graph_data.depth_inv_step s hinv hdi c h1 s1 hstep
    obtain ⟨s2, hrun, hinv2, hdi2⟩ := ih s1 hinv1 hdi1 h2
    exact ⟨s2, by simp only [graph_data.run, hstep, hrun], hinv2, hdi2⟩

/-- C2, as stated, fails: below a root constructed at depth 0, `append_child` of a node
that stores depth 5 leaves `depth() = 1` while the node designated by `current()`
stores depth 5. -/
theorem graph_data.current_depth_mismatch :
    ∃ s0 s, graph_data.construct (⟨1, 0, false⟩ : call_node) 0 none = some s0 ∧
      s0.run [call.append_child ⟨2, 5, false⟩] = some s ∧
      s.current_node_depth = some 5 ∧ s.depth = 1 ∧ s.current_node_depth ≠ some s.depth := by
  refine ⟨sample_root_state, _, by decide, rfl, ?_⟩
  decide

/-- The root has to store the starting depth: a root that stores depth 7, constructed at
depth 0, still stores 7 after a `pop_graph()` that leaves `depth() = 0`. -/
theorem graph_data.root_depth_not_stored :
    ∃ s0 s, graph_data.construct (⟨1, 7, false⟩ : call_node) 0 none = some s0 ∧
      s0.run [call.pop_graph] = some s ∧
      s.current_node_depth = some 7 ∧ s.depth = 0 := by
  refine ⟨_, _, graph_data.construct_eq _ _ _, rfl, ?_⟩
  decide

/-- The starting depth has to be non-negative: from a root constructed at depth -1, one
depth-tracked `append_child` and one `pop_graph()` leave `depth() = 0` with the cursor
on the root, which stores -1. -/
theorem graph_data.negative_start_breaks_tracking :
    ∃ s0 s, graph_data.construct (⟨1, -1, false⟩ : call_node) (-1) none = some s0 ∧
      s0.depth_tracked [call.append_child ⟨2, 0, false⟩, call.pop_graph] = true ∧
      s0.run [call.append_child ⟨2, 0, false⟩, call.pop_graph] = some s ∧
      s.current_node_depth = some (-1) ∧ s.depth = 0 := by
  refine ⟨_, _, graph_data.construct_eq _ _ _, ?_, rfl, ?_⟩
  · decide
  · decide

/-- C2, amended: for a graph data constructed from a root node that stores the starting
depth `d >= 0`, and every finite sequence of `append_child` / `pop_graph` calls in which
each appended node stores the depth the counter has right after that call, every call
returns and after each of them (after the first `k` calls, for every `k`) the depth
stored in the node designated by `current()` equals `depth()`. -/
theorem graph_data.current_depth_tracks [graph_node α] (root : α) (d : Int) (m : Option Nat)
    (cs : List (call α)) (hd : 0 ≤ d) (hroot : graph_node.depth root = d)
    (s0 : graph_data α) (h0 : graph_data.construct root d m = some s0)
    (htr : s0.depth_tracked cs = true) :
    ∀ k, ∃ s, s0.run (cs.take k) = some s ∧ s.current_node_depth = some s.depth := by
  have hinv0 := graph_data.inv_construct root d m s0 h0
  rw [graph_data.construct_eq] at h0
  obtain rfl := Option.some.inj h0
  have key : ∀ i n,
      graph.get { nodes := [some { data := root, parent := none, children := [] }], top := [0] }
        (iterator.node i) = some n →
      i = 0 ∧ n = { data := root, parent := none, children := [] } := by
    intro i n h
    have hlt := graph.get_lt _ i n h
    simp only [List.length_singleton, Nat.lt_one_iff] at hlt
    subst hlt
    simp [graph.get] at h
    exact ⟨rfl, h.symm⟩
  have hdi0 : graph_data.depth_inv
      ({ m_has_head := true, m_depth := d, m_sea_level := d,
         m_graph := { nodes := [some { data := root, parent := none, children := [] }],
                      top := [0] },
         m_current := iterator.node 0, m_head := iterator.node 0, m_master := m,
         m_dummies := [(d, iterator.node 0)] } : graph_data α) := by
    refine ⟨?_, ?_, ?_, ?_⟩
    · intro n hn
      obtain ⟨_, rfl⟩ := key 0 n hn
      exact hroot
    · intro i n p m1 hi hp _
      obtain ⟨_, rfl⟩ := key i n hi
      simp at hp
    · intro i n hi
      obtain ⟨_, rfl⟩ := key i n hi
      simp only
      omega
    · intro i n hi _
      obtain ⟨rfl, _⟩ := key i n hi
      rfl
  intro k
  obtain ⟨s, hrun, hinv, hdi⟩ := graph_data.depth_inv_run (cs.take k) _ hinv0 hdi0
    (graph_data.depth_tracked_take cs _ k htr)
  refine ⟨s, hrun, ?_⟩
  obtain ⟨c, n, hc, hn⟩ := hinv.current_live
  have := hdi.current_depth n (by rw [hc]; exact hn)
  simp [graph_data.current_node_depth, graph_data.depth, hc, hn, this]

/-- C2 amended, at the sample events below a root constructed at depth 0, after all six
calls. -/
theorem graph_data.current_depth_tracks_witness :
    sample_root_state.depth_tracked sample_events = true ∧
    ∃ s, sample_root_state.run (sample_events.take 6) = some s ∧
      s.current_node_depth = some s.depth :=
  ⟨by decide,
   graph_data.current_depth_tracks ⟨1, 0, false⟩ 0 none sample_events (by decide) rfl
    sample_root_state (by decide) (by decide) 6⟩

/-! ## `clear` -/

theorem graph.get_clear (g : graph α) (it : iterator) : g.clear.get it = none := by
  cases it with
  | null => rfl
  | feet => rfl
  | node i =>
    simp only [graph.get, graph.clear, List.getElem?_map]
    cases g.nodes[i]? <;> rfl

/-- C12: from every state, `clear()` leaves `has_head() = false`, an empty tree (no iterator
designates a node, there is no top-level node and the pre-order traversal visits
nothing), `depth() = 0`, `sea_level() = 0`, a null `current()` and an empty dummy
catalogue, so that `get_inverse_insert()` returns the empty list. -/
theorem graph_data.clear_spec (s : graph_data α) :
    s.clear.has_head = false ∧
    (∀ it, s.clear.m_graph.get it = none) ∧
    s.clear.m_graph.top = [] ∧
    s.clear.m_graph.pre_order = [] ∧
    s.clear.depth = 0 ∧ s.clear.sea_level = 0 ∧
    s.clear.current = iterator.null ∧
    s.clear.m_dummies = [] ∧
    s.clear.get_inverse_insert = [] := by
  refine ⟨rfl, fun it => graph.get_clear s.m_graph it, rfl, rfl, rfl, rfl, rfl, rfl, rfl⟩

/-- The container rejects `append_child` under a cursor that designates no node. -/
theorem graph_data.append_child_null (s : graph_data α) (node : α)
    (h : s.m_current = iterator.null) : s.append_child node = none := by
  simp [graph_data.append_child, graph.append_child, h]

/-- C17: on the graph data left by `clear()`, whose cursor is null, `append_child(node)` is
rejected: the container's `append_child` under the null cursor yields no tree and no
iterator, and the member yields no state, so no node is added. -/
theorem graph_data.append_child_unrooted (s : graph_data α) (node : α) :
    s.clear.current = iterator.null ∧
    s.clear.m_graph.append_child s.clear.current node = none ∧
    s.clear.append_child node = none := by
  refine ⟨rfl, rfl, graph_data.append_child_null _ node rfl⟩

/-! ## The dummy catalogue -/

theorem foldl_push_back {β : Type} (l acc : List (Int × β)) :
    l.foldl (fun ret itr => ret ++ [(itr.1, itr.2)]) acc = acc ++ l := by
  induction l generalizing acc with
  | nil => simp
  | cons x xs ih => simp [List.foldl_cons, ih]

theorem graph_data.get_inverse_insert_eq (s : graph_data α) :
    s.get_inverse_insert = s.m_dummies.reverse := by
  simp [graph_data.get_inverse_insert, foldl_push_back]

/-- Inserting into the multimap adds exactly the new entry. -/
theorem multimap_insert_perm {β : Type} (k : Int) (v : β) (l : List (Int × β)) :
    (multimap_insert k v l).Perm ((k, v) :: l) := by
  induction l with
  | nil => simp [multimap_insert]
  | cons x xs ih =>
    obtain ⟨k0, v0⟩ := x
    simp only [multimap_insert]
    split
    · exact List.Perm.refl _
    · exact (List.Perm.cons _ ih).trans (List.Perm.swap _ _ _)

/-- Inserting into the multimap keeps the keys in non-decreasing order. -/
theorem multimap_insert_sorted {β : Type} (k : Int) (v : β) (l : List (Int × β))
    (h : l.Pairwise (fun a b => a.1 ≤ b.1)) :
    (multimap_insert k v l).Pairwise (fun a b => a.1 ≤ b.1) := by
  induction l with
  | nil => simp [multimap_insert]
  | cons x xs ih =>
    obtain ⟨k0, v0⟩ := x
    simp only [multimap_insert]
    rw [List.pairwise_cons] at h
    obtain ⟨hx, hxs⟩ := h
    split
    · rename_i hlt
      refine List.pairwise_cons.mpr ⟨?_, List.pairwise_cons.mpr ⟨hx, hxs⟩⟩
      intro b hb
      simp only [List.mem_cons] at hb
      rcases hb with rfl | hb
      · exact Int.le_of_lt hlt
      · exact Int.le_trans (Int.le_of_lt hlt) (hx b hb)
    · rename_i hge
      refine List.pairwise_cons.mpr ⟨?_, ih hxs⟩
      intro b hb
      have hb1 := (multimap_insert_perm k v xs).subset hb
      simp only [List.mem_cons] at hb1
      rcases hb1 with rfl | hb1
      · exact Int.not_lt.mp hge
      · exact hx b hb1

/-- C16: for a dummy catalogue in the key order of its multimap, `get_inverse_insert()`
returns the catalogue reversed: a permutation of the catalogue (every entry exactly
once, as the same (depth, node) pair) whose depths are non-increasing from first to
last. -/
theorem graph_data.get_inverse_insert_spec (s : graph_data α)
    (hsorted : s.m_dummies.Pairwise (fun a b => a.1 ≤ b.1)) :
    s.get_inverse_insert.Perm s.m_dummies ∧
    s.get_inverse_insert.Pairwise (fun a b => b.1 ≤ a.1) ∧
    s.get_inverse_insert = s.m_dummies.reverse := by
  rw [graph_data.get_inverse_insert_eq]
  exact ⟨List.reverse_perm _, List.pairwise_reverse.mpr hsorted, rfl⟩

/-- C16, at a catalogue with entries at depths 0, 1 and 2. -/
theorem graph_data.get_inverse_insert_spec_witness :
    sample_catalogue_state.m_dummies =
      [(0, iterator.node 0), (1, iterator.node 2), (2, iterator.node 1)] ∧
    sample_catalogue_state.get_inverse_insert.Perm sample_catalogue_state.m_dummies ∧
    sample_catalogue_state.get_inverse_insert.Pairwise (fun a b => b.1 ≤ a.1) ∧
    sample_catalogue_state.get_inverse_insert = sample_catalogue_state.m_dummies.reverse :=
  ⟨by decide, graph_data.get_inverse_insert_spec sample_catalogue_state (by decide)⟩

/-! ## Ancestors and `erase_children` -/

theorem graph.ancestors_succ (g : graph α) (f i : Nat) (n : tree_node α) (p : Nat)
    (hn : g.get (iterator.node i) = some n) (hp : n.parent = some p) :
    g.ancestors (f + 1) i = p :: g.ancestors f p := by
  simp [graph.ancestors, hn, hp]

theorem graph.ancestors_root (g : graph α) (f i : Nat) (n : tree_node α)
    (hn : g.get (iterator.node i) = some n) (hp : n.parent = none) :
    g.ancestors f i = [] := by
  cases f <;> simp [graph.ancestors, hn, hp]

theorem graph.ancestors_dead (g : graph α) (f i : Nat)
    (hn : g.get (iterator.node i) = none) : g.ancestors f i = [] := by
  cases f <;> simp [graph.ancestors, hn]

/-- More fuel only lengthens the chain of ancestors. -/
theorem graph.ancestors_mono (g : graph α) (f : Nat) :
    ∀ f1 i a, f ≤ f1 → a ∈ g.ancestors f i → a ∈ g.ancestors f1 i := by
  induction f with
  | zero => intro f1 i a _ ha; simp [graph.ancestors] at ha
  | succ f ih =>
    intro f1 i a hle ha
    obtain ⟨f2, rfl⟩ : ∃ f2, f1 = f2 + 1 := ⟨f1 - 1, by omega⟩
    cases hn : g.get (iterator.node i) with
    | none => rw [g.ancestors_dead _ i hn] at ha; simp at ha
    | some n =>
      cases hp : n.parent with
      | none => rw [g.ancestors_root _ i n hn hp] at ha; simp at ha
      | some p =>
        rw [g.ancestors_succ f i n p hn hp] at ha
        rw [g.ancestors_succ f2 i n p hn hp]
        simp only [List.mem_cons] at ha ⊢
        rcases ha with h | h
        · exact Or.inl h
        · exact Or.inr (ih f2 p a (by omega) h)

/-- In a well-formed tree the chain of ancestors of slot `i` is complete with fuel `i + 1`. -/
theorem graph.wf.ancestors_stable {g : graph α} (hwf : g.wf) (i : Nat) :
    ∀ f1 f2, i < f1 → i < f2 → g.ancestors f1 i = g.ancestors f2 i := by
  induction i using Nat.strong_induction_on with
  | _ i ih =>
    intro f1 f2 h1 h2
    obtain ⟨k1, rfl⟩ : ∃ k, f1 = k + 1 := ⟨f1 - 1, by omega⟩
    obtain ⟨k2, rfl⟩ : ∃ k, f2 = k + 1 := ⟨f2 - 1, by omega⟩
    cases hn : g.get (iterator.node i) with
    | none => rw [g.ancestors_dead _ i hn, g.ancestors_dead _ i hn]
    | some n =>
      cases hp : n.parent with
      | none => rw [g.ancestors_root _ i n hn hp, g.ancestors_root _ i n hn hp]
      | some p =>
        obtain ⟨hlt, _⟩ := hwf.parent_link i n p hn hp
        rw [g.ancestors_succ k1 i n p hn hp, g.ancestors_succ k2 i n p hn hp,
          ih p hlt k1 k2 (by omega) (by omega)]

/-- In a well-formed tree every ancestor is older than the node. -/
theorem graph.wf.ancestors_lt {g : graph α} (hwf : g.wf) (f : Nat) :
    ∀ i a, a ∈ g.ancestors f i → a < i := by
  induction f with
  | zero => intro i a ha; simp [graph.ancestors] at ha
  | succ f ih =>
    intro i a ha
    cases hn : g.get (iterator.node i) with
    | none => rw [g.ancestors_dead _ i hn] at ha; simp at ha
    | some n =>
      cases hp : n.parent with
      | none => rw [g.ancestors_root _ i n hn hp] at ha; simp at ha
      | some p =>
        obtain ⟨hlt, _⟩ := hwf.parent_link i n p hn hp
        rw [g.ancestors_succ f i n p hn hp] at ha
        simp only [List.mem_cons] at ha
        rcases ha with rfl | h
        · exact hlt
        · exact Nat.lt_trans (ih p a h) hlt

/-- The slots of the arena after `erase_children`. -/
theorem graph.get_erase_children (g g1 : graph α) (h : Nat) (n : tree_node α)
    (hn : g.get (iterator.node h) = some n)
    (her : g.erase_children (iterator.node h) = some g1) (i : Nat) :
    g1.nodes.length = g.nodes.length ∧ g1.top = g.top ∧
    g1.get (iterator.node i) =
      if h ∈ g.ancestors g.nodes.length i then none
      else if i = h then some { n with children := [] }
      else g.get (iterator.node i) := by
  simp only [graph.erase_children, hn, Option.some.injEq] at her
  subst her
  refine ⟨by simp, rfl, ?_⟩
  by_cases hi : i < g.nodes.length
  · simp [graph.get_node, List.getElem?_map, List.getElem?_range hi]
  · have hdead : g.get (iterator.node i) = none := by
      cases hg : g.get (iterator.node i) with
      | none => rfl
      | some m => exact absurd (g.get_lt i m hg) hi
    have hih : i ≠ h := fun e => hi (e ▸ g.get_lt h n hn)
    rw [g.ancestors_dead _ i hdead]
    simp only [List.not_mem_nil, if_false, hih, hdead]
    rw [graph.get_node, List.getElem?_eq_none (by simpa using hi)]
    rfl

/-- A node that is live after `erase_children` was live before, is not below the erased
node, and keeps its payload and parent; only the erased node loses its children. -/
theorem graph.erase_children_live (g g1 : graph α) (h : Nat) (n : tree_node α)
    (hn : g.get (iterator.node h) = some n)
    (her : g.erase_children (iterator.node h) = some g1) (i : Nat) (m1 : tree_node α)
    (hi : g1.get (iterator.node i) = some m1) :
    h ∉ g.ancestors g.nodes.length i ∧
    ∃ m, g.get (iterator.node i) = some m ∧ m1.data = m.data ∧ m1.parent = m.parent ∧
      (i = h → m1.children = []) ∧ (i ≠ h → m1 = m) := by
  obtain ⟨_, _, hget⟩ := graph.get_erase_children g g1 h n hn her i
  rw [hget] at hi
  by_cases hanc : h ∈ g.ancestors g.nodes.length i
  · simp [hanc] at hi
  · refine ⟨hanc, ?_⟩
    by_cases hih : i = h
    · subst hih
      simp only [hanc, if_false, if_true, Option.some.injEq] at hi
      subst hi
      exact ⟨n, hn, rfl, rfl, fun _ => rfl, fun e => absurd rfl e⟩
    · simp only [hanc, if_false, hih] at hi
      exact ⟨m1, hi, rfl, rfl, fun e => absurd e hih, fun _ => rfl⟩

/-- A live node that is not below the erased node stays live under `erase_children`. -/
theorem graph.erase_children_keep (g g1 : graph α) (h : Nat) (n : tree_node α)
    (hn : g.get (iterator.node h) = some n)
    (her : g.erase_children (iterator.node h) = some g1) (i : Nat) (m : tree_node α)
    (hi : g.get (iterator.node i) = some m) (hanc : h ∉ g.ancestors g.nodes.length i) :
    ∃ m1, g1.get (iterator.node i) = some m1 ∧ m1.data = m.data ∧ m1.parent = m.parent ∧
      (i ≠ h → m1 = m) := by
  obtain ⟨_, _, hget⟩ := graph.get_erase_children g g1 h n hn her i
  by_cases hih : i = h
  · subst hih
    rw [hn] at hi
    obtain rfl := Option.some.inj hi
    exact ⟨{ n with children := [] }, by rw [hget]; simp [hanc], rfl, rfl,
      fun e => absurd rfl e⟩
  · exact ⟨m, by rw [hget]; simp [hanc, hih, hi], rfl, rfl, fun _ => rfl⟩

/-- The container operation `erase_children` keeps the tree well formed. -/
theorem graph.wf.erase_children {g : graph α} (hwf : g.wf) (g1 : graph α) (h : Nat)
    (n : tree_node α) (hn : g.get (iterator.node h) = some n)
    (her : g.erase_children (iterator.node h) = some g1) : g1.wf := by
  obtain ⟨_, htop, _⟩ := graph.get_erase_children g g1 h n hn her 0
  have hlive := graph.erase_children_live g g1 h n hn her
  have hkeep := graph.erase_children_keep g g1 h n hn her
  refine ⟨?_, ?_, ?_, ?_⟩
  · intro i hi
    rw [htop] at hi
    obtain ⟨m, hm, hmp⟩ := hwf.top_root i hi
    have hanc : h ∉ g.ancestors g.nodes.length i := by
      rw [g.ancestors_root _ i m hm hmp]; simp
    obtain ⟨m1, hm1, _, hp1, _⟩ := hkeep i m hm hanc
    exact ⟨m1, hm1, by rw [hp1, hmp]⟩
  · intro i m1 c hi hc
    obtain ⟨hanc, m, hm, _, _, hch, hsame⟩ := hlive i m1 hi
    by_cases hih : i = h
    · rw [hch hih] at hc; simp at hc
    · rw [hsame hih] at hc
      obtain ⟨mc, hmc, hmcp⟩ := hwf.child_link i m c hm hc
      have hlt := g.get_lt c mc hmc
      have hancc : h ∉ g.ancestors g.nodes.length c := by
        obtain ⟨k, hk⟩ : ∃ k, g.nodes.length = k + 1 := ⟨g.nodes.length - 1, by omega⟩
        rw [hk, g.ancestors_succ k c mc i hmc hmcp]
        simp only [List.mem_cons, not_or]
        refine ⟨fun e => hih e.symm, fun hmem => hanc ?_⟩
        exact g.ancestors_mono k _ i h (by omega) hmem
      obtain ⟨mc1, hmc1, _, hp1, _⟩ := hkeep c mc hmc hancc
      exact ⟨mc1, hmc1, by rw [hp1, hmcp]⟩
  · intro i m1 p hi hp
    obtain ⟨hanc, m, hm, _, hpar, _, _⟩ := hlive i m1 hi
    rw [hpar] at hp
    obtain ⟨hlt, mp, hmp, him⟩ := hwf.parent_link i m p hm hp
    have hil := g.get_lt i m hm
    obtain ⟨k, hk⟩ : ∃ k, g.nodes.length = k + 1 := ⟨g.nodes.length - 1, by omega⟩
    have hanci : g.ancestors g.nodes.length i = p :: g.ancestors k p := by
      rw [hk, g.ancestors_succ k i m p hm hp]
    rw [hanci] at hanc
    simp only [List.mem_cons, not_or] at hanc
    have hancp : h ∉ g.ancestors g.nodes.length p := by
      rw [hwf.ancestors_stable p g.nodes.length k (by omega) (by omega)]
      exact hanc.2
    obtain ⟨mp1, hmp1, _, _, hsame⟩ := hkeep p mp hmp hancp
    have hph : p ≠ h := fun e => hanc.1 e.symm
    refine ⟨hlt, mp1, hmp1, ?_⟩
    rw [hsame hph]
    exact him
  · intro i m1 hi hnone
    obtain ⟨_, m, hm, _, hpar, _, _⟩ := hlive i m1 hi
    rw [htop]
    exact hwf.root_top i m hm (by rw [← hpar]; exact hnone)

/-- After `erase_children` on a well-formed tree no live node has the erased node among
its ancestors. -/
theorem graph.wf.erase_children_none_below {g : graph α} (hwf : g.wf) (g1 : graph α)
    (h : Nat) (n : tree_node α) (hn : g.get (iterator.node h) = some n)
    (her : g.erase_children (iterator.node h) = some g1) (f : Nat) :
    ∀ i m1, g1.get (iterator.node i) = some m1 → h ∉ g1.ancestors f i := by
  have hwf1 := hwf.erase_children g1 h n hn her
  induction f with
  | zero => intro i m1 _; simp [graph.ancestors]
  | succ f ih =>
    intro i m1 hi
    obtain ⟨hanc, m, hm, _, hpar, _, _⟩ := graph.erase_children_live g g1 h n hn her i m1 hi
    cases hp : m1.parent with
    | none => rw [g1.ancestors_root _ i m1 hi hp]; simp
    | some p =>
      rw [g1.ancestors_succ f i m1 p hi hp]
      obtain ⟨_, mp1, hmp1, _⟩ := hwf1.parent_link i m1 p hi hp
      have hil := g.get_lt i m hm
      obtain ⟨k, hk⟩ : ∃ k, g.nodes.length = k + 1 := ⟨g.nodes.length - 1, by omega⟩
      rw [hk, g.ancestors_succ k i m p hm (by rw [← hpar]; exact hp)] at hanc
      simp only [List.mem_cons, not_or] at hanc ⊢
      exact ⟨hanc.1, ih p mp1 hmp1⟩

/-! ## `reset` -/

/-- The state `sample_nested_state` satisfies the structural invariant. -/
theorem sample_nested_state_inv : sample_nested_state.inv := by
  obtain ⟨s1, hrun, hinv, _⟩ := graph_data.inv_run sample_events sample_root_state
    (graph_data.inv_construct ⟨1, 0, false⟩ 0 none sample_root_state (by decide)) (by decide)
  have h : sample_root_state.run sample_events = some sample_nested_state := by decide
  rw [h] at hrun
  obtain rfl := Option.some.inj hrun
  exact hinv

/-- What `reset` does when the head designates a live node. -/
theorem graph_data.reset_live (s : graph_data α) (h : Nat) (n : tree_node α)
    (hh : s.m_head = iterator.node h) (hn : s.m_graph.get (iterator.node h) = some n) :
    ∃ g1, s.m_graph.erase_children (iterator.node h) = some g1 ∧
      s.reset = some { s with m_graph := g1, m_depth := 0, m_current := s.m_head } := by
  have her : ∃ g1, s.m_graph.erase_children (iterator.node h) = some g1 := by
    simp [graph.erase_children, hn]
  obtain ⟨g1, hg1⟩ := her
  exact ⟨g1, hg1, by simp only [graph_data.reset, hh, hg1]⟩

/-- A `reset` keeps the structural invariant. -/
theorem graph_data.inv_reset (s : graph_data α) (hinv : s.inv) :
    ∃ s1, s.reset = some s1 ∧ s1.inv ∧ s1.m_depth = 0 ∧ s1.m_current = s1.m_head ∧
      s1.m_head = s.m_head := by
  obtain ⟨hwf, _, ⟨h, n, hh, hn⟩⟩ := hinv
  obtain ⟨g1, her, hreset⟩ := graph_data.reset_live s h n hh hn
  have hanc : h ∉ s.m_graph.ancestors s.m_graph.nodes.length h :=
    fun hmem => Nat.lt_irrefl h (hwf.ancestors_lt _ h h hmem)
  obtain ⟨m1, hm1, _⟩ := graph.erase_children_keep s.m_graph g1 h n hn her h n hn hanc
  refine ⟨_, hreset, ⟨hwf.erase_children g1 h n hn her, ⟨h, m1, hh, hm1⟩, ⟨h, m1, hh, hm1⟩⟩,
    rfl, rfl, rfl⟩

/-- C11: from every rooted state (well-formed tree, head and cursor on live nodes, any
depth), `reset()` returns and leaves `depth() = 0` and `current() = head()` with the
head unchanged; the head node keeps its payload and parent and has no children, every
node that was below the head is erased, and no live node has the head among its
ancestors.  The resulting state is again rooted. -/
theorem graph_data.reset_spec (s : graph_data α) (hinv : s.inv) :
    ∃ s1 h n, s.reset = some s1 ∧
      s.head = iterator.node h ∧ s.m_graph.get (iterator.node h) = some n ∧
      s1.depth = 0 ∧ s1.current = s1.head ∧ s1.head = s.head ∧
      s1.m_graph.get (iterator.node h) = some { n with children := [] } ∧
      s1.m_graph.children h = [] ∧
      (∀ i, h ∈ s.m_graph.ancestors s.m_graph.nodes.length i →
        s1.m_graph.get (iterator.node i) = none) ∧
      (∀ f i m, s1.m_graph.get (iterator.node i) = some m → h ∉ s1.m_graph.ancestors f i) ∧
      s1.inv := by
  obtain ⟨s1, hreset1, hinv1, _⟩ := graph_data.inv_reset s hinv
  obtain ⟨hwf, _, ⟨h, n, hh, hn⟩⟩ := hinv
  obtain ⟨g1, her, hreset⟩ := graph_data.reset_live s h n hh hn
  rw [hreset] at hreset1
  obtain rfl := Option.some.inj hreset1
  have hanc : h ∉ s.m_graph.ancestors s.m_graph.nodes.length h :=
    fun hmem => Nat.lt_irrefl h (hwf.ancestors_lt _ h h hmem)
  have hget := fun i => (graph.get_erase_children s.m_graph g1 h n hn her i).2.2
  have hhead : g1.get (iterator.node h) = some { n with children := [] } := by
    rw [hget h]; simp [hanc]
  refine ⟨_, h, n, hreset, hh, hn, rfl, rfl, rfl, hhead, ?_, ?_, ?_, hinv1⟩
  · show g1.children h = []
    simp [graph.children, hhead]
  · intro i hi
    show g1.get (iterator.node i) = none
    rw [hget i]; simp [hi]
  · intro f i m hi
    exact hwf.erase_children_none_below g1 h n hn her f i m hi

/-- C11, at the sample state, whose cursor is two levels below the head. -/
theorem graph_data.reset_spec_witness :
    ∃ s1 h n, sample_nested_state.reset = some s1 ∧
      sample_nested_state.head = iterator.node h ∧
      sample_nested_state.m_graph.get (iterator.node h) = some n ∧
      s1.depth = 0 ∧ s1.current = s1.head ∧ s1.head = sample_nested_state.head ∧
      s1.m_graph.get (iterator.node h) = some { n with children := [] } ∧
      s1.m_graph.children h = [] ∧
      (∀ i, h ∈ sample_nested_state.m_graph.ancestors
            sample_nested_state.m_graph.nodes.length i →
        s1.m_graph.get (iterator.node i) = none) ∧
      (∀ f i m, s1.m_graph.get (iterator.node i) = some m → h ∉ s1.m_graph.ancestors f i) ∧
      s1.inv :=
  graph_data.reset_spec sample_nested_state sample_nested_state_inv

/-! ## `insert_after` -/

theorem mem_list_insert_after (q x a : Nat) (l : List Nat) :
    a ∈ list_insert_after q x l ↔ a ∈ l ∨ (a = x ∧ q ∈ l) := by
  induction l with
  | nil => simp [list_insert_after]
  | cons b rest ih =>
    simp only [list_insert_after]
    split
    · rename_i hb
      subst hb
      simp only [List.mem_cons, true_or, and_true]
      constructor
      · rintro (h | h | h)
        · exact Or.inl (Or.inl h)
        · exact Or.inr h
        · exact Or.inl (Or.inr h)
      · rintro ((h | h) | h)
        · exact Or.inl h
        · exact Or.inr (Or.inr h)
        · exact Or.inr (Or.inl h)
    · rename_i hb
      simp only [List.mem_cons, ih]
      constructor
      · rintro (h | h | ⟨h1, h2⟩)
        · exact Or.inl (Or.inl h)
        · exact Or.inl (Or.inr h)
        · exact Or.inr ⟨h1, Or.inr h2⟩
      · rintro ((h | h) | ⟨h1, h2 | h2⟩)
        · exact Or.inl h
        · exact Or.inr (Or.inl h)
        · exact absurd h2.symm hb
        · exact Or.inr (Or.inr ⟨h1, h2⟩)

/-- The tree after `insert_after` at a live node whose parent, if any, is live: the new
slot holds the payload below the same parent, old nodes keep payload and parent, and
the new handle is linked into the sibling list that holds the position. -/
theorem graph.get_insert_after (g : graph α) (q : Nat) (n : tree_node α) (x : α)
    (hn : g.get (iterator.node q) = some n)
    (hpar : ∀ p, n.parent = some p → ∃ m, g.get (iterator.node p) = some m) :
    ∃ g1, g.insert_after (iterator.node q) x = some (g1, iterator.node g.nodes.length) ∧
      g1.nodes.length = g.nodes.length + 1 ∧
      g1.get (iterator.node g.nodes.length) =
        some { data := x, parent := n.parent, children := [] } ∧
      (∀ j m, g.get (iterator.node j) = some m →
        ∃ m1, g1.get (iterator.node j) = some m1 ∧ m1.data = m.data ∧ m1.parent = m.parent ∧
          ∀ c, c ∈ m1.children ↔
            c ∈ m.children ∨ (c = g.nodes.length ∧ n.parent = some j ∧ q ∈ m.children)) ∧
      (∀ j m1, g1.get (iterator.node j) = some m1 →
        j = g.nodes.length ∨ ∃ m, g.get (iterator.node j) = some m) ∧
      (∀ a, a ∈ g1.top ↔ a ∈ g.top ∨ (a = g.nodes.length ∧ n.parent = none ∧ q ∈ g.top)) := by
  cases hp : n.parent with
  | none =>
    refine ⟨{ nodes := g.nodes ++ [some { data := x, parent := none, children := [] }],
              top := list_insert_after q g.nodes.length g.top },
      by simp [graph.insert_after, hn, hp], by simp, ?_, ?_, ?_, ?_⟩
    · simp [graph.get_node, List.getElem?_append_right]
    · intro j m hj
      have hlt := g.get_lt j m hj
      refine ⟨m, ?_, rfl, rfl, fun c => by simp⟩
      rw [graph.get_node] at hj ⊢
      simp only [List.getElem?_append_left hlt]
      exact hj
    · intro j m1 hj
      by_cases hlt : j < g.nodes.length
      · refine Or.inr ⟨m1, ?_⟩
        rw [graph.get_node] at hj ⊢
        simp only [List.getElem?_append_left hlt] at hj
        exact hj
      · have hlen := graph.get_lt _ j m1 hj
        simp only [List.length_append, List.length_singleton] at hlen
        exact Or.inl (by omega)
    · intro a
      simp [mem_list_insert_after]
  | some p =>
    obtain ⟨m, hm⟩ := hpar p hp
    have hplt := g.get_lt p m hm
    let m2 : tree_node α :=
      { data := m.data, parent := m.parent,
        children := list_insert_after q g.nodes.length m.children }
    have hset : ∀ j, j < g.nodes.length → j < (g.nodes.set p (some m2)).length := by
      intro j hj; simpa using hj
    refine ⟨{ nodes := g.nodes.set p (some m2)
                ++ [some { data := x, parent := some p, children := [] }],
              top := g.top },
      by simp [graph.insert_after, hn, hp, hm, m2], by simp, ?_, ?_, ?_, ?_⟩
    · simp [graph.get_node, List.getElem?_append_right]
    · intro j mj hj
      have hlt := g.get_lt j mj hj
      by_cases hjp : j = p
      · subst hjp
        rw [hm] at hj
        obtain rfl := Option.some.inj hj
        refine ⟨m2, ?_, rfl, rfl, fun c => by simp [m2, mem_list_insert_after]⟩
        simp [graph.get_node, List.getElem?_append_left (hset j hlt), List.getElem?_set, hlt]
      · refine ⟨mj, ?_, rfl, rfl, fun c => ?_⟩
        · rw [graph.get_node] at hj ⊢
          simp only [List.getElem?_append_left (hset j hlt), List.getElem?_set]
          rw [if_neg (Ne.symm hjp)]
          exact hj
        · constructor
          · intro h; exact Or.inl h
          · rintro (h | ⟨_, h, _⟩)
            · exact h
            · exact absurd (Option.some.inj h).symm hjp
    · intro j m1 hj
      by_cases hlt : j < g.nodes.length
      · by_cases hjp : j = p
        · exact Or.inr ⟨m, hjp ▸ hm⟩
        · refine Or.inr ⟨m1, ?_⟩
          rw [graph.get_node] at hj ⊢
          simp only [List.getElem?_append_left (hset j hlt), List.getElem?_set] at hj
          rw [if_neg (Ne.symm hjp)] at hj
          exact hj
      · have hlen := graph.get_lt _ j m1 hj
        simp only [List.length_append, List.length_singleton, List.length_set] at hlen
        exact Or.inl (by omega)
    · intro a
      simp

/-- The container operation `insert_after` keeps the tree well formed. -/
theorem graph.wf.insert_after {g : graph α} (hwf : g.wf) (q : Nat) (n : tree_node α) (x : α)
    (hn : g.get (iterator.node q) = some n) (g1 : graph α) (it : iterator)
    (hins : g.insert_after (iterator.node q) x = some (g1, it)) : g1.wf := by
  have hpar : ∀ p, n.parent = some p → ∃ m, g.get (iterator.node p) = some m := by
    intro p hp
    obtain ⟨_, m, hm, _⟩ := hwf.parent_link q n p hn hp
    exact ⟨m, hm⟩
  obtain ⟨g2, hins2, _, hnew, hold, hconv, htop⟩ := graph.get_insert_after g q n x hn hpar
  rw [hins2] at hins
  simp only [Option.some.injEq, Prod.mk.injEq] at hins
  obtain ⟨rfl, _⟩ := hins
  have hqlt := g.get_lt q n hn
  refine ⟨?_, ?_, ?_, ?_⟩
  · intro a ha
    rcases (htop a).mp ha with h | ⟨rfl, hp, _⟩
    · obtain ⟨m, hm, hmp⟩ := hwf.top_root a h
      obtain ⟨m1, hm1, _, hp1, _⟩ := hold a m hm
      exact ⟨m1, hm1, by rw [hp1, hmp]⟩
    · exact ⟨_, hnew, hp⟩
  · intro j m1 c hj hc
    rcases hconv j m1 hj with rfl | ⟨m, hm⟩
    · rw [hnew] at hj
      obtain rfl := Option.some.inj hj
      simp at hc
    · obtain ⟨m2, hm2, _, _, hch⟩ := hold j m hm
      rw [hj] at hm2
      obtain rfl := Option.some.inj hm2
      rcases (hch c).mp hc with h | ⟨rfl, hp, _⟩
      · obtain ⟨mc, hmc, hmcp⟩ := hwf.child_link j m c hm h
        obtain ⟨mc1, hmc1, _, hp1, _⟩ := hold c mc hmc
        exact ⟨mc1, hmc1, by rw [hp1, hmcp]⟩
      · exact ⟨_, hnew, hp⟩
  · intro i m1 p hi hp
    rcases hconv i m1 hi with rfl | ⟨m, hm⟩
    · rw [hnew] at hi
      obtain rfl := Option.some.inj hi
      simp only at hp
      obtain ⟨hlt, mp, hmp, hq⟩ := hwf.parent_link q n p hn hp
      obtain ⟨mp1, hmp1, _, _, hch⟩ := hold p mp hmp
      exact ⟨by omega, mp1, hmp1, (hch _).mpr (Or.inr ⟨rfl, hp, hq⟩)⟩
    · obtain ⟨m2, hm2, _, hp2, _⟩ := hold i m hm
      rw [hi] at hm2
      obtain rfl := Option.some.inj hm2
      rw [hp2] at hp
      obtain ⟨hlt, mp, hmp, him⟩ := hwf.parent_link i m p hm hp
      obtain ⟨mp1, hmp1, _, _, hch⟩ := hold p mp hmp
      exact ⟨hlt, mp1, hmp1, (hch i).mpr (Or.inl him)⟩
  · intro i m1 hi hnone
    rcases hconv i m1 hi with rfl | ⟨m, hm⟩
    · rw [hnew] at hi
      obtain rfl := Option.some.inj hi
      simp only at hnone
      exact (htop _).mpr (Or.inr ⟨rfl, hnone, hwf.root_top q n hn hnone⟩)
    · obtain ⟨m2, hm2, _, hp2, _⟩ := hold i m hm
      rw [hi] at hm2
      obtain rfl := Option.some.inj hm2
      exact (htop i).mpr (Or.inl (hwf.root_top i m hm (by rw [← hp2]; exact hnone)))

/-! ## `add_dummy` -/

/-- What `add_dummy` does when there is a master whose cursor designates a live node and
the own head designates a live node of a well-formed tree. -/
theorem graph_data.add_dummy_live {β : Type} [graph_node α] [dummy_node α β]
    (s master : graph_data α) (a : Nat) (cn : tree_node α) (h : Nat) (hnode : tree_node α)
    (hwf : s.m_graph.wf) (hm : s.m_master = some a)
    (hcur : master.m_graph.get master.m_current = some cn)
    (hh : s.m_head = iterator.node h) (hhn : s.m_graph.get (iterator.node h) = some hnode) :
    ∃ g1, s.m_graph.insert_after (iterator.node h)
        (dummy_node.make (graph_node.id cn.data) (dummy_node.get_dummy α)
          (graph_node.depth cn.data)) = some (g1, iterator.node s.m_graph.nodes.length) ∧
      s.add_dummy master =
        some { s with m_depth := graph_node.depth cn.data
                      m_sea_level := graph_node.depth cn.data
                      m_graph := g1
                      m_current := iterator.node s.m_graph.nodes.length
                      m_dummies := multimap_insert (graph_node.depth cn.data)
                        (iterator.node s.m_graph.nodes.length) s.m_dummies } := by
  have hpar : ∀ p, hnode.parent = some p → ∃ m, s.m_graph.get (iterator.node p) = some m := by
    intro p hp
    obtain ⟨_, m, hm1, _⟩ := hwf.parent_link h hnode p hhn hp
    exact ⟨m, hm1⟩
  obtain ⟨g1, hins, _⟩ := graph.get_insert_after s.m_graph h hnode
    (dummy_node.make (graph_node.id cn.data) (dummy_node.get_dummy α)
      (graph_node.depth cn.data)) hhn hpar
  refine ⟨g1, hins, ?_⟩
  simp only [graph_data.add_dummy, hm, hcur, hh, hins]

/-- C14: for a rooted graph data that has a master whose cursor designates a live node,
`add_dummy()` returns and creates exactly one new node; that node carries the scope
identity and the depth of the master's current node and the dummy sentinel as payload,
every node that was in the tree stays with its payload and parent, and the dummy
catalogue gains exactly the one entry (that depth, that node), inserted in key order. -/
theorem graph_data.add_dummy_spec {β : Type} [graph_node α] [dummy_node α β]
    (s master : graph_data α) (a : Nat) (cn : tree_node α) (hinv : s.inv)
    (hm : s.m_master = some a) (hcur : master.m_graph.get master.m_current = some cn) :
    ∃ s1 it d, s.add_dummy master = some s1 ∧
      s.m_graph.get it = none ∧ s1.m_graph.get it = some d ∧
      graph_node.id d.data = graph_node.id cn.data ∧
      graph_node.depth d.data = graph_node.depth cn.data ∧
      dummy_node.obj d.data = dummy_node.get_dummy α ∧
      d.children = [] ∧
      s1.m_graph.nodes.length = s.m_graph.nodes.length + 1 ∧
      (∀ j m, s.m_graph.get (iterator.node j) = some m →
        ∃ m1, s1.m_graph.get (iterator.node j) = some m1 ∧ m1.data = m.data ∧
          m1.parent = m.parent) ∧
      (∀ j m1, s1.m_graph.get (iterator.node j) = some m1 →
        iterator.node j = it ∨ ∃ m, s.m_graph.get (iterator.node j) = some m) ∧
      s1.m_dummies = multimap_insert (graph_node.depth cn.data) it s.m_dummies ∧
      s1.m_dummies.Perm ((graph_node.depth cn.data, it) :: s.m_dummies) := by
  obtain ⟨hwf, _, ⟨h, hnode, hh, hhn⟩⟩ := hinv
  obtain ⟨g1, hins, hadd⟩ := graph_data.add_dummy_live s master a cn h hnode hwf hm hcur hh hhn
  have hpar : ∀ p, hnode.parent = some p → ∃ m, s.m_graph.get (iterator.node p) = some m := by
    intro p hp
    obtain ⟨_, m, hm1, _⟩ := hwf.parent_link h hnode p hhn hp
    exact ⟨m, hm1⟩
  obtain ⟨g2, hins2, hlen, hnew, hold, hconv, _⟩ := graph.get_insert_after s.m_graph h hnode
    (dummy_node.make (graph_node.id cn.data) (dummy_node.get_dummy α)
      (graph_node.depth cn.data)) hhn hpar
  rw [hins2] at hins
  simp only [Option.some.injEq, Prod.mk.injEq, and_true] at hins
  subst hins
  refine ⟨_, iterator.node s.m_graph.nodes.length, _, hadd, ?_, hnew,
    dummy_node.id_make _ _ _, dummy_node.depth_make _ _ _, dummy_node.obj_make _ _ _, rfl,
    hlen, ?_, ?_, rfl, multimap_insert_perm _ _ _⟩
  · simp [graph.get_node]
  · intro j m hj
    obtain ⟨m1, hm1, hd, hp, _⟩ := hold j m hj
    exact ⟨m1, hm1, hd, hp⟩
  · intro j m1 hj
    rcases hconv j m1 hj with rfl | hmm
    · exact Or.inl rfl
    · exact Or.inr hmm

/-- C14, at a fresh worker whose master is the sample thread (cursor on scope 4 at
depth 2). -/
theorem graph_data.add_dummy_spec_witness :
    ∃ s1 it d, sample_worker_state.add_dummy sample_nested_state = some s1 ∧
      sample_worker_state.m_graph.get it = none ∧ s1.m_graph.get it = some d ∧
      graph_node.id d.data = graph_node.id (⟨4, 2, false⟩ : call_node) ∧
      graph_node.depth d.data = graph_node.depth (⟨4, 2, false⟩ : call_node) ∧
      dummy_node.obj d.data = dummy_node.get_dummy call_node ∧
      d.children = [] ∧
      s1.m_graph.nodes.length = sample_worker_state.m_graph.nodes.length + 1 ∧
      (∀ j m, sample_worker_state.m_graph.get (iterator.node j) = some m →
        ∃ m1, s1.m_graph.get (iterator.node j) = some m1 ∧ m1.data = m.data ∧
          m1.parent = m.parent) ∧
      (∀ j m1, s1.m_graph.get (iterator.node j) = some m1 →
        iterator.node j = it ∨ ∃ m, sample_worker_state.m_graph.get (iterator.node j) = some m) ∧
      s1.m_dummies = multimap_insert (graph_node.depth (⟨4, 2, false⟩ : call_node)) it
        sample_worker_state.m_dummies ∧
      s1.m_dummies.Perm
        ((graph_node.depth (⟨4, 2, false⟩ : call_node), it) :: sample_worker_state.m_dummies) :=
  graph_data.add_dummy_spec sample_worker_state sample_nested_state 1
    ⟨⟨4, 2, false⟩, some 3, []⟩
    ⟨graph.wf_single _, ⟨0, _, rfl, rfl⟩, ⟨0, _, rfl, rfl⟩⟩ rfl rfl

/-- C15, as stated, fails: on a fresh worker (cursor on its head, slot 0) whose master is
the sample thread, `add_dummy()` leaves `current()` on the newly inserted dummy node
(slot 1), not on the node it designated before, and the tree has gained that node as
a second top-level node. -/
theorem graph_data.add_dummy_moves_cursor :
    ∃ s1, sample_worker_state.add_dummy sample_nested_state = some s1 ∧
      sample_worker_state.current = iterator.node 0 ∧
      s1.current = iterator.node 1 ∧ s1.current ≠ sample_worker_state.current ∧
      sample_worker_state.m_graph.top = [0] ∧ s1.m_graph.top = [0, 1] ∧
      sample_worker_state.m_graph.nodes.length = 1 ∧ s1.m_graph.nodes.length = 2 := by
  decide

/-- C15, amended: for a rooted graph data that has a master whose cursor designates a live
node, `add_dummy()` moves `current()` to the node it creates (which did not exist
before, so the cursor no longer designates the node it designated, and which has the
parent of the head, that is, is a sibling of the head), sets `depth()` and
`sea_level()` to the depth of the master's current node and adds the node to the dummy
catalogue; `has_head()`, `head()` and the master pointer are unchanged and every node
that was in the tree keeps its payload and parent. -/
theorem graph_data.add_dummy_frame {β : Type} [graph_node α] [dummy_node α β]
    (s master : graph_data α) (a : Nat) (cn : tree_node α) (hinv : s.inv)
    (hm : s.m_master = some a) (hcur : master.m_graph.get master.m_current = some cn) :
    ∃ s1, s.add_dummy master = some s1 ∧
      s1.current = iterator.node s.m_graph.nodes.length ∧
      s.m_graph.get s1.current = none ∧ s1.current ≠ s.current ∧
      s1.depth = graph_node.depth cn.data ∧ s1.sea_level = graph_node.depth cn.data ∧
      s1.m_dummies = multimap_insert (graph_node.depth cn.data) s1.current s.m_dummies ∧
      s1.has_head = s.has_head ∧ s1.head = s.head ∧ s1.m_master = s.m_master ∧
      (∃ hn d, s.m_graph.get s.head = some hn ∧ s1.m_graph.get s1.current = some d ∧
        d.parent = hn.parent) ∧
      (∀ j m, s.m_graph.get (iterator.node j) = some m →
        ∃ m1, s1.m_graph.get (iterator.node j) = some m1 ∧ m1.data = m.data ∧
          m1.parent = m.parent) := by
  obtain ⟨hwf, ⟨c, ncur, hc, hnc⟩, ⟨h, hnode, hh, hhn⟩⟩ := hinv
  obtain ⟨g1, hins, hadd⟩ := graph_data.add_dummy_live s master a cn h hnode hwf hm hcur hh hhn
  have hpar : ∀ p, hnode.parent = some p → ∃ m, s.m_graph.get (iterator.node p) = some m := by
    intro p hp
    obtain ⟨_, m, hm1, _⟩ := hwf.parent_link h hnode p hhn hp
    exact ⟨m, hm1⟩
  obtain ⟨g2, hins2, _, hnew, hold, _, _⟩ := graph.get_insert_after s.m_graph h hnode
    (dummy_node.make (graph_node.id cn.data) (dummy_node.get_dummy α)
      (graph_node.depth cn.data)) hhn hpar
  rw [hins2] at hins
  simp only [Option.some.injEq, Prod.mk.injEq, and_true] at hins
  subst hins
  have hfresh : s.m_graph.get (iterator.node s.m_graph.nodes.length) = none := by
    simp [graph.get_node]
  refine ⟨_, hadd, rfl, hfresh, ?_, rfl, rfl, rfl, rfl, rfl, rfl,
    ⟨hnode, _, by simp only [graph_data.head, hh]; exact hhn, hnew, rfl⟩, ?_⟩
  · intro heq
    simp only [graph_data.current] at heq
    rw [hc] at heq
    rw [heq] at hfresh
    rw [hfresh] at hnc
    exact Option.noConfusion hnc
  · intro j m hj
    obtain ⟨m1, hm1, hd, hp, _⟩ := hold j m hj
    exact ⟨m1, hm1, hd, hp⟩

/-- C15 amended, at a fresh worker whose master is the sample thread. -/
theorem graph_data.add_dummy_frame_witness :
    ∃ s1, sample_worker_state.add_dummy sample_nested_state = some s1 ∧
      s1.current = iterator.node sample_worker_state.m_graph.nodes.length ∧
      sample_worker_state.m_graph.get s1.current = none ∧
      s1.current ≠ sample_worker_state.current ∧
      s1.depth = graph_node.depth (⟨4, 2, false⟩ : call_node) ∧
      s1.sea_level = graph_node.depth (⟨4, 2, false⟩ : call_node) ∧
      s1.m_dummies = multimap_insert (graph_node.depth (⟨4, 2, false⟩ : call_node)) s1.current
        sample_worker_state.m_dummies ∧
      s1.has_head = sample_worker_state.has_head ∧ s1.head = sample_worker_state.head ∧
      s1.m_master = sample_worker_state.m_master ∧
      (∃ hn d, sample_worker_state.m_graph.get sample_worker_state.head = some hn ∧
        s1.m_graph.get s1.current = some d ∧ d.parent = hn.parent) ∧
      (∀ j m, sample_worker_state.m_graph.get (iterator.node j) = some m →
        ∃ m1, s1.m_graph.get (iterator.node j) = some m1 ∧ m1.data = m.data ∧
          m1.parent = m.parent) :=
  graph_data.add_dummy_frame sample_worker_state sample_nested_state 1
    ⟨⟨4, 2, false⟩, some 3, []⟩
    ⟨graph.wf_single _, ⟨0, _, rfl, rfl⟩, ⟨0, _, rfl, rfl⟩⟩ rfl rfl

/-! ## The cursor stays on a live node -/

/-- Every event that returns keeps the structural invariant. -/
theorem graph_data.inv_step_event {β : Type} [graph_node α] [dummy_node α β]
    (s : graph_data α) (hinv : s.inv) (e : event α) (s1 : graph_data α)
    (hstep : s.step_event e = some s1) : s1.inv := by
  cases e with
  | append_child node =>
    obtain ⟨s2, h2, hinv2, _⟩ := graph_data.inv_step s hinv (call.append_child node)
    simp only [graph_data.step_event] at hstep
    simp only [graph_data.step] at h2
    rw [h2] at hstep
    obtain rfl := Option.some.inj hstep
    exact hinv2
  | pop_graph =>
    obtain ⟨s2, h2, hinv2, _⟩ := graph_data.inv_step s hinv call.pop_graph
    simp only [graph_data.step_event] at hstep
    simp only [graph_data.step] at h2
    rw [h2] at hstep
    obtain rfl := Option.some.inj hstep
    exact hinv2
  | add_dummy master =>
    simp only [graph_data.step_event] at hstep
    cases hm : s.m_master with
    | none =>
      simp only [graph_data.add_dummy, hm, Option.some.injEq] at hstep
      subst hstep
      exact hinv
    | some a =>
      cases hcur : master.m_graph.get master.m_current with
      | none => simp [graph_data.add_dummy, hm, hcur] at hstep
      | some cn =>
        obtain ⟨hwf, _, ⟨h, hnode, hh, hhn⟩⟩ := hinv
        obtain ⟨g1, hins, hadd⟩ :=
          graph_data.add_dummy_live s master a cn h hnode hwf hm hcur hh hhn
        rw [hadd] at hstep
        obtain rfl := Option.some.inj hstep
        have hpar : ∀ p, hnode.parent = some p →
            ∃ m, s.m_graph.get (iterator.node p) = some m := by
          intro p hp
          obtain ⟨_, m, hm1, _⟩ := hwf.parent_link h hnode p hhn hp
          exact ⟨m, hm1⟩
        obtain ⟨g2, hins2, _, hnew, hold, _, _⟩ := graph.get_insert_after s.m_graph h hnode
          (dummy_node.make (graph_node.id cn.data) (dummy_node.get_dummy α)
            (graph_node.depth cn.data)) hhn hpar
        have hwf1 := hwf.insert_after h hnode _ hhn g1 _ hins
        rw [hins2] at hins
        simp only [Option.some.injEq, Prod.mk.injEq, and_true] at hins
        subst hins
        obtain ⟨m1, hm1, _⟩ := hold h hnode hhn
        exact ⟨hwf1, ⟨_, _, rfl, hnew⟩, ⟨h, m1, hh, hm1⟩⟩
  | reset =>
    obtain ⟨s2, h2, hinv2, _⟩ := graph_data.inv_reset s hinv
    simp only [graph_data.step_event] at hstep
    rw [h2] at hstep
    obtain rfl := Option.some.inj hstep
    exact hinv2

/-- From a state that satisfies the structural invariant every event returns, provided an
`add_dummy()` finds the cursor of its master on a live node (or there is no master). -/
theorem graph_data.step_event_returns {β : Type} [graph_node α] [dummy_node α β]
    (s : graph_data α) (hinv : s.inv) (e : event α)
    (hmaster : ∀ master, e = event.add_dummy master →
      s.m_master = none ∨ ∃ cn, master.m_graph.get master.m_current = some cn) :
    ∃ s1, s.step_event e = some s1 := by
  cases e with
  | append_child node =>
    obtain ⟨s2, h2, _⟩ := graph_data.inv_step s hinv (call.append_child node)
    exact ⟨s2, h2⟩
  | pop_graph =>
    obtain ⟨s2, h2, _⟩ := graph_data.inv_step s hinv call.pop_graph
    exact ⟨s2, h2⟩
  | add_dummy master =>
    rcases hmaster master rfl with hm | ⟨cn, hcur⟩
    · exact ⟨s, by simp [graph_data.step_event, graph_data.add_dummy, hm]⟩
    · cases hm : s.m_master with
      | none => exact ⟨s, by simp [graph_data.step_event, graph_data.add_dummy, hm]⟩
      | some a =>
        obtain ⟨hwf, _, ⟨h, hnode, hh, hhn⟩⟩ := hinv
        obtain ⟨g1, _, hadd⟩ :=
          graph_data.add_dummy_live s master a cn h hnode hwf hm hcur hh hhn
        exact ⟨_, hadd⟩
  | reset =>
    obtain ⟨s2, h2, _⟩ := graph_data.inv_reset s hinv
    exact ⟨s2, h2⟩

/-- Every sequence of events that returns keeps the structural invariant. -/
theorem graph_data.inv_run_events {β : Type} [graph_node α] [dummy_node α β]
    (es : List (event α)) :
    ∀ s s1 : graph_data α, s.inv → s.run_events es = some s1 → s1.inv := by
  induction es with
  | nil =>
    intro s s1 hinv hrun
    simp only [graph_data.run_events, Option.some.injEq] at hrun
    subst hrun
    exact hinv
  | cons e es ih =>
    intro s s1 hinv hrun
    simp only [graph_data.run_events] at hrun
    cases hstep : s.step_event e with
    | none => simp [hstep] at hrun
    | some s2 =>
      rw [hstep] at hrun
      exact ih s2 s1 (graph_data.inv_step_event s hinv e s2 hstep) hrun

/-- The ancestors of an old node are not changed by `append_child`. -/
theorem graph.wf.ancestors_append_child {g : graph α} (hwf : g.wf) (g1 : graph α) (p : Nat)
    (n : tree_node α) (x : α) (it : iterator) (h : g.get (iterator.node p) = some n)
    (happ : g.append_child (iterator.node p) x = some (g1, it)) (f : Nat) :
    ∀ i m, g.get (iterator.node i) = some m → g1.ancestors f i = g.ancestors f i := by
  induction f with
  | zero => intro i m _; rfl
  | succ f ih =>
    intro i m hi
    obtain ⟨m1, hm1, _, hp1, _⟩ := graph.get_append_child_old g g1 p n x it h happ i m hi
    cases hp : m.parent with
    | none =>
      rw [g.ancestors_root _ i m hi hp, g1.ancestors_root _ i m1 hm1 (by rw [hp1, hp])]
    | some q =>
      obtain ⟨_, mq, hmq, _⟩ := hwf.parent_link i m q hi hp
      rw [g.ancestors_succ f i m q hi hp, g1.ancestors_succ f i m1 q hm1 (by rw [hp1, hp]),
        ih q mq hmq]

/-- Every event other than `add_dummy()` keeps the open-scope invariant. -/
theorem graph_data.scope_inv_step_event {β : Type} [graph_node α] [dummy_node α β]
    (s : graph_data α) (hinv : s.inv) (hsc : s.scope_inv) (e : event α)
    (hnd : e.is_add_dummy = false) (s1 : graph_data α)
    (hstep : s.step_event e = some s1) : s1.scope_inv := by
  obtain ⟨hwf, ⟨cur, n, hc, hn⟩, ⟨hd, nh, hh, hnh⟩⟩ := hinv
  have hdist := hsc.dist_le cur hc
  have hcl := s.m_graph.get_lt cur n hn
  cases e with
  | add_dummy master => simp [event.is_add_dummy] at hnd
  | append_child node =>
    obtain ⟨g1, it, happ, hs⟩ := graph_data.append_child_live s node cur n hc hn
    obtain ⟨hit, hlen, _, hnew, _, _⟩ :=
      graph.get_append_child s.m_graph g1 cur n node it hn happ
    simp only [graph_data.step_event, hs, Option.map_some', Option.some.injEq] at hstep
    subst hstep
    have hcases := graph.get_append_child_inv s.m_graph g1 cur n node it hn happ
    refine ⟨?_, ?_, ?_⟩
    · intro i n1 hi hnone
      simp only at hi
      rcases hcases i n1 hi with ⟨_, rfl⟩ | ⟨_, n0, hn0, _, hnp⟩
      · simp at hnone
      · exact hsc.root_head i n0 hn0 (by rw [← hnp]; exact hnone)
    · intro h1 n1 hh1 hn1
      simp only at hh1 hn1
      have hhd : h1 = hd := by
        rw [hh] at hh1
        exact (iterator.node.inj hh1).symm
      subst hhd
      rcases hcases h1 n1 hn1 with ⟨hl, _⟩ | ⟨_, n0, hn0, _, hnp⟩
      · have := s.m_graph.get_lt h1 nh hnh
        omega
      · rw [hnp]
        exact hsc.head_root h1 n0 hh hn0
    · intro c hcc
      simp only at hcc
      rw [hit] at hcc
      obtain rfl := iterator.node.inj hcc
      show ((g1.ancestors g1.nodes.length s.m_graph.nodes.length).length : Int) ≤ s.m_depth + 1
      rw [hlen, g1.ancestors_succ _ _ _ cur hnew rfl,
        hwf.ancestors_append_child g1 cur n node it hn happ _ cur n hn]
      simp only [List.length_cons, Nat.cast_add, Nat.cast_one]
      omega
  | pop_graph =>
    have hpop := graph_data.pop_graph_live s cur n hc hn
    simp only [graph_data.step_event] at hstep
    by_cases hpos : 0 < s.m_depth
    · cases hp : n.parent with
      | none =>
        rw [if_pos hpos, hp] at hpop
        simp only [hpop, Option.map_some', Option.some.injEq] at hstep
        subst hstep
        exact hsc
      | some p =>
        rw [if_pos hpos, hp] at hpop
        simp only [hpop, Option.map_some', Option.some.injEq] at hstep
        subst hstep
        refine ⟨hsc.root_head, hsc.head_root, ?_⟩
        intro c hcc
        simp only at hcc
        obtain rfl := iterator.node.inj hcc
        obtain ⟨hlt, _⟩ := hwf.parent_link cur n _ hn hp
        obtain ⟨k, hk⟩ : ∃ k, s.m_graph.nodes.length = k + 1 :=
          ⟨s.m_graph.nodes.length - 1, by omega⟩
        rw [hk, s.m_graph.ancestors_succ k cur n _ hn hp] at hdist
        rw [hk] at hcl
        show ((s.m_graph.ancestors s.m_graph.nodes.length _).length : Int) ≤ s.m_depth - 1
        rw [hwf.ancestors_stable _ s.m_graph.nodes.length k (by omega) (by omega)]
        simp only [List.length_cons, Nat.cast_add, Nat.cast_one] at hdist
        omega
    · rw [if_neg hpos] at hpop
      by_cases hz : s.m_depth = 0
      · rw [if_pos hz] at hpop
        simp only [hpop, Option.map_some', Option.some.injEq] at hstep
        subst hstep
        refine ⟨hsc.root_head, hsc.head_root, ?_⟩
        intro c hcc
        simp only at hcc
        rw [hh] at hcc
        obtain rfl := iterator.node.inj hcc
        rw [s.m_graph.ancestors_root _ _ nh hnh (hsc.head_root _ nh hh hnh)]
        simp [hz]
      · rw [if_neg hz] at hpop
        simp only [hpop, Option.map_some', Option.some.injEq] at hstep
        subst hstep
        exact hsc
  | reset =>
    obtain ⟨g1, her, hreset⟩ := graph_data.reset_live s hd nh hh hnh
    simp only [graph_data.step_event, hreset, Option.some.injEq] at hstep
    subst hstep
    have hlive := graph.erase_children_live s.m_graph g1 hd nh hnh her
    refine ⟨?_, ?_, ?_⟩
    · intro i m1 hi hnone
      simp only at hi
      obtain ⟨_, m, hm, _, hpar, _⟩ := hlive i m1 hi
      exact hsc.root_head i m hm (by rw [← hpar]; exact hnone)
    · intro h1 m1 hh1 hm1
      simp only at hh1 hm1
      obtain ⟨_, m, hm, _, hpar, _⟩ := hlive h1 m1 hm1
      rw [hpar]
      exact hsc.head_root h1 m hh1 hm
    · intro c hcc
      simp only at hcc
      rw [hh] at hcc
      obtain rfl := iterator.node.inj hcc
      have hanc : hd ∉ s.m_graph.ancestors s.m_graph.nodes.length hd :=
        fun hmem => Nat.lt_irrefl hd (hwf.ancestors_lt _ hd hd hmem)
      obtain ⟨m1, hm1, _, hp1, _⟩ :=
        graph.erase_children_keep s.m_graph g1 hd nh hnh her hd nh hnh hanc
      show ((g1.ancestors g1.nodes.length hd).length : Int) ≤ 0
      rw [g1.ancestors_root _ hd m1 hm1 (by rw [hp1]; exact hsc.head_root hd nh hh hnh)]
      simp

/-- Every sequence of events without `add_dummy()` keeps the open-scope invariant. -/
theorem graph_data.scope_inv_run_events {β : Type} [graph_node α] [dummy_node α β]
    (es : List (event α)) :
    ∀ s s1 : graph_data α, s.inv → s.scope_inv →
      es.all (fun e => !e.is_add_dummy) = true → s.run_events es = some s1 →
      s1.scope_inv := by
  induction es with
  | nil =>
    intro s s1 _ hsc _ hrun
    simp only [graph_data.run_events, Option.some.injEq] at hrun
    subst hrun
    exact hsc
  | cons e es ih =>
    intro s s1 hinv hsc hall hrun
    simp only [List.all_cons, Bool.and_eq_true, Bool.not_eq_true'] at hall
    simp only [graph_data.run_events] at hrun
    cases hstep : s.step_event e with
    | none => simp [hstep] at hrun
    | some s2 =>
      rw [hstep] at hrun
      exact ih s2 s1 (graph_data.inv_step_event s hinv e s2 hstep)
        (graph_data.scope_inv_step_event s hinv hsc e hall.1 s2 hstep) hall.2 hrun

/-- C13, as stated, fails in its last part: a worker constructed at depth 0 calls
`add_dummy()` under a master that is at depth 0, then `append_child` and `pop_graph()`.
Every call returns; after the pop `depth()` is 0 and no scope is open, but `current()`
is the dummy node (slot 1), not the head (slot 0). -/
theorem graph_data.cursor_on_dummy_at_depth_zero :
    ∃ s, (graph_data.construct (⟨1, 0, false⟩ : call_node) 0 (some 1)).bind
        (fun s0 => s0.run_events dummy_pop_events) = some s ∧
      s.depth = 0 ∧ s.head = iterator.node 0 ∧ s.current = iterator.node 1 ∧
      s.current ≠ s.head ∧
      (s.m_graph.get s.current).map (fun n => n.data.is_dummy) = some true := by
  decide

/-- C13, amended: in every state reached from a construction by `append_child`,
`pop_graph`, `add_dummy` and `reset` calls, `current()` designates a live node of the
tree (never null, never erased); a `pop_graph()` called there at depth 0 returns and
leaves `current()` on the head; when the starting depth is non-negative and
`add_dummy` has not been called, `current()` is the head whenever `depth()` is 0; and
every further call returns, provided an `add_dummy()` finds its master's cursor on a
live node. -/
theorem graph_data.current_always_live {β : Type} [graph_node α] [dummy_node α β]
    (root : α) (d : Int) (m : Option Nat) (es : List (event α)) (s0 s : graph_data α)
    (h0 : graph_data.construct root d m = some s0) (hrun : s0.run_events es = some s) :
    (∃ c n, s.current = iterator.node c ∧ s.m_graph.get (iterator.node c) = some n) ∧
    (s.depth = 0 →
      ∃ s1 it, s.pop_graph = some (s1, it) ∧ s1.current = s1.head ∧ s1.head = s.head ∧
        s1.depth = 0) ∧
    (0 ≤ d → es.all (fun e => !e.is_add_dummy) = true → s.depth = 0 →
      s.current = s.head) ∧
    (∀ e : event α,
      (∀ master, e = event.add_dummy master →
        s.m_master = none ∨ ∃ cn, master.m_graph.get master.m_current = some cn) →
      ∃ s1, s.step_event e = some s1) := by
  have hinv0 := graph_data.inv_construct root d m s0 h0
  have hinv := graph_data.inv_run_events es s0 s hinv0 hrun
  refine ⟨hinv.current_live, ?_, ?_, fun e he => graph_data.step_event_returns s hinv e he⟩
  · intro hz
    simp only [graph_data.depth] at hz
    refine ⟨_, _, graph_data.pop_graph_depth_zero s hz, rfl, rfl, hz⟩
  · intro hd hall hz
    have hsc0 : s0.scope_inv := by
      rw [graph_data.construct_eq] at h0
      obtain rfl := Option.some.inj h0
      have key : ∀ i n,
          graph.get { nodes := [some { data := root, parent := none, children := [] }],
                      top := [0] } (iterator.node i) = some n →
          i = 0 ∧ n = { data := root, parent := none, children := [] } := by
        intro i n h
        have hlt := graph.get_lt _ i n h
        simp only [List.length_singleton, Nat.lt_one_iff] at hlt
        subst hlt
        simp [graph.get] at h
        exact ⟨rfl, h.symm⟩
      refine ⟨?_, ?_, ?_⟩
      · intro i n hi _
        obtain ⟨rfl, _⟩ := key i n hi
        rfl
      · intro h n _ hn
        obtain ⟨_, rfl⟩ := key h n hn
        rfl
      · intro c hc
        simp only at hc
        obtain rfl := iterator.node.inj hc
        simp [graph.ancestors, graph.get]
        exact hd
    have hsc := graph_data.scope_inv_run_events es s0 s hinv0 hsc0 hall hrun
    obtain ⟨c, n, hc, hn⟩ := hinv.current_live
    have hdist := hsc.dist_le c hc
    simp only [graph_data.depth] at hz
    have hcl := s.m_graph.get_lt c n hn
    obtain ⟨k, hk⟩ : ∃ k, s.m_graph.nodes.length = k + 1 :=
      ⟨s.m_graph.nodes.length - 1, by omega⟩
    cases hp : n.parent with
    | none =>
      simp only [graph_data.current, graph_data.head]
      rw [hc]
      exact hsc.root_head c n hn hp
    | some p =>
      rw [hk, s.m_graph.ancestors_succ k c n p hn hp, hz] at hdist
      simp only [List.length_cons, Nat.cast_add, Nat.cast_one] at hdist
      omega

/-- C13 amended, at the worker that called `add_dummy()`, `append_child` and
`pop_graph()`. -/
theorem graph_data.current_always_live_witness :
    (∃ c n, dummy_pop_state.current = iterator.node c ∧
      dummy_pop_state.m_graph.get (iterator.node c) = some n) ∧
    (dummy_pop_state.depth = 0 →
      ∃ s1 it, dummy_pop_state.pop_graph = some (s1, it) ∧ s1.current = s1.head ∧
        s1.head = dummy_pop_state.head ∧ s1.depth = 0) ∧
    ((0 : Int) ≤ 0 → dummy_pop_events.all (fun e => !e.is_add_dummy) = true →
      dummy_pop_state.depth = 0 → dummy_pop_state.current = dummy_pop_state.head) ∧
    (∀ e : event call_node,
      (∀ master, e = event.add_dummy master →
        dummy_pop_state.m_master = none ∨
          ∃ cn, master.m_graph.get master.m_current = some cn) →
      ∃ s1, dummy_pop_state.step_event e = some s1) :=
  graph_data.current_always_live ⟨1, 0, false⟩ 0 (some 1) dummy_pop_events
    sample_worker_state dummy_pop_state (by decide) (by decide)

/-! ## The tuple dispatch engine -/

theorem dispatch_in_order_nil {E A W : Type} (es : List E) (args : A) (w : W) :
    dispatch_in_order ([] : List (operation E A W)) es args w = (es, w) := by
  cases es <;> rfl

/-- The fold of `access_fold` over the indices that are still to do. -/
theorem apply_void.access_fold_aux {E A W : Type} (args : A) :
    ∀ (opsr opsd : List (operation E A W)) (done rest : List E) (w : W),
      opsd.length = done.length → opsr.length ≤ rest.length →
      TIMEMORY_FOLD_EXPRESSION (apply_void.access_expr (opsd ++ opsr) args)
          (List.range' done.length opsr.length) (done ++ rest, w) =
        some (done ++ (dispatch_in_order opsr rest args w).1,
              (dispatch_in_order opsr rest args w).2) := by
  intro opsr
  induction opsr with
  | nil =>
    intro opsd done rest w _ _
    simp [TIMEMORY_FOLD_EXPRESSION, dispatch_in_order_nil]
  | cons op opsr ih =>
    intro opsd done rest w hlen hle
    cases rest with
    | nil => simp at hle
    | cons e rest =>
      simp only [List.length_cons, Nat.add_le_add_iff_right] at hle
      have hop : (opsd ++ op :: opsr)[done.length]? = some op := by
        rw [List.getElem?_append_right (by omega)]
        simp [hlen]
      have hel : (done ++ e :: rest)[done.length]? = some e := by
        rw [List.getElem?_append_right (by omega)]
        simp
      have hset : ∀ x : E, (done ++ e :: rest).set done.length x = (done ++ [x]) ++ rest := by
        intro x
        rw [List.set_append_right _ _ (by omega)]
        simp
      have hops : opsd ++ op :: opsr = (opsd ++ [op]) ++ opsr := by simp
      rw [List.length_cons, List.range'_succ, TIMEMORY_FOLD_EXPRESSION]
      simp only [apply_void.access_expr, hop, hel, hset]
      have hih := ih (opsd ++ [op]) (done ++ [(op e args w).1]) rest (op e args w).2
        (by simp [hlen]) hle
      rw [List.length_append, List.length_singleton] at hih
      rw [hops, hih]
      simp [dispatch_in_order]

/-- C18: for every bundle of `n` elements and matching `Access` list of `n` operations,
`apply<void>::access` compiles and applies operation `i` to element `i`, once, for
`i = 0, 1, ..., n-1` in that order, each with the same extra arguments
(`dispatch_in_order`); for three logging operations on the bundle `{a, b, c}` the log
reads: operation 0 on `a`, operation 1 on `b`, operation 2 on `c`. -/
theorem apply_void.access_dispatch {E A W : Type} (Access : List (operation E A W))
    (t : List E) (args : A) (w : W) (h : Access.length = t.length) :
    apply_void.access Access t args w = some (dispatch_in_order Access t args w) ∧
    ∀ (a b c : E) (x : A),
      apply_void.access [logging_op 0, logging_op 1, logging_op 2] [a, b, c] x [] =
        some ([a, b, c], [(0, a, x), (1, b, x), (2, c, x)]) := by
  constructor
  · have haux := apply_void.access_fold_aux args Access [] [] t w rfl (by omega)
    simp only [List.nil_append, List.length_nil] at haux
    simp only [apply_void.access, h, if_true, apply_void.access_fold, List.range_eq_range']
    rw [← h]
    exact haux
  · intro a b c x
    simp [apply_void.access, apply_void.access_fold, TIMEMORY_FOLD_EXPRESSION,
      apply_void.access_expr, logging_op, List.range_succ]

/-- C18, at three counting operations applied to the bundle of the numbers 5, 6, 7. -/
theorem apply_void.access_dispatch_witness :
    apply_void.access
        [fun (e : Nat) (x : Nat) (w : List Nat) => (e + x, w ++ [0]),
         fun e x w => (e + x, w ++ [1]), fun e x w => (e + x, w ++ [2])]
        [5, 6, 7] 1 [] =
      some (dispatch_in_order
        [fun (e : Nat) (x : Nat) (w : List Nat) => (e + x, w ++ [0]),
         fun e x w => (e + x, w ++ [1]), fun e x w => (e + x, w ++ [2])]
        [5, 6, 7] 1 []) ∧
    ∀ (a b c : Nat) (x : Nat),
      apply_void.access [logging_op 0, logging_op 1, logging_op 2] [a, b, c] x [] =
        some ([a, b, c], [(0, a, x), (1, b, x), (2, c, x)]) :=
  apply_void.access_dispatch _ [5, 6, 7] 1 [] rfl

/-- An `Access` list whose size differs from that of the bundle is rejected by the
`static_assert` of `access`. -/
theorem apply_void.access_mismatch {E A W : Type} (Access : List (operation E A W))
    (t : List E) (args : A) (w : W) (h : Access.length ≠ t.length) :
    apply_void.access Access t args w = none := by
  simp [apply_void.access, h]

theorem dispatch_pairs_in_order_nil {E A W : Type} (as bs : List E) (args : A) (w : W) :
    dispatch_pairs_in_order ([] : List (operation2 E A W)) as bs args w = (as, bs, w) := by
  cases as <;> rfl

/-- The fold of `apply_access2` over the indices that are still to do. -/
theorem internal.apply_void.apply_access2_aux {E A W : Type} (args : A) :
    ∀ (opsr opsd : List (operation2 E A W)) (da db ra rb : List E) (w : W),
      opsd.length = da.length → da.length = db.length →
      opsr.length ≤ ra.length → opsr.length ≤ rb.length →
      TIMEMORY_FOLD_EXPRESSION (internal.apply_void.access2_expr (opsd ++ opsr) args)
          (List.range' da.length opsr.length) (da ++ ra, db ++ rb, w) =
        some (da ++ (dispatch_pairs_in_order opsr ra rb args w).1,
              db ++ (dispatch_pairs_in_order opsr ra rb args w).2.1,
              (dispatch_pairs_in_order opsr ra rb args w).2.2) := by
  intro opsr
  induction opsr with
  | nil =>
    intro opsd da db ra rb w _ _ _ _
    simp [TIMEMORY_FOLD_EXPRESSION, dispatch_pairs_in_order_nil]
  | cons op opsr ih =>
    intro opsd da db ra rb w hlen hab hla hlb
    cases ra with
    | nil => simp at hla
    | cons a ra =>
      cases rb with
      | nil => simp at hlb
      | cons b rb =>
        simp only [List.length_cons, Nat.add_le_add_iff_right] at hla hlb
        have hop : (opsd ++ op :: opsr)[da.length]? = some op := by
          rw [List.getElem?_append_right (by omega)]
          simp [hlen]
        have hea : (da ++ a :: ra)[da.length]? = some a := by
          rw [List.getElem?_append_right (by omega)]
          simp
        have heb : (db ++ b :: rb)[da.length]? = some b := by
          rw [List.getElem?_append_right (by omega)]
          simp [hab]
        have hsa : ∀ x : E, (da ++ a :: ra).set da.length x = (da ++ [x]) ++ ra := by
          intro x
          rw [List.set_append_right _ _ (by omega)]
          simp
        have hsb : ∀ x : E, (db ++ b :: rb).set da.length x = (db ++ [x]) ++ rb := by
          intro x
          rw [List.set_append_right _ _ (by omega)]
          simp [hab]
        have hops : opsd ++ op :: opsr = (opsd ++ [op]) ++ opsr := by simp
        rw [List.length_cons, List.range'_succ, TIMEMORY_FOLD_EXPRESSION]
        simp only [internal.apply_void.access2_expr, hop, hea, heb, hsa, hsb]
        have hih := ih (opsd ++ [op]) (da ++ [(op a b args w).1]) (db ++ [(op a b args w).2.1])
          ra rb (op a b args w).2.2 (by simp [hlen]) (by simp [hab]) hla hlb
        rw [List.length_append, List.length_singleton] at hih
        rw [hops, hih]
        simp [dispatch_pairs_in_order]

/-- What `access2` does for an `Access` list of `N` operations and two bundles of equal
arity `n >= N`: it compiles and applies operation `i` to the pair of the elements `i`,
once, for `i = 0, ..., N-1` in that order, and leaves the pairs from `N` on untouched.
With `N = n` every corresponding pair is visited. -/
theorem apply_void.access2_dispatch {E A W : Type} (Access : List (operation2 E A W))
    (ta tb : List E) (args : A) (w : W) (hab : ta.length = tb.length)
    (hN : Access.length ≤ ta.length) :
    apply_void.access2 Access ta tb args w =
      some (dispatch_pairs_in_order Access ta tb args w) := by
  have haux := internal.apply_void.apply_access2_aux args Access [] [] [] ta tb w rfl rfl hN
    (by omega)
  simp only [List.nil_append, List.length_nil] at haux
  simp only [apply_void.access2, hab, if_true, internal.apply_void.apply_access2,
    List.range_eq_range']
  exact haux

/-- C19 fails on the code: with an `Access` list of one operation and two bundles of
equal arity 2, `access2` compiles (only the sizes of the bundles are compared) and
visits the pair of the elements 0 alone; the pair of the elements 1 is never visited.
The sibling `access` rejects the same mismatch. -/
theorem apply_void.access2_short_access_list :
    apply_void.access2 [logging_op2 0] ([10, 11] : List Nat) [20, 21] (0 : Nat) [] =
      some ([10, 11], [20, 21], [(0, 10, 20)]) ∧
    apply_void.access [logging_op 0] ([10, 11] : List Nat) (0 : Nat) [] = none ∧
    apply_void.access2 [logging_op2 0, logging_op2 1] ([10, 11] : List Nat) [20, 21]
        (0 : Nat) [] =
      some ([10, 11], [20, 21], [(0, 10, 20), (1, 11, 21)]) := by
  refine ⟨by decide, by decide, by decide⟩

/-- The pack `std::get<Idx>(__t)...` over the remaining indices is the remaining part of
the bundle. -/
theorem get_pack_range' {E : Type} (rest : List E) :
    ∀ pre : List E, get_pack (pre ++ rest) (List.range' pre.length rest.length) = some rest := by
  induction rest with
  | nil => intro pre; simp [get_pack]
  | cons e rest ih =>
    intro pre
    have hel : (pre ++ e :: rest)[pre.length]? = some e := by
      rw [List.getElem?_append_right (by omega)]
      simp
    have hih := ih (pre ++ [e])
    rw [List.length_append, List.length_singleton, List.append_assoc,
      List.singleton_append] at hih
    rw [List.length_cons, List.range'_succ, get_pack, hel, hih]

/-- The pack over the full index sequence is the bundle itself, in declaration order. -/
theorem get_pack_range {E : Type} (t : List E) :
    get_pack t (List.range t.length) = some t := by
  have h := get_pack_range' t []
  simpa [List.range_eq_range'] using h

/-- No slot holds the component: the lookup runs off the end of the type list. -/
theorem internal.apply_void.get_index_of_absent (Tp : cpp_type) :
    ∀ tys : List cpp_type, (∀ s ∈ tys, cpp_type.holds Tp s = false) →
      internal.apply_void.get_index_of Tp tys = none := by
  intro tys
  induction tys with
  | nil => intro _; rfl
  | cons h t ih =>
    intro hno
    have hh := hno h (List.mem_cons_self _ _)
    simp only [cpp_type.holds, Bool.or_eq_false_iff, decide_eq_false_iff_not] at hh
    simp only [internal.apply_void.get_index_of, if_neg hh.1, if_neg hh.2]
    rw [ih (fun s hs => hno s (List.mem_cons_of_mem _ hs))]
    rfl

/-- The lookup stops at the first slot that holds the component. -/
theorem internal.apply_void.get_index_of_first (Tp h : cpp_type) (post : List cpp_type)
    (hh : cpp_type.holds Tp h = true) :
    ∀ pre : List cpp_type, (∀ s ∈ pre, cpp_type.holds Tp s = false) →
      internal.apply_void.get_index_of Tp (pre ++ h :: post) = some pre.length := by
  intro pre
  induction pre with
  | nil =>
    intro _
    simp only [cpp_type.holds, Bool.or_eq_true, decide_eq_true_eq] at hh
    simp only [List.nil_append, internal.apply_void.get_index_of, List.length_nil]
    by_cases h1 : h = Tp
    · simp [h1]
    · rcases hh with h2 | h2
      · exact absurd h2 h1
      · simp [h1, h2]
  | cons a pre ih =>
    intro hno
    have ha := hno a (List.mem_cons_self _ _)
    simp only [cpp_type.holds, Bool.or_eq_false_iff, decide_eq_false_iff_not] at ha
    have hrec := ih (fun s hs => hno s (List.mem_cons_of_mem _ hs))
    simp [internal.apply_void.get_index_of, ha.1, ha.2, hrec, Nat.add_comm]

/-- One entry of the access list acts on the first slot that holds its component. -/
theorem internal.apply_void.out_of_order_T.access_first {E A W : Type}
    (Op : typed_operation E A W) (pre post : List (cpp_type × E)) (ty : cpp_type) (x : E)
    (args : A) (w : W)
    (hpre : ∀ s ∈ pre, cpp_type.holds Op.target s.1 = false)
    (hty : cpp_type.holds Op.target ty = true) :
    internal.apply_void.out_of_order_T.access Op (pre ++ (ty, x) :: post) args w =
      some (pre ++ (ty, (Op.run x args w).1) :: post, (Op.run x args w).2) := by
  have hidx : internal.apply_void.get_index_of Op.target
      ((pre ++ (ty, x) :: post).map Prod.fst) = some pre.length := by
    have := internal.apply_void.get_index_of_first Op.target ty (post.map Prod.fst) hty
      (pre.map Prod.fst) (by
        intro s hs
        obtain ⟨p, hp, rfl⟩ := List.mem_map.1 hs
        exact hpre p hp)
    simpa using this
  have hget : (pre ++ (ty, x) :: post)[pre.length]? = some (ty, x) := by
    rw [List.getElem?_append_right (by omega)]
    simp
  have hset : ∀ y : cpp_type × E,
      (pre ++ (ty, x) :: post).set pre.length y = pre ++ y :: post := by
    intro y
    rw [List.set_append_right _ _ (by omega)]
    simp
  have hlen : ¬ (pre ++ (ty, x) :: post).length = 0 := by simp
  simp only [internal.apply_void.out_of_order_T.access, if_neg hlen, hidx, hget, hset]

/-- The call `out_of_order<std::tuple<Op>, X, 1>` acts on the first slot that holds
the component of `Op`. -/
theorem apply_void.out_of_order_first {E A W : Type}
    (Op : typed_operation E A W) (pre post : List (cpp_type × E)) (ty : cpp_type) (x : E)
    (args : A) (w : W)
    (hpre : ∀ s ∈ pre, cpp_type.holds Op.target s.1 = false)
    (hty : cpp_type.holds Op.target ty = true) :
    apply_void.out_of_order [Op] (pre ++ (ty, x) :: post) args w =
      some (pre ++ (ty, (Op.run x args w).1) :: post, (Op.run x args w).2) := by
  have hlen : 0 < [Op].length ∧ 0 < (pre ++ (ty, x) :: post).length := by simp
  rw [apply_void.out_of_order, if_pos hlen, internal.apply_void.out_of_order.access]
  simp only [List.length_singleton, List.range_succ, List.range_zero, List.nil_append,
    TIMEMORY_FOLD_EXPRESSION, List.length_nil, List.getElem?_cons_zero]
  rw [internal.apply_void.out_of_order_T.access_first Op pre post ty x args w hpre hty]

/-- Counterexample to C21: the bundle `(X*, X)` has exactly one element of type `X`, the
one in slot 1, yet the lookup yields the index 0: `out_of_order<Op, X, 1>` runs the
operator on the element of type `X*` and leaves the element of type `X` as it was. -/
theorem apply_void.out_of_order_pointer_slot_first :
    ([cpp_type.pointer (cpp_type.named 7), cpp_type.named 7].filter
        (fun ty => decide (ty = cpp_type.named 7))).length = 1 ∧
      internal.apply_void.get_index_of (cpp_type.named 7)
        [cpp_type.pointer (cpp_type.named 7), cpp_type.named 7] = some 0 ∧
      apply_void.out_of_order [(⟨cpp_type.named 7, counting_op⟩ : typed_operation Int Int Nat)]
          [(cpp_type.pointer (cpp_type.named 7), 10), (cpp_type.named 7, 20)] 5 0 =
        some ([(cpp_type.pointer (cpp_type.named 7), 15), (cpp_type.named 7, 20)], 1) := by
  refine ⟨by decide, by decide, by decide⟩

/-- Claim C21, amended: in a bundle with exactly one element of type `X` (the type of the
operator), at any position, and with no element of type `X*` before it,
`out_of_order<Op, X, 1>` succeeds, the lookup yields the position of that element, the
operator is run once, on that element and the state before the call, and every other
element of the bundle is left as it was. -/
theorem apply_void.out_of_order_targets_unique {E A W : Type}
    (Op : typed_operation E A W) (pre post : List (cpp_type × E)) (x : E)
    (args : A) (w : W)
    (hpre : ∀ s ∈ pre, cpp_type.holds Op.target s.1 = false)
    (hpost : ∀ s ∈ post, s.1 ≠ Op.target) :
    (∀ s ∈ pre ++ post, s.1 ≠ Op.target) ∧
      internal.apply_void.get_index_of Op.target
          ((pre ++ (Op.target, x) :: post).map Prod.fst) = some pre.length ∧
      apply_void.out_of_order [Op] (pre ++ (Op.target, x) :: post) args w =
        some (pre ++ (Op.target, (Op.run x args w).1) :: post, (Op.run x args w).2) := by
  have hty : cpp_type.holds Op.target Op.target = true := by simp [cpp_type.holds]
  refine ⟨?_, ?_, apply_void.out_of_order_first Op pre post Op.target x args w hpre hty⟩
  · intro s hs
    rcases List.mem_append.1 hs with h | h
    · intro heq
      have := hpre s h
      rw [heq, hty] at this
      exact absurd this (by simp)
    · exact hpost s h
  · have := internal.apply_void.get_index_of_first Op.target Op.target (post.map Prod.fst) hty
      (pre.map Prod.fst) (by
        intro s hs
        obtain ⟨p, hp, rfl⟩ := List.mem_map.1 hs
        exact hpre p hp)
    simpa using this

/-- Witness of C21, amended: the element of type 7 sits in slot 1 of a bundle of three,
with an element of type pointer to 7 after it; the operator adds the argument 5 to
the element and counts its runs. -/
theorem apply_void.out_of_order_targets_unique_witness :
    (∀ s ∈ [(cpp_type.named 1, (10 : Int))] ++
        [(cpp_type.pointer (cpp_type.named 7), 30)], s.1 ≠ cpp_type.named 7) ∧
      internal.apply_void.get_index_of (cpp_type.named 7)
        (([(cpp_type.named 1, (10 : Int))] ++ (cpp_type.named 7, 20) ::
          [(cpp_type.pointer (cpp_type.named 7), 30)]).map Prod.fst) = some 1 ∧
      apply_void.out_of_order [(⟨cpp_type.named 7, counting_op⟩ : typed_operation Int Int Nat)]
          ([(cpp_type.named 1, (10 : Int))] ++ (cpp_type.named 7, 20) ::
            [(cpp_type.pointer (cpp_type.named 7), 30)]) 5 0 =
        some ([(cpp_type.named 1, (10 : Int))] ++
            (cpp_type.named 7, (counting_op 20 5 0).1) ::
              [(cpp_type.pointer (cpp_type.named 7), 30)],
          (counting_op 20 5 0).2) :=
  apply_void.out_of_order_targets_unique
    (⟨cpp_type.named 7, counting_op⟩ : typed_operation Int Int Nat)
    [(cpp_type.named 1, 10)] [(cpp_type.pointer (cpp_type.named 7), 30)] 20 5 0
    (by decide) (by decide)

/-- Counterexample to C22: the bundle `(Y, X*)` has no element of type `X`, yet the lookup
yields the index 1 and `out_of_order<Op, X, 1>` is not rejected: the operator is run
on the element of type `X*`. -/
theorem apply_void.out_of_order_pointer_slot_accepted :
    (∀ ty ∈ [cpp_type.named 1, cpp_type.pointer (cpp_type.named 7)], ty ≠ cpp_type.named 7) ∧
      internal.apply_void.get_index_of (cpp_type.named 7)
        [cpp_type.named 1, cpp_type.pointer (cpp_type.named 7)] = some 1 ∧
      apply_void.out_of_order [(⟨cpp_type.named 7, counting_op⟩ : typed_operation Int Int Nat)]
          [(cpp_type.named 1, 10), (cpp_type.pointer (cpp_type.named 7), 30)] 5 0 =
        some ([(cpp_type.named 1, 10), (cpp_type.pointer (cpp_type.named 7), 35)], 1) := by
  refine ⟨by decide, by decide, by decide⟩

/-- Claim C22, amended: for every non-empty bundle that has neither an element of type
`X` (the type of the operator) nor an element of type `X*`, `get_index_of` yields no
index (its `static_assert` fires) and the call `out_of_order<Op, X, 1>` is rejected:
there is no result, so the operator is not run on any other element. -/
theorem apply_void.out_of_order_absent_rejected {E A W : Type}
    (Op : typed_operation E A W) (__t : List (cpp_type × E)) (args : A) (w : W)
    (hne : __t ≠ [])
    (hno : ∀ s ∈ __t, cpp_type.holds Op.target s.1 = false) :
    internal.apply_void.get_index_of Op.target (__t.map Prod.fst) = none ∧
      internal.apply_void.out_of_order_T.access Op __t args w = none ∧
      apply_void.out_of_order [Op] __t args w = none := by
  have hidx : internal.apply_void.get_index_of Op.target (__t.map Prod.fst) = none :=
    internal.apply_void.get_index_of_absent Op.target _ (by
      intro s hs
      obtain ⟨p, hp, rfl⟩ := List.mem_map.1 hs
      exact hno p hp)
  have hlen0 : ¬ __t.length = 0 := by
    intro h
    exact hne (List.length_eq_zero.1 h)
  have hT : internal.apply_void.out_of_order_T.access Op __t args w = none := by
    simp only [internal.apply_void.out_of_order_T.access, if_neg hlen0, hidx]
  refine ⟨hidx, hT, ?_⟩
  have hlen : 0 < [Op].length ∧ 0 < __t.length := ⟨by simp, by omega⟩
  rw [apply_void.out_of_order, if_pos hlen, internal.apply_void.out_of_order.access]
  simp only [List.length_singleton, List.range_succ, List.range_zero, List.nil_append,
    TIMEMORY_FOLD_EXPRESSION, List.length_nil, List.getElem?_cons_zero, hT]

/-- Witness of C22, amended: a bundle of the types 1 and 3 asked for the type 7. -/
theorem apply_void.out_of_order_absent_rejected_witness :
    internal.apply_void.get_index_of (cpp_type.named 7)
        ([(cpp_type.named 1, (10 : Int)), (cpp_type.named 3, 30)].map Prod.fst) = none ∧
      internal.apply_void.out_of_order_T.access
          (⟨cpp_type.named 7, counting_op⟩ : typed_operation Int Int Nat)
          [(cpp_type.named 1, 10), (cpp_type.named 3, 30)] 5 0 = none ∧
      apply_void.out_of_order [(⟨cpp_type.named 7, counting_op⟩ : typed_operation Int Int Nat)]
          [(cpp_type.named 1, 10), (cpp_type.named 3, 30)] 5 0 = none :=
  apply_void.out_of_order_absent_rejected
    (⟨cpp_type.named 7, counting_op⟩ : typed_operation Int Int Nat)
    [(cpp_type.named 1, 10), (cpp_type.named 3, 30)] 5 0 (by decide) (by decide)

/-- Counterexample to C23: a bundle with two elements of the component 7 is not
rejected; the lookup yields the index 0 and the operator is run on the first of the
two. -/
theorem apply_void.out_of_order_two_targets_accepted :
    internal.apply_void.get_index_of (cpp_type.named 7)
        [cpp_type.named 7, cpp_type.named 7] = some 0 ∧
      apply_void.out_of_order [(⟨cpp_type.named 7, counting_op⟩ : typed_operation Int Int Nat)]
          [(cpp_type.named 7, 10), (cpp_type.named 7, 30)] 5 0 =
        some ([(cpp_type.named 7, 15), (cpp_type.named 7, 30)], 1) := by
  refine ⟨by decide, by decide⟩

/-- Claim C23, amended: in a bundle with two (or more) slots that hold the component
`X` of the operator, the lookup is not rejected: `get_index_of` yields the position of
the first such slot, `out_of_order<Op, X, 1>` runs the operator once, on that element,
and the later elements of the component, like every other element, are left as they
were. -/
theorem apply_void.out_of_order_selects_first {E A W : Type}
    (Op : typed_operation E A W) (pre mid post : List (cpp_type × E)) (ty1 ty2 : cpp_type)
    (x y : E) (args : A) (w : W)
    (hpre : ∀ s ∈ pre, cpp_type.holds Op.target s.1 = false)
    (hty1 : cpp_type.holds Op.target ty1 = true)
    (hty2 : cpp_type.holds Op.target ty2 = true) :
    cpp_type.holds Op.target ty2 = true ∧
      internal.apply_void.get_index_of Op.target
          ((pre ++ (ty1, x) :: (mid ++ (ty2, y) :: post)).map Prod.fst) = some pre.length ∧
      apply_void.out_of_order [Op] (pre ++ (ty1, x) :: (mid ++ (ty2, y) :: post)) args w =
        some (pre ++ (ty1, (Op.run x args w).1) :: (mid ++ (ty2, y) :: post),
          (Op.run x args w).2) := by
  refine ⟨hty2, ?_, apply_void.out_of_order_first Op pre _ ty1 x args w hpre hty1⟩
  have := internal.apply_void.get_index_of_first Op.target ty1
    ((mid ++ (ty2, y) :: post).map Prod.fst) hty1 (pre.map Prod.fst) (by
      intro s hs
      obtain ⟨p, hp, rfl⟩ := List.mem_map.1 hs
      exact hpre p hp)
  simpa using this

/-- Witness of C23, amended: the component 7 in the slots 1 and 3 of a bundle of four,
once by value and once by pointer. -/
theorem apply_void.out_of_order_selects_first_witness :
    cpp_type.holds (cpp_type.named 7) (cpp_type.pointer (cpp_type.named 7)) = true ∧
      internal.apply_void.get_index_of (cpp_type.named 7)
          (([(cpp_type.named 1, (10 : Int))] ++ (cpp_type.named 7, 20) ::
            ([(cpp_type.named 3, 30)] ++
              (cpp_type.pointer (cpp_type.named 7), 40) :: [])).map Prod.fst) = some 1 ∧
      apply_void.out_of_order [(⟨cpp_type.named 7, counting_op⟩ : typed_operation Int Int Nat)]
          ([(cpp_type.named 1, (10 : Int))] ++ (cpp_type.named 7, 20) ::
            ([(cpp_type.named 3, 30)] ++
              (cpp_type.pointer (cpp_type.named 7), 40) :: [])) 5 0 =
        some ([(cpp_type.named 1, (10 : Int))] ++
            (cpp_type.named 7, (counting_op 20 5 0).1) ::
              ([(cpp_type.named 3, 30)] ++ (cpp_type.pointer (cpp_type.named 7), 40) :: []),
          (counting_op 20 5 0).2) :=
  apply_void.out_of_order_selects_first
    (⟨cpp_type.named 7, counting_op⟩ : typed_operation Int Int Nat)
    [(cpp_type.named 1, 10)] [(cpp_type.named 3, 30)] [] (cpp_type.named 7)
    (cpp_type.pointer (cpp_type.named 7)) 20 40 5 0 (by decide) (by decide) (by decide)

/-! ## `set_value` -/

/-- The fold of `set_value_fold` over the indices that are still to do, for a value that
the assignments leave as it is. -/
theorem apply_void.set_value_fold_aux {E V : Type} (assign : E → V → Option (E × V)) (v : V)
    (hcopy : ∀ e r v1, assign e v = some (r, v1) → v1 = v) :
    ∀ (rest done : List E),
      apply_void.set_value_fold assign (done ++ rest) v
          (List.range' done.length rest.length) =
        some (done ++ rest.map (fun e => (apply_void.set_value_fold_one assign e v).1), v) := by
  have hone : ∀ e, (apply_void.set_value_fold_one assign e v).2 = v := by
    intro e
    unfold apply_void.set_value_fold_one
    cases h : assign e v with
    | none => rfl
    | some r => exact hcopy e r.1 r.2 h
  intro rest
  induction rest with
  | nil =>
    intro done
    simp [apply_void.set_value_fold, TIMEMORY_FOLD_EXPRESSION]
  | cons e rest ih =>
    intro done
    have hel : (done ++ e :: rest)[done.length]? = some e := by
      rw [List.getElem?_append_right (by omega)]
      simp
    have hset : ∀ x : E, (done ++ e :: rest).set done.length x = (done ++ [x]) ++ rest := by
      intro x
      rw [List.set_append_right _ _ (by omega)]
      simp
    have hrec := ih (done ++ [(apply_void.set_value_fold_one assign e v).1])
    simp only [apply_void.set_value_fold, List.length_append, List.length_singleton] at hrec
    simp only [apply_void.set_value_fold, List.length_cons, List.range'_succ,
      TIMEMORY_FOLD_EXPRESSION, hel, hset, hone]
    rw [hrec]
    simp

/-- Claim C28: in a build without `TIMEMORY_USE_UPCXX`, in every state and for every
argument list, `is_supported()` and `is_initialized()` are false, `initialize(args...)`
and `finalize()` change nothing, so `is_initialized()` is false after them as well,
`rank(args...)` is 0 and `size(args...)` is 1, hence `0 <= rank() < size()`. -/
theorem upc.single_rank_without_upcxx {A : Type} (st : upc.state) (args : List A) :
    upc.is_supported false = false ∧
      upc.is_initialized false st = false ∧
      upc.initialize false args st = st ∧
      upc.is_initialized false ( upc.initialize false args st) = false ∧
      upc.finalize false st = st ∧
      upc.rank false args st = 0 ∧
      upc.size false args st = 1 ∧
      upc.rank false args ( upc.initialize false args st) = 0 ∧
      upc.size false args ( upc.initialize false args st) = 1 ∧
      0 ≤ upc.rank false args st ∧ upc.rank false args st < upc.size false args st := by
  simp [upc.is_supported, upc.is_initialized, upc.initialize, upc.finalize, upc.rank, upc.size]

/-! ## Depth, sea level and the distance of the cursor from the head -/

/-- In a well-formed tree the last ancestor of a node is a node without parent. -/
theorem graph.wf.ancestors_last_root {g : graph α} (hwf : g.wf) (i : Nat) :
    ∀ f r, i < f → (g.ancestors f i).getLast? = some r →
      ∃ m, g.get (iterator.node r) = some m ∧ m.parent = none := by
  induction i using Nat.strong_induction_on with
  | _ i ih =>
    intro f r hf hr
    obtain ⟨k, rfl⟩ : ∃ k, f = k + 1 := ⟨f - 1, by omega⟩
    cases hn : g.get (iterator.node i) with
    | none => rw [g.ancestors_dead _ i hn] at hr; simp at hr
    | some n =>
      cases hp : n.parent with
      | none => rw [g.ancestors_root _ i n hn hp] at hr; simp at hr
      | some p =>
        obtain ⟨hlt, mp, hmp, _⟩ := hwf.parent_link i n p hn hp
        rw [g.ancestors_succ k i n p hn hp] at hr
        cases hrest : g.ancestors k p with
        | nil =>
          rw [hrest] at hr
          simp only [List.getLast?_singleton, Option.some.injEq] at hr
          subst hr
          obtain ⟨k1, rfl⟩ : ∃ k1, k = k1 + 1 := ⟨k - 1, by omega⟩
          refine ⟨mp, hmp, ?_⟩
          cases hpp : mp.parent with
          | none => rfl
          | some q =>
            rw [g.ancestors_succ k1 p mp q hmp hpp] at hrest
            simp at hrest
        | cons a rest =>
          have hlast : (g.ancestors k p).getLast? = some r := by
            rw [hrest] at hr ⊢
            rw [List.getLast?_cons_cons] at hr
            exact hr
          exact ih p hlt k r (by omega) hlast

/-- A node without ancestors in a well-formed tree has no parent. -/
theorem graph.wf.ancestors_nil_root {g : graph α} (i : Nat) (n : tree_node α)
    (hn : g.get (iterator.node i) = some n) (f : Nat) (h : g.ancestors (f + 1) i = []) :
    n.parent = none := by
  cases hp : n.parent with
  | none => rfl
  | some p =>
    rw [g.ancestors_succ f i n p hn hp] at h
    simp at h

/-- The state right after construction at a non-negative depth satisfies the level
invariant. -/
theorem graph_data.level_inv_construct (root : α) (d : Int) (m : Option Nat) (hd : 0 ≤ d)
    (s0 : graph_data α) (h0 : graph_data.construct root d m = some s0) : s0.level_inv := by
  rw [graph_data.construct_eq] at h0
  obtain rfl := Option.some.inj h0
  refine ⟨?_, ?_, hd, ?_⟩
  · intro i n hi _
    have hlt := graph.get_lt _ i n hi
    simp only [List.length_singleton, Nat.lt_one_iff] at hlt
    subst hlt
    rfl
  · intro h n hh hn
    obtain rfl := iterator.node.inj hh
    simp only [graph.get, List.getElem?_cons_zero, Option.join, Option.bind_some,
      Option.some_bind, id, Option.some.injEq] at hn
    subst hn
    rfl
  · simp [graph_data.edges_to_current, graph.ancestors, graph.get]

/-- Every call of the push/pop interface keeps the level invariant. -/
theorem graph_data.level_inv_step (s : graph_data α) (hinv : s.inv) (hl : s.level_inv)
    (c : call α) (s1 : graph_data α) (hstep : s.step c = some s1) : s1.level_inv := by
  obtain ⟨hwf, ⟨cur, n, hc, hn⟩, ⟨hd, nh, hh, hnh⟩⟩ := hinv
  have hdist := hl.depth_eq
  simp only [graph_data.edges_to_current, hc] at hdist
  have hcl := s.m_graph.get_lt cur n hn
  cases c with
  | append_child node =>
    obtain ⟨g1, it, happ, hs⟩ := graph_data.append_child_live s node cur n hc hn
    obtain ⟨hit, hlen, _, hnew, _, _⟩ :=
      graph.get_append_child s.m_graph g1 cur n node it hn happ
    simp only [graph_data.step, hs, Option.map_some', Option.some.injEq] at hstep
    subst hstep
    have hcases := graph.get_append_child_inv s.m_graph g1 cur n node it hn happ
    refine ⟨?_, ?_, hl.sea_nonneg, ?_⟩
    · intro i n1 hi hnone
      simp only at hi
      rcases hcases i n1 hi with ⟨_, rfl⟩ | ⟨_, n0, hn0, _, hnp⟩
      · simp at hnone
      · exact hl.root_head i n0 hn0 (by rw [← hnp]; exact hnone)
    · intro h1 n1 hh1 hn1
      simp only at hh1 hn1
      have hhd : h1 = hd := by
        rw [hh] at hh1
        exact (iterator.node.inj hh1).symm
      subst hhd
      rcases hcases h1 n1 hn1 with ⟨hlt, _⟩ | ⟨_, n0, hn0, _, hnp⟩
      · have := s.m_graph.get_lt h1 nh hnh
        omega
      · rw [hnp]
        exact hl.head_root h1 n0 hh hn0
    · simp only [graph_data.edges_to_current, hit]
      rw [hlen, g1.ancestors_succ _ _ _ cur hnew rfl,
        hwf.ancestors_append_child g1 cur n node it hn happ _ cur n hn]
      simp only [List.length_cons, Nat.cast_add, Nat.cast_one]
      omega
  | pop_graph =>
    have hpop := graph_data.pop_graph_live s cur n hc hn
    simp only [graph_data.step] at hstep
    by_cases hpos : 0 < s.m_depth
    · cases hp : n.parent with
      | none =>
        rw [if_pos hpos, hp] at hpop
        simp only [hpop, Option.map_some', Option.some.injEq] at hstep
        subst hstep
        exact hl
      | some p =>
        rw [if_pos hpos, hp] at hpop
        simp only [hpop, Option.map_some', Option.some.injEq] at hstep
        subst hstep
        refine ⟨hl.root_head, hl.head_root, hl.sea_nonneg, ?_⟩
        obtain ⟨hlt, _⟩ := hwf.parent_link cur n _ hn hp
        obtain ⟨k, hk⟩ : ∃ k, s.m_graph.nodes.length = k + 1 :=
          ⟨s.m_graph.nodes.length - 1, by omega⟩
        rw [hk, s.m_graph.ancestors_succ k cur n _ hn hp] at hdist
        rw [hk] at hcl
        simp only [graph_data.edges_to_current]
        rw [hwf.ancestors_stable _ s.m_graph.nodes.length k (by omega) (by omega)]
        simp only [List.length_cons, Nat.cast_add, Nat.cast_one] at hdist
        omega
    · rw [if_neg hpos] at hpop
      by_cases hz : s.m_depth = 0
      · rw [if_pos hz] at hpop
        simp only [hpop, Option.map_some', Option.some.injEq] at hstep
        subst hstep
        refine ⟨hl.root_head, hl.head_root, hl.sea_nonneg, ?_⟩
        have hsea := hl.sea_nonneg
        simp only [graph_data.edges_to_current, hh]
        rw [s.m_graph.ancestors_root _ _ nh hnh (hl.head_root _ nh hh hnh)]
        simp only [List.length_nil, Nat.cast_zero, add_zero]
        omega
      · rw [if_neg hz] at hpop
        simp only [hpop, Option.map_some', Option.some.injEq] at hstep
        subst hstep
        exact hl

/-- Every finite sequence of calls returns and keeps the level invariant. -/
theorem graph_data.level_inv_run (cs : List (call α)) :
    ∀ s : graph_data α, s.inv → s.level_inv →
      ∃ s1, s.run cs = some s1 ∧ s1.inv ∧ s1.level_inv := by
  induction cs with
  | nil => intro s hinv hl; exact ⟨s, rfl, hinv, hl⟩
  | cons c cs ih =>
    intro s hinv hl
    obtain ⟨s1, hstep, hinv1, _⟩ := graph_data.inv_step s hinv c
    obtain ⟨s2, hrun, hinv2, hl2⟩ :=
      ih s1 hinv1 (graph_data.level_inv_step s hinv hl c s1 hstep)
    exact ⟨s2, by simp only [graph_data.run, hstep, hrun], hinv2, hl2⟩

/-- What the level invariant says about a state: the chain of parents of the cursor
ends in the head, the depth is not below the sea level, and the depth is the sea
level exactly on the head. -/
theorem graph_data.level_inv_facts (s : graph_data α) (hinv : s.inv) (hl : s.level_inv) :
    s.root_of_current = s.head ∧ s.sea_level ≤ s.depth ∧
      (s.at_sea_level = true ↔ s.current = s.head) := by
  obtain ⟨hwf, ⟨cur, n, hc, hn⟩, ⟨hd, nh, hh, hnh⟩⟩ := hinv
  have hdist := hl.depth_eq
  simp only [graph_data.edges_to_current, hc] at hdist
  have hcl := s.m_graph.get_lt cur n hn
  obtain ⟨k, hk⟩ : ∃ k, s.m_graph.nodes.length = k + 1 :=
    ⟨s.m_graph.nodes.length - 1, by omega⟩
  refine ⟨?_, ?_, ?_⟩
  · simp only [graph_data.root_of_current, hc, graph_data.head]
    cases hlast : (s.m_graph.ancestors s.m_graph.nodes.length cur).getLast? with
    | none =>
      have hnil : s.m_graph.ancestors (k + 1) cur = [] := by
        rw [← hk]
        exact List.getLast?_eq_none_iff.1 hlast
      exact hl.root_head cur n hn (graph.wf.ancestors_nil_root cur n hn k hnil)
    | some r =>
      obtain ⟨m, hm, hmp⟩ := hwf.ancestors_last_root cur _ r hcl hlast
      exact hl.root_head r m hm hmp
  · simp only [graph_data.sea_level, graph_data.depth]
    omega
  · simp only [graph_data.at_sea_level, decide_eq_true_eq, graph_data.current,
      graph_data.head, hc, hh]
    constructor
    · intro heq
      have hlen : (s.m_graph.ancestors s.m_graph.nodes.length cur).length = 0 := by omega
      have hnil : s.m_graph.ancestors (k + 1) cur = [] := by
        rw [← hk]
        exact List.length_eq_zero.1 hlen
      have := hl.root_head cur n hn (graph.wf.ancestors_nil_root cur n hn k hnil)
      rw [this, hh]
    · intro heq
      obtain rfl := iterator.node.inj heq
      rw [s.m_graph.ancestors_root _ _ nh hnh (hl.head_root _ nh hh hnh)] at hdist
      simpa using hdist

/-- Counterexample to C30: from a root constructed at the starting depth -1, one
`append_child` and one `pop_graph()` return with the cursor on the head, no edge
above it, `sea_level() = -1` and `depth() = 0`: the depth is not the sea level plus
the number of edges, and `at_sea_level()` is false although `current() == head()`. -/
theorem graph_data.negative_start_breaks_level :
    ∃ s, below_zero_thread = some s ∧ s.current = s.head ∧ s.edges_to_current = 0 ∧
      s.sea_level = -1 ∧ s.depth = 0 ∧
      s.depth ≠ s.sea_level + (s.edges_to_current : Int) ∧ s.at_sea_level = false := by
  have hrun : below_zero_thread = some below_zero_state := by
    simp only [below_zero_thread, graph_data.construct_eq, Option.some_bind]
    rfl
  refine ⟨below_zero_state, hrun, ?_⟩
  decide

/-- Claim C30, amended: for a graph data constructed at a starting depth `d >= 0` and
then driven only by `append_child` and `pop_graph`, every call returns and after each
of them (after the first `k` calls, for every `k`) `depth()` is `sea_level()` plus the
number of tree edges above `current()`, the chain of parents of `current()` ends in
`head()`, `depth()` is not below `sea_level()`, and `at_sea_level()` holds exactly when
`current() == head()`. -/
theorem graph_data.depth_is_level_plus_edges (root : α) (d : Int) (m : Option Nat)
    (cs : List (call α)) (hd : 0 ≤ d) :
    ∃ s0, graph_data.construct root d m = some s0 ∧
      ∀ k, ∃ s, s0.run (cs.take k) = some s ∧
        s.depth = s.sea_level + (s.edges_to_current : Int) ∧
        s.root_of_current = s.head ∧ s.sea_level ≤ s.depth ∧
        (s.at_sea_level = true ↔ s.current = s.head) := by
  refine ⟨_, graph_data.construct_eq root d m, ?_⟩
  intro k
  have h0 := graph_data.construct_eq root d m
  obtain ⟨s, hrun, hinv, hl⟩ := graph_data.level_inv_run (cs.take k) _
    (graph_data.inv_construct root d m _ h0) (graph_data.level_inv_construct root d m hd _ h0)
  obtain ⟨h1, h2, h3⟩ := graph_data.level_inv_facts s hinv hl
  exact ⟨s, hrun, hl.depth_eq, h1, h2, h3⟩

/-- Witness of C30, amended: the sample events below a root constructed at depth 0,
after all six calls. -/
theorem graph_data.depth_is_level_plus_edges_witness :
    ∃ s0, graph_data.construct (⟨1, 0, false⟩ : call_node) 0 none = some s0 ∧
      ∀ k, ∃ s, s0.run (sample_events.take k) = some s ∧
        s.depth = s.sea_level + (s.edges_to_current : Int) ∧
        s.root_of_current = s.head ∧ s.sea_level ≤ s.depth ∧
        (s.at_sea_level = true ↔ s.current = s.head) :=
  graph_data.depth_is_level_plus_edges ⟨1, 0, false⟩ 0 none sample_events (by decide)

/-! ## The order in which `find` tests the nodes -/

/-- The first match in a list of candidates that starts with the sibling range `cs`. -/
theorem graph_data.first_match_append [graph_node α] (s : graph_data α) (src : graph α)
    (itr : iterator) (rest : List Nat) :
    ∀ cs : List Nat,
      graph_data.first_match s src itr (cs ++ rest) =
        match graph_data.find_sibling s src itr cs with
        | none => none
        | some (some c) => some (iterator.node c)
        | some none => graph_data.first_match s src itr rest := by
  intro cs
  induction cs with
  | nil => simp [graph_data.find_sibling]
  | cons c cs ih =>
    simp only [List.cons_append, graph_data.first_match, graph_data.find_sibling]
    cases hm : graph_data.node_match s src itr (iterator.node c) with
    | none => rfl
    | some b =>
      cases b with
      | true => rfl
      | false => exact ih

/-- The outer loop of `find` returns the first match of the candidates in the order in
which it tests them. -/
theorem graph_data.find_loop_eq_first_match [graph_node α] (s : graph_data α) (src : graph α)
    (itr : iterator) :
    ∀ fs : List Nat,
      graph_data.find_loop s src itr fs =
        graph_data.first_match s src itr
          (fs.flatMap (fun f => f :: s.m_graph.children f)) := by
  intro fs
  induction fs with
  | nil => rfl
  | cons f fs ih =>
    have hflat : (f :: fs).flatMap (fun f => f :: s.m_graph.children f) =
        f :: (s.m_graph.children f ++ fs.flatMap (fun f => f :: s.m_graph.children f)) := by
      simp [List.flatMap_cons]
    rw [hflat, graph_data.find_loop, graph_data.first_match]
    cases hm : graph_data.node_match s src itr (iterator.node f) with
    | none => rfl
    | some b =>
      cases b with
      | true => rfl
      | false =>
        simp only
        rw [graph_data.first_match_append, ih]

/-- The first match over candidates on which the test is defined: either no candidate
passes and the result is the end sentinel, or the result is a candidate that passes
and no candidate before it does. -/
theorem graph_data.first_match_spec [graph_node α] (s : graph_data α) (src : graph α)
    (itr : iterator) :
    ∀ l : List Nat,
      (∀ c ∈ l, ∃ b, graph_data.node_match s src itr (iterator.node c) = some b) →
      (graph_data.first_match s src itr l = some iterator.feet ∧
        ∀ c ∈ l, graph_data.node_match s src itr (iterator.node c) = some false) ∨
      (∃ pre c post, l = pre ++ c :: post ∧
        graph_data.first_match s src itr l = some (iterator.node c) ∧
        graph_data.node_match s src itr (iterator.node c) = some true ∧
        ∀ x ∈ pre, graph_data.node_match s src itr (iterator.node x) = some false) := by
  intro l
  induction l with
  | nil => intro _; exact Or.inl ⟨rfl, fun c hc => by simp at hc⟩
  | cons c l ih =>
    intro hdef
    obtain ⟨b, hb⟩ := hdef c (List.mem_cons_self _ _)
    cases b with
    | true =>
      exact Or.inr ⟨[], c, l, rfl, by simp only [graph_data.first_match, hb], hb,
        fun x hx => by simp at hx⟩
    | false =>
      rcases ih (fun x hx => hdef x (List.mem_cons_of_mem _ hx)) with
        ⟨h1, h2⟩ | ⟨pre, c1, post, h1, h2, h3, h4⟩
      · refine Or.inl ⟨by simp only [graph_data.first_match, hb, h1], ?_⟩
        intro x hx
        rcases List.mem_cons.1 hx with rfl | hx
        · exact hb
        · exact h2 x hx
      · refine Or.inr ⟨c :: pre, c1, post, by simp [h1],
          by simp only [graph_data.first_match, hb, h2], h3, ?_⟩
        intro x hx
        rcases List.mem_cons.1 hx with rfl | hx
        · exact hb
        · exact h4 x hx

/-- Counterexample to C29: in the tree of `shadow_state`, reached through the push/pop
interface, the pre-order is root, scope 0, scope 9 below scope 0 (slot 2), scope 9
below the root (slot 3); both nodes of scope 9 pass the test of `find` for the target
slot 2 and both have the sum of scope ids 10 along their path, yet `find` returns slot
3, the later of the two in pre-order. -/
theorem graph_data.find_prefers_child_of_visited :
    (∃ s0, graph_data.construct (⟨1, 0, false⟩ : call_node) 0 none = some s0 ∧
        s0.run shadow_events = some shadow_state) ∧
      shadow_state.m_graph.pre_order = [0, 1, 2, 3] ∧
      graph_data.node_match shadow_state shadow_state.m_graph (iterator.node 2)
        (iterator.node 2) = some true ∧
      graph_data.node_match shadow_state shadow_state.m_graph (iterator.node 2)
        (iterator.node 3) = some true ∧
      shadow_state.m_graph.spec_rolling_hash 4 (iterator.node 2) = 10 ∧
      shadow_state.m_graph.spec_rolling_hash 4 (iterator.node 3) = 10 ∧
      graph_data.first_match shadow_state shadow_state.m_graph (iterator.node 2)
        shadow_state.m_graph.pre_order = some (iterator.node 2) ∧
      shadow_state.find shadow_state.m_graph (iterator.node 2) = some (iterator.node 3) := by
  refine ⟨⟨_, graph_data.construct_eq _ _ _, by decide⟩, by decide, by decide, by decide,
    by decide, by decide, by decide, by decide⟩

/-! ### The first match in pre-order on depth-consistent trees -/

/-- In a tree in which every child is one deeper than its parent, no node of a subtree
is less deep than the node the subtree hangs from. -/
theorem graph.subtree_depth_le (g : graph α) (d : Nat → Int)
    (hd : ∀ r c, c ∈ g.children r → d c = d r + 1) (f : Nat) :
    ∀ r x, x ∈ g.subtree f r → d r ≤ d x := by
  induction f with
  | zero => intro r x hx; simp [graph.subtree] at hx
  | succ f ih =>
    intro r x hx
    simp only [graph.subtree, List.mem_cons, List.mem_flatMap] at hx
    rcases hx with rfl | ⟨c, hc, hxc⟩
    · exact le_refl _
    · have h1 := hd r c hc
      have h2 := ih c x hxc
      omega

/-- Among the subtrees below siblings that all have the depth every match has, the
first match in pre-order is the first matching sibling. -/
theorem graph.find_subtrees_of_level (g : graph α) (m : Nat → Bool) (d : Nat → Int) (D : Int)
    (hm : ∀ x, m x = true → d x = D)
    (hd : ∀ r c, c ∈ g.children r → d c = d r + 1) (f : Nat) :
    ∀ L : List Nat, (∀ c ∈ L, d c = D) →
      (L.flatMap (g.subtree (f + 1))).find? m = L.find? m := by
  intro L
  induction L with
  | nil => intro _; rfl
  | cons c L ih =>
    intro hL
    have hrest : ((g.children c).flatMap (g.subtree f)).find? m = none := by
      rw [List.find?_eq_none]
      intro x hx hmx
      simp only [List.mem_flatMap] at hx
      obtain ⟨c1, hc1, hx1⟩ := hx
      have h1 := hd c c1 hc1
      have h2 := g.subtree_depth_le d hd f c1 x hx1
      have h3 := hm x hmx
      have h4 := hL c (List.mem_cons_self _ _)
      omega
    have hflat : (c :: L).flatMap (g.subtree (f + 1)) =
        c :: ((g.children c).flatMap (g.subtree f) ++ L.flatMap (g.subtree (f + 1))) := by
      simp [List.flatMap_cons, graph.subtree]
    rw [hflat, List.find?_cons, List.find?_cons]
    cases hmc : m c with
    | true => rfl
    | false =>
      simp only
      rw [List.find?_append, hrest, Option.none_or]
      exact ih (fun x hx => hL x (List.mem_cons_of_mem _ hx))

/-- On a tree in which every child is one deeper than its parent and every match has
the same depth, testing every node of the pre-order traversal followed at once by its
children finds the same node as testing the nodes of the traversal alone. -/
theorem graph.find_scan_eq_find (g : graph α) (m : Nat → Bool) (d : Nat → Int) (D : Int)
    (hm : ∀ x, m x = true → d x = D)
    (hd : ∀ r c, c ∈ g.children r → d c = d r + 1)
    (hlt : ∀ r c, c ∈ g.children r → r < c ∧ c < g.nodes.length) (f : Nat) :
    ∀ L : List Nat, (∀ c ∈ L, c < g.nodes.length ∧ g.nodes.length ≤ c + f) →
      ((L.flatMap (g.subtree f)).flatMap (fun x => x :: g.children x)).find? m =
        (L.flatMap (g.subtree f)).find? m := by
  induction f with
  | zero =>
    intro L hL
    cases L with
    | nil => rfl
    | cons c L =>
      have := hL c (List.mem_cons_self _ _)
      omega
  | succ f ih =>
    intro L
    induction L with
    | nil => intro _; rfl
    | cons r L ihL =>
      intro hL
      have hr := hL r (List.mem_cons_self _ _)
      have hflat : (r :: L).flatMap (g.subtree (f + 1)) =
          r :: ((g.children r).flatMap (g.subtree f) ++ L.flatMap (g.subtree (f + 1))) := by
        simp [List.flatMap_cons, graph.subtree]
      have hscan : ((r :: L).flatMap (g.subtree (f + 1))).flatMap (fun x => x :: g.children x) =
          r :: (g.children r ++
            ((((g.children r).flatMap (g.subtree f)).flatMap (fun x => x :: g.children x)) ++
              ((L.flatMap (g.subtree (f + 1))).flatMap (fun x => x :: g.children x)))) := by
        rw [hflat, List.flatMap_cons, List.flatMap_append, List.cons_append]
      rw [hscan, hflat, List.find?_cons, List.find?_cons]
      cases hmr : m r with
      | true => rfl
      | false =>
        simp only
        have h1 := ih (g.children r) (fun c hc => by
          have := hlt r c hc
          omega)
        have h2 := ihL (fun x hx => hL x (List.mem_cons_of_mem _ hx))
        rw [List.find?_append, List.find?_append, List.find?_append, h1, h2]
        cases hch : (g.children r).find? m with
        | none => rw [Option.none_or]
        | some c =>
          have hcm : m c = true := List.find?_some hch
          have hcc : c ∈ g.children r := List.mem_of_find?_eq_some hch
          have hdc : d c = D := hm c hcm
          obtain ⟨f1, rfl⟩ : ∃ f1, f = f1 + 1 := by
            have := hlt r c hcc
            exact ⟨f - 1, by omega⟩
          have h3 := g.find_subtrees_of_level m d D hm hd f1 (g.children r) (fun c1 hc1 => by
            have e1 := hd r c hcc
            have e2 := hd r c1 hc1
            omega)
          rw [h3, hch]
          rfl

/-- The first match over live candidates is the first candidate that is payload-equal
to the target. -/
theorem graph_data.first_match_eq_find [graph_node α] (s : graph_data α) (src : graph α)
    (itr : iterator) (a : tree_node α) (ha : src.get itr = some a) :
    ∀ l : List Nat, (∀ c ∈ l, ∃ b, s.m_graph.get (iterator.node c) = some b) →
      graph_data.first_match s src itr l =
        some (match l.find? (fun x => match s.m_graph.get (iterator.node x) with
            | some b => graph_node.eq a.data b.data
            | none => false) with
          | some c => iterator.node c
          | none => iterator.feet) := by
  intro l
  induction l with
  | nil => intro _; rfl
  | cons c l ih =>
    intro hl
    obtain ⟨b, hb⟩ := hl c (List.mem_cons_self _ _)
    rw [graph_data.first_match, graph_data.node_match_live s src itr c a b ha hb,
      List.find?_cons]
    simp only [hb]
    cases h : graph_node.eq a.data b.data with
    | true => rfl
    | false =>
      simp only
      exact ih (fun x hx => hl x (List.mem_cons_of_mem _ hx))

/-- The state `sample_nested_state` stores in every child the depth of its parent plus
one. -/
theorem sample_nested_state_child_depth :
    ∀ i n p m, sample_nested_state.m_graph.get (iterator.node i) = some n →
      n.parent = some p → sample_nested_state.m_graph.get (iterator.node p) = some m →
      graph_node.depth n.data = graph_node.depth m.data + 1 := by
  intro i n p m hn hp hm
  have hi := graph.get_lt _ i n hn
  have hlt := (sample_nested_state_wf.parent_link i n p hn hp).1
  have hi5 : i < 5 := hi
  interval_cases i <;> interval_cases p <;>
    simp [graph.get, sample_nested_state] at hn hm <;> subst hn <;> subst hm <;>
    first
      | rfl
      | (simp at hp)

/-- Claim C29, amended: on a well-formed tree in which every child stores the depth of
its parent plus one, for a node type whose payload equality compares the stored depth,
and for a target that designates a live node, `find` returns, and what it returns is
the first matching node of the pre-order traversal from the tree root: either the end
sentinel, when no node of the traversal matches, or a matching node before which, in
pre-order, no node matches. -/
theorem graph_data.find_first_in_pre_order [graph_node α] (s : graph_data α) (src : graph α)
    (itr : iterator) (a : tree_node α) (hwf : s.m_graph.wf)
    (hchild : ∀ i n p m, s.m_graph.get (iterator.node i) = some n → n.parent = some p →
      s.m_graph.get (iterator.node p) = some m →
      graph_node.depth n.data = graph_node.depth m.data + 1)
    (heq : ∀ x y : α, graph_node.eq x y = true → graph_node.depth x = graph_node.depth y)
    (ha : src.get itr = some a) :
    ∃ r, s.find src itr = some r ∧
      ((r = iterator.feet ∧
          ∀ c ∈ s.m_graph.pre_order,
            graph_data.node_match s src itr (iterator.node c) = some false) ∨
        (∃ pre c post, s.m_graph.pre_order = pre ++ c :: post ∧ r = iterator.node c ∧
          graph_data.node_match s src itr (iterator.node c) = some true ∧
          ∀ x ∈ pre, graph_data.node_match s src itr (iterator.node x) = some false)) := by
  obtain ⟨i, rfl⟩ := graph.get_some_iterator src itr a ha
  have hfind : s.find src (iterator.node i) =
      graph_data.first_match s src (iterator.node i) s.scan_order := by
    simp only [graph_data.find, iterator.to_bool, Bool.not_true, Bool.false_eq_true,
      if_false, graph_data.scan_order]
    exact graph_data.find_loop_eq_first_match s src (iterator.node i) _
  have hlive_scan : ∀ c ∈ s.scan_order, ∃ b, s.m_graph.get (iterator.node c) = some b := by
    intro c hc
    simp only [graph_data.scan_order, List.mem_flatMap, List.mem_cons] at hc
    obtain ⟨f, hf, hcf⟩ := hc
    rcases hcf with rfl | hcf
    · exact hwf.pre_order_live _ hf
    · exact hwf.children_live f c hcf
  have hlive_pre : ∀ c ∈ s.m_graph.pre_order,
      ∃ b, s.m_graph.get (iterator.node c) = some b := fun c hc => hwf.pre_order_live c hc
  have hm : ∀ x, (match s.m_graph.get (iterator.node x) with
        | some b => graph_node.eq a.data b.data
        | none => false) = true →
      (match s.m_graph.get (iterator.node x) with
        | some n => graph_node.depth n.data
        | none => 0) = graph_node.depth a.data := by
    intro x hx
    cases hg : s.m_graph.get (iterator.node x) with
    | none => simp [hg] at hx
    | some b =>
      simp only [hg] at hx ⊢
      exact (heq _ _ hx).symm
  have hkid : ∀ r c, c ∈ s.m_graph.children r →
      ∃ n mc, s.m_graph.get (iterator.node r) = some n ∧
        s.m_graph.get (iterator.node c) = some mc ∧ mc.parent = some r := by
    intro r c hc
    cases hr : s.m_graph.get (iterator.node r) with
    | none => simp [graph.children, hr] at hc
    | some n =>
      rw [s.m_graph.children_of_get r n hr] at hc
      obtain ⟨mc, hmc, hpar⟩ := hwf.child_link r n c hr hc
      exact ⟨n, mc, rfl, hmc, hpar⟩
  have hd : ∀ r c, c ∈ s.m_graph.children r →
      (match s.m_graph.get (iterator.node c) with
        | some n => graph_node.depth n.data
        | none => 0) =
      (match s.m_graph.get (iterator.node r) with
        | some n => graph_node.depth n.data
        | none => 0) + 1 := by
    intro r c hc
    obtain ⟨n, mc, hr, hmc, hpar⟩ := hkid r c hc
    simp only [hr, hmc]
    exact hchild c mc r n hmc hpar hr
  have hlt : ∀ r c, c ∈ s.m_graph.children r → r < c ∧ c < s.m_graph.nodes.length := by
    intro r c hc
    obtain ⟨n, mc, hr, hmc, hpar⟩ := hkid r c hc
    exact ⟨(hwf.parent_link c mc r hmc hpar).1, s.m_graph.get_lt c mc hmc⟩
  have hscan := s.m_graph.find_scan_eq_find _ _ _ hm hd hlt s.m_graph.nodes.length
    s.m_graph.top (fun c hc => by
      obtain ⟨n, hn⟩ := hwf.top_live c hc
      have := s.m_graph.get_lt c n hn
      omega)
  have hpre : s.find src (iterator.node i) =
      graph_data.first_match s src (iterator.node i) s.m_graph.pre_order := by
    rw [hfind, graph_data.first_match_eq_find s src (iterator.node i) a ha _ hlive_scan,
      graph_data.first_match_eq_find s src (iterator.node i) a ha _ hlive_pre]
    simp only [graph_data.scan_order, graph.pre_order]
    rw [hscan]
  have hdef : ∀ c ∈ s.m_graph.pre_order,
      ∃ b, graph_data.node_match s src (iterator.node i) (iterator.node c) = some b := by
    intro c hc
    obtain ⟨b, hb⟩ := hlive_pre c hc
    exact ⟨_, graph_data.node_match_live s src (iterator.node i) c a b ha hb⟩
  rcases graph_data.first_match_spec s src (iterator.node i) s.m_graph.pre_order hdef with
    ⟨h1, h2⟩ | ⟨pre, c, post, h1, h2, h3, h4⟩
  · exact ⟨_, by rw [hpre, h1], Or.inl ⟨rfl, h2⟩⟩
  · exact ⟨_, by rw [hpre, h2], Or.inr ⟨pre, c, post, h1, rfl, h3, h4⟩⟩

/-- Witness of C29, amended: the target slot 4 of the sample tree, looked up in that
tree, where the slots 2 and 4 match. -/
theorem graph_data.find_first_in_pre_order_witness :
    ∃ r, sample_nested_state.find sample_nested_state.m_graph (iterator.node 4) = some r ∧
      ((r = iterator.feet ∧
          ∀ c ∈ sample_nested_state.m_graph.pre_order,
            graph_data.node_match sample_nested_state sample_nested_state.m_graph
              (iterator.node 4) (iterator.node c) = some false) ∨
        (∃ pre c post, sample_nested_state.m_graph.pre_order = pre ++ c :: post ∧
          r = iterator.node c ∧
          graph_data.node_match sample_nested_state sample_nested_state.m_graph
            (iterator.node 4) (iterator.node c) = some true ∧
          ∀ x ∈ pre, graph_data.node_match sample_nested_state sample_nested_state.m_graph
            (iterator.node 4) (iterator.node x) = some false)) :=
  graph_data.find_first_in_pre_order sample_nested_state sample_nested_state.m_graph
    (iterator.node 4) ⟨⟨4, 2, false⟩, some 3, []⟩ sample_nested_state_wf
    sample_nested_state_child_depth
    (fun x y h => by
      have h1 : x.id = y.id ∧ x.depth = y.depth := of_decide_eq_true h
      exact h1.2)
    (by decide)

/-! ## The roofline component -/

/-- Resizing a vector to a size that is not above its own leaves it as it is. -/
theorem vector_resize_self (v : List Int) (n : Nat) (x : Int) (h : n ≤ v.length) :
    vector_resize v (max n v.length) x = v := by
  have hmax : max n v.length = v.length := max_eq_right h
  simp [vector_resize, hmax]

/-- The member `resize` changes nothing when both arrays already have the size asked
for and the size of the event list. -/
theorem cpu_roofline.resize_covered {F : Type} (events : List Int) (a : cpu_roofline F)
    (sz : Nat) (hv : max (cpu_roofline.size events) sz ≤ a.value.1.length)
    (ha : max (cpu_roofline.size events) sz ≤ a.accum.1.length) :
    cpu_roofline.resize events a sz = a := by
  cases a with
  | mk value accum tr run ev =>
    simp only [cpu_roofline.resize] at hv ha ⊢
    rw [vector_resize_self _ _ _ hv, vector_resize_self _ _ _ ha]

/-- The loop of `operator+=` and `operator-=` over a right-hand side that is long
enough. -/
theorem cpu_roofline.combine_loop_eq (f : Int → Int → Int) :
    ∀ xs ys : List Int, xs.length ≤ ys.length →
      cpu_roofline.combine_loop f xs ys = some (List.zipWith f xs ys) := by
  intro xs
  induction xs with
  | nil => intro ys _; simp [cpu_roofline.combine_loop]
  | cons x xs ih =>
    intro ys h
    cases ys with
    | nil => simp at h
    | cons y ys =>
      simp only [List.length_cons, Nat.add_le_add_iff_right] at h
      simp [cpu_roofline.combine_loop, ih ys h]

/-- Subtracting what was added restores an array. -/
theorem zipWith_sub_add (xs : List Int) :
    ∀ ys : List Int, xs.length ≤ ys.length →
      List.zipWith (fun x y => x - y) (List.zipWith (fun x y => x + y) xs ys) ys = xs := by
  induction xs with
  | nil => intro ys _; simp
  | cons x xs ih =>
    intro ys h
    cases ys with
    | nil => simp at h
    | cons y ys =>
      simp only [List.length_cons, Nat.add_le_add_iff_right] at h
      simp [ih ys h]

/-- What `operator+=` and `operator-=` do when the arrays cover the event lists and the
right-hand side has arrays of the same lengths. -/
theorem cpu_roofline.assign_covered {F : Type} [double_arith F] (events : List Int)
    (a b : cpu_roofline F)
    (hacc : a.accum.1.length = b.accum.1.length) (hval : a.value.1.length = b.value.1.length)
    (hea : max a.m_events.length events.length ≤ a.accum.1.length)
    (hev : max a.m_events.length events.length ≤ a.value.1.length) :
    cpu_roofline.plus_assign events a b =
        some { a with
               accum := (List.zipWith (fun x y => x + y) a.accum.1 b.accum.1,
                         double_arith.add a.accum.2 b.accum.2)
               value := (List.zipWith (fun x y => x + y) a.value.1 b.value.1,
                         double_arith.add a.value.2 b.value.2)
               is_transient := if b.is_transient then b.is_transient else a.is_transient } ∧
      cpu_roofline.minus_assign events a b =
        some { a with
               accum := (List.zipWith (fun x y => x - y) a.accum.1 b.accum.1,
                         double_arith.sub a.accum.2 b.accum.2)
               value := (List.zipWith (fun x y => x - y) a.value.1 b.value.1,
                         double_arith.sub a.value.2 b.value.2)
               is_transient := if b.is_transient then b.is_transient else a.is_transient } := by
  have hsz : max (cpu_roofline.size events) (max a.m_events.length events.length) =
      max a.m_events.length events.length := by
    simp [cpu_roofline.size]
  have hres : cpu_roofline.resize events a (max a.m_events.length events.length) = a :=
    cpu_roofline.resize_covered events a _ (by rw [hsz]; exact hev) (by rw [hsz]; exact hea)
  refine ⟨?_, ?_⟩
  · simp only [cpu_roofline.plus_assign, hres,
      cpu_roofline.combine_loop_eq _ _ _ (le_of_eq hacc),
      cpu_roofline.combine_loop_eq _ _ _ (le_of_eq hval)]
  · simp only [cpu_roofline.minus_assign, hres,
      cpu_roofline.combine_loop_eq _ _ _ (le_of_eq hacc),
      cpu_roofline.combine_loop_eq _ _ _ (le_of_eq hval)]

/-- Counterexample to C26: two instances whose four counter arrays all have length 1,
on a thread with two events.  The call `a += b` first resizes the arrays of `a` to
length 2 and then reads the arrays of `b` at index 1, outside their length: the
arrays of `a` no longer have their length and the call has no defined result. -/
theorem cpu_roofline.plus_assign_grows_short_arrays :
    sample_short_roofline.accum.1.length = 1 ∧ sample_short_roofline.value.1.length = 1 ∧
      sample_short_roofline_b.accum.1.length = 1 ∧
      sample_short_roofline_b.value.1.length = 1 ∧
      (cpu_roofline.resize sample_roofline_events sample_short_roofline
          (max sample_short_roofline.m_events.length sample_roofline_events.length)).accum.1 =
        [5, 0] ∧
      (cpu_roofline.resize sample_roofline_events sample_short_roofline
          (max sample_short_roofline.m_events.length sample_roofline_events.length)).value.1 =
        [3, 0] ∧
      cpu_roofline.combine_loop (fun x y => x + y) [5, 0] sample_short_roofline_b.accum.1 =
        none ∧
      cpu_roofline.plus_assign sample_roofline_events sample_short_roofline
        sample_short_roofline_b = none := by
  refine ⟨by decide, by decide, by decide, by decide, by decide, by decide, by decide,
    by decide⟩

/-- Claim C26, amended: for every two instances `a` and `b` whose counter arrays have the
same lengths (`accum` of `a` as `accum` of `b`, `value` of `a` as `value` of `b`) and
are at least as long as the event lists `m_events` and `events()`, both `a += b` and
the following `a -= b` return, and afterwards the integer counter arrays `accum` and
`value` of `a` are exactly what they were before. -/
theorem cpu_roofline.minus_assign_undoes_plus_assign {F : Type} [double_arith F]
    (events : List Int) (a b : cpu_roofline F)
    (hacc : a.accum.1.length = b.accum.1.length) (hval : a.value.1.length = b.value.1.length)
    (hea : max a.m_events.length events.length ≤ a.accum.1.length)
    (hev : max a.m_events.length events.length ≤ a.value.1.length) :
    ∃ a1 a2, cpu_roofline.plus_assign events a b = some a1 ∧
      cpu_roofline.minus_assign events a1 b = some a2 ∧
      a2.accum.1 = a.accum.1 ∧ a2.value.1 = a.value.1 := by
  obtain ⟨hplus, _⟩ := cpu_roofline.assign_covered events a b hacc hval hea hev
  obtain ⟨a1, ha1, hA, hV, hM⟩ : ∃ a1, cpu_roofline.plus_assign events a b = some a1 ∧
      a1.accum.1 = List.zipWith (fun x y => x + y) a.accum.1 b.accum.1 ∧
      a1.value.1 = List.zipWith (fun x y => x + y) a.value.1 b.value.1 ∧
      a1.m_events = a.m_events := ⟨_, hplus, rfl, rfl, rfl⟩
  have hlenA : a1.accum.1.length = b.accum.1.length := by simp [hA, hacc]
  have hlenV : a1.value.1.length = b.value.1.length := by simp [hV, hval]
  obtain ⟨_, hminus⟩ := cpu_roofline.assign_covered events a1 b hlenA hlenV
    (by rw [hM, hlenA, ← hacc]; exact hea) (by rw [hM, hlenV, ← hval]; exact hev)
  refine ⟨a1, _, ha1, hminus, ?_, ?_⟩
  · show List.zipWith (fun x y => x - y) a1.accum.1 b.accum.1 = a.accum.1
    rw [hA]
    exact zipWith_sub_add _ _ (le_of_eq hacc)
  · show List.zipWith (fun x y => x - y) a1.value.1 b.value.1 = a.value.1
    rw [hV]
    exact zipWith_sub_add _ _ (le_of_eq hval)

/-- Witness of C26, amended: two instances with two counters per array on a thread with
two events. -/
theorem cpu_roofline.minus_assign_undoes_plus_assign_witness :
    ∃ a1 a2, cpu_roofline.plus_assign sample_roofline_events sample_roofline_a
        sample_roofline_b = some a1 ∧
      cpu_roofline.minus_assign sample_roofline_events a1 sample_roofline_b = some a2 ∧
      a2.accum.1 = sample_roofline_a.accum.1 ∧ a2.value.1 = sample_roofline_a.value.1 :=
  cpu_roofline.minus_assign_undoes_plus_assign sample_roofline_events sample_roofline_a
    sample_roofline_b (by decide) (by decide) (by decide) (by decide)

/-- The loop of `stop()` over a reading and a previous value that are long enough: it
returns, keeps the length of the array and adds the difference at every index. -/
theorem cpu_roofline.stop_loop_spec :
    ∀ xs ts vs : List Int, xs.length ≤ ts.length → xs.length ≤ vs.length →
      ∃ r, cpu_roofline.stop_loop xs ts vs = some r ∧ r.length = xs.length ∧
        ∀ (i : Nat) (x t v : Int), xs[i]? = some x → ts[i]? = some t → vs[i]? = some v →
          r[i]? = some (x + (t - v)) := by
  intro xs
  induction xs with
  | nil =>
    intro ts vs _ _
    exact ⟨[], by simp [cpu_roofline.stop_loop], rfl, fun i x t v hx => by simp at hx⟩
  | cons x xs ih =>
    intro ts vs ht hv
    cases ts with
    | nil => simp at ht
    | cons t ts =>
      cases vs with
      | nil => simp at hv
      | cons v vs =>
        simp only [List.length_cons, Nat.add_le_add_iff_right] at ht hv
        obtain ⟨r, hr, hlen, hall⟩ := ih ts vs ht hv
        refine ⟨(x + (t - v)) :: r, by simp [cpu_roofline.stop_loop, hr], by simp [hlen], ?_⟩
        intro i x1 t1 v1 hx1 ht1 hv1
        cases i with
        | zero =>
          simp only [List.getElem?_cons_zero, Option.some.injEq] at hx1 ht1 hv1 ⊢
          rw [hx1, ht1, hv1]
        | succ i =>
          simp only [List.getElem?_cons_succ] at hx1 ht1 hv1 ⊢
          exact hall i x1 t1 v1 hx1 ht1 hv1

/-- Counterexample to C27: an instance whose `value` and `accum` arrays have length 1,
a reading of length 1, on a thread with two events.  The call `stop()` first resizes
`accum` and `value` to length 2 and then reads the reading at index 1, outside its
length: the call has no defined result. -/
theorem cpu_roofline.stop_grows_short_arrays :
    sample_short_roofline.value.1.length = 1 ∧ sample_short_roofline.accum.1.length = 1 ∧
      (cpu_roofline.resize sample_roofline_events sample_short_roofline
          (max 1 sample_short_roofline.value.1.length)).accum.1 = [5, 0] ∧
      (cpu_roofline.resize sample_roofline_events sample_short_roofline
          (max 1 sample_short_roofline.value.1.length)).value.1 = [3, 0] ∧
      cpu_roofline.stop_loop [5, 0] [4] [3, 0] = none ∧
      cpu_roofline.stop sample_roofline_events sample_short_roofline (([4] : List Int), (12 : Int)) =
        none := by
  refine ⟨by decide, by decide, by decide, by decide, by decide, by decide⟩

/-- Claim C27, amended: for every instance whose `value` and `accum` arrays and the newly
recorded array have the same length `L`, not below the number `size()` of events of
the thread, `stop()` returns, `accum` keeps its length and holds at every index `i`
its old counter plus `recorded[i] - value[i]`, the accumulated time is the old one
plus the recorded time minus the previous one, and `value` is the recorded reading;
`start()` sets `value` to the recorded reading and leaves `accum` unchanged. -/
theorem cpu_roofline.stop_start_spec {F : Type} [double_arith F] (events : List Int)
    (a : cpu_roofline F) (tmp : List Int × F) (L : Nat)
    (hv : a.value.1.length = L) (ha : a.accum.1.length = L) (ht : tmp.1.length = L)
    (he : cpu_roofline.size events ≤ L) :
    (∃ r, cpu_roofline.stop events a tmp = some r ∧ r.accum.1.length = L ∧
        (∀ (i : Nat) (x t v : Int), a.accum.1[i]? = some x → tmp.1[i]? = some t →
          a.value.1[i]? = some v → r.accum.1[i]? = some (x + (t - v))) ∧
        r.accum.2 = double_arith.add a.accum.2 (double_arith.sub tmp.2 a.value.2) ∧
        r.value = tmp) ∧
      (a.start tmp).value = tmp ∧ (a.start tmp).accum = a.accum := by
  have hsz : max (cpu_roofline.size events) (max tmp.1.length a.value.1.length) = L := by
    rw [ht, hv, max_self]
    exact max_eq_right he
  have hres : cpu_roofline.resize events a (max tmp.1.length a.value.1.length) = a :=
    cpu_roofline.resize_covered events a _ (by rw [hsz, hv]) (by rw [hsz, ha])
  obtain ⟨r, hr, hlen, hall⟩ := cpu_roofline.stop_loop_spec a.accum.1 tmp.1 a.value.1
    (by rw [ha, ht]) (by rw [ha, hv])
  have hstop : cpu_roofline.stop events a tmp =
      some (cpu_roofline.set_stopped
        { a with accum := (r, double_arith.add a.accum.2 (double_arith.sub tmp.2 a.value.2))
                 value := tmp }) := by
    simp only [cpu_roofline.stop, hres, hr]
  refine ⟨⟨_, hstop, ?_, ?_, rfl, rfl⟩, rfl, rfl⟩
  · show r.length = L
    rw [hlen, ha]
  · exact hall

/-- Witness of C27, amended: an instance with two counters per array on a thread with
two events, and the reading (13, 24) at time 12. -/
theorem cpu_roofline.stop_start_spec_witness :
    (∃ r, cpu_roofline.stop sample_roofline_events sample_roofline_a
          (([13, 24] : List Int), (12 : Int)) = some r ∧
        r.accum.1.length = 2 ∧
        (∀ (i : Nat) (x t v : Int), sample_roofline_a.accum.1[i]? = some x →
          (([13, 24] : List Int), (12 : Int)).1[i]? = some t →
          sample_roofline_a.value.1[i]? = some v → r.accum.1[i]? = some (x + (t - v))) ∧
        r.accum.2 = double_arith.add sample_roofline_a.accum.2
          (double_arith.sub (([13, 24] : List Int), (12 : Int)).2 sample_roofline_a.value.2) ∧
        r.value = (([13, 24] : List Int), (12 : Int))) ∧
      (sample_roofline_a.start (([13, 24] : List Int), (12 : Int))).value =
        (([13, 24] : List Int), (12 : Int)) ∧
      (sample_roofline_a.start (([13, 24] : List Int), (12 : Int))).accum =
        sample_roofline_a.accum :=
  cpu_roofline.stop_start_spec sample_roofline_events sample_roofline_a
    (([13, 24] : List Int), (12 : Int)) 2 (by decide) (by decide) (by decide) (by decide)

/-! ## Merging a tree into itself -/

/-- What `distinct_payloads` says. -/
theorem graph.distinct_payloads_spec [graph_node α] (g : graph α)
    (h : g.distinct_payloads = true) (i j : Nat) (n m : tree_node α)
    (hi : g.get (iterator.node i) = some n) (hj : g.get (iterator.node j) = some m)
    (he : graph_node.eq n.data m.data = true) : i = j := by
  have hil := g.get_lt i n hi
  have hjl := g.get_lt j m hj
  simp only [graph.distinct_payloads, List.all_eq_true, List.mem_range] at h
  have := h i hil j hjl
  simp only [hi, hj, he, Bool.not_true, Bool.false_or, decide_eq_true_eq] at this
  exact this

/-- The node in a slot after `plus_at`. -/
theorem graph.get_plus_at [graph_node α] [bundle_node α] (g : graph α) (j : Nat) (x : α)
    (m : tree_node α) (hm : g.get (iterator.node j) = some m) (i : Nat) :
    (g.plus_at j x).get (iterator.node i) =
      if i = j then some { m with data := bundle_node.plus m.data x }
      else g.get (iterator.node i) := by
  have hjl := g.get_lt j m hm
  have hpa : g.plus_at j x =
      { g with nodes := g.nodes.set j (some { m with data := bundle_node.plus m.data x }) } := by
    simp only [graph.plus_at, hm]
  rw [hpa]
  simp only [graph.get_node]
  by_cases hij : i = j
  · subst hij
    simp [List.getElem?_set, hjl]
  · rw [if_neg hij, List.getElem?_set_ne (fun h => hij h.symm)]

/-- The size and the top level after `plus_at`. -/
theorem graph.plus_at_shape [graph_node α] [bundle_node α] (g : graph α) (j : Nat) (x : α) :
    (g.plus_at j x).nodes.length = g.nodes.length ∧ (g.plus_at j x).top = g.top := by
  unfold graph.plus_at
  cases g.get (iterator.node j) with
  | none => exact ⟨rfl, rfl⟩
  | some m => simp

/-- A merged tree has the children lists of the tree it comes from. -/
theorem graph.merged_upto.children_eq [graph_node α] [bundle_node α] {g0 g : graph α}
    {done : List Nat} (h : graph.merged_upto g0 g done) (i : Nat) :
    g.children i = g0.children i := by
  unfold graph.children
  cases h0 : g0.get (iterator.node i) with
  | none => rw [h.dead i h0]
  | some n =>
    obtain ⟨n1, hn1, _, hc, _⟩ := h.live i n h0
    rw [hn1]
    exact hc

/-- A merged tree has the subtrees of the tree it comes from. -/
theorem graph.merged_upto.subtree_eq [graph_node α] [bundle_node α] {g0 g : graph α}
    {done : List Nat} (h : graph.merged_upto g0 g done) (f : Nat) :
    ∀ i, g.subtree f i = g0.subtree f i := by
  induction f with
  | zero => intro i; rfl
  | succ f ih =>
    intro i
    simp only [graph.subtree, h.children_eq i]
    congr 1
    exact List.flatMap_congr (fun c _ => ih c)

/-- A merged tree has the pre-order of the tree it comes from. -/
theorem graph.merged_upto.pre_order_eq [graph_node α] [bundle_node α] {g0 g : graph α}
    {done : List Nat} (h : graph.merged_upto g0 g done) : g.pre_order = g0.pre_order := by
  simp only [graph.pre_order, h.top_eq, h.length_eq]
  exact List.flatMap_congr (fun c _ => h.subtree_eq _ c)

/-- A live node of a merged tree is a live node of the tree it comes from, with the same
links. -/
theorem graph.merged_upto.live_inv [graph_node α] [bundle_node α] {g0 g : graph α}
    {done : List Nat} (h : graph.merged_upto g0 g done) (i : Nat) (n1 : tree_node α)
    (h1 : g.get (iterator.node i) = some n1) :
    ∃ n, g0.get (iterator.node i) = some n ∧ n1.parent = n.parent ∧
      n1.children = n.children ∧
      n1.data = if i ∈ done ∧ bundle_node.is_dummy n.data = false
        then bundle_node.plus n.data n.data else n.data := by
  cases h0 : g0.get (iterator.node i) with
  | none => rw [h.dead i h0] at h1; simp at h1
  | some n =>
    obtain ⟨n2, hn2, hp, hc, hd⟩ := h.live i n h0
    rw [hn2] at h1
    obtain rfl := Option.some.inj h1
    exact ⟨n, rfl, hp, hc, hd⟩

/-- A merged tree is well formed when the tree it comes from is. -/
theorem graph.merged_upto.wf [graph_node α] [bundle_node α] {g0 g : graph α}
    {done : List Nat} (h : graph.merged_upto g0 g done) (hwf : g0.wf) : g.wf := by
  refine ⟨?_, ?_, ?_, ?_⟩
  · intro i hi
    rw [h.top_eq] at hi
    obtain ⟨n, hn, hp⟩ := hwf.top_root i hi
    obtain ⟨n1, hn1, hp1, _, _⟩ := h.live i n hn
    exact ⟨n1, hn1, by rw [hp1, hp]⟩
  · intro i n1 c hi hc
    obtain ⟨n, hn, _, hc1, _⟩ := h.live_inv i n1 hi
    rw [hc1] at hc
    obtain ⟨m, hm, hmp⟩ := hwf.child_link i n c hn hc
    obtain ⟨m1, hm1, hp1, _, _⟩ := h.live c m hm
    exact ⟨m1, hm1, by rw [hp1, hmp]⟩
  · intro i n1 p hi hp
    obtain ⟨n, hn, hp1, _, _⟩ := h.live_inv i n1 hi
    rw [hp1] at hp
    obtain ⟨hlt, m, hm, him⟩ := hwf.parent_link i n p hn hp
    obtain ⟨m1, hm1, _, hc1, _⟩ := h.live p m hm
    exact ⟨hlt, m1, hm1, by rw [hc1]; exact him⟩
  · intro i n1 hi hp
    obtain ⟨n, hn, hp1, _, _⟩ := h.live_inv i n1 hi
    rw [hp1] at hp
    rw [h.top_eq]
    exact hwf.root_top i n hn hp

/-- In a tree without payload-equal nodes, `find` resolves every live node of the
original tree to the node in the same slot of a merged tree. -/
theorem graph_data.find_self [graph_node α] [bundle_node α] (dest : graph_data α)
    (g0 : graph α) (done : List Nat) (h : graph.merged_upto g0 dest.m_graph done)
    (hwf : g0.wf) (hdist : g0.distinct_payloads = true) (i : Nat) (n : tree_node α)
    (hn : g0.get (iterator.node i) = some n) :
    dest.find g0 (iterator.node i) = some (iterator.node i) := by
  have hwf1 : dest.m_graph.wf := h.wf hwf
  have hfind : dest.find g0 (iterator.node i) =
      graph_data.find_loop dest g0 (iterator.node i) dest.m_graph.pre_order := by
    simp [graph_data.find, iterator.to_bool]
  rw [hfind]
  have heq : ∀ j b, dest.m_graph.get (iterator.node j) = some b →
      ∃ m, g0.get (iterator.node j) = some m ∧
        graph_node.eq n.data b.data = graph_node.eq n.data m.data := by
    intro j b hb
    obtain ⟨m, hm, _, _, hd⟩ := h.live_inv j b hb
    refine ⟨m, hm, ?_⟩
    rw [hd]
    split
    · exact bundle_node.eq_plus _ _ _
    · rfl
  rcases graph_data.find_loop_spec dest g0 (iterator.node i) n hn dest.m_graph.pre_order
      (fun f hf => hwf1.pre_order_live f hf)
      (fun f c _ hc => hwf1.children_live f c hc) with ⟨j, b, h1, h2, h3⟩ | ⟨_, h2⟩
  · obtain ⟨m, hm, he⟩ := heq j b h2
    rw [he] at h3
    have hij := graph.distinct_payloads_spec g0 hdist i j n m hn hm h3
    rw [h1, hij]
  · obtain ⟨n1, hn1, _, _, _⟩ := h.live i n hn
    have hmem := hwf1.mem_pre_order i n1 hn1
    have hfalse := h2 i n1 hmem hn1
    obtain ⟨m, hm, he⟩ := heq i n1 hn1
    rw [hn] at hm
    obtain rfl := Option.some.inj hm
    rw [he, bundle_node.eq_self] at hfalse
    exact absurd hfalse (by simp)

/-- One step of the merge of a tree into itself: the node is found in its own slot and
its bundle receives a copy of itself, a dummy is skipped. -/
theorem graph_data.merge_node_self [graph_node α] [bundle_node α] (dest : graph_data α)
    (g0 : graph α) (done : List Nat) (h : graph.merged_upto g0 dest.m_graph done)
    (hwf : g0.wf) (hdist : g0.distinct_payloads = true) (i : Nat) (n : tree_node α)
    (hn : g0.get (iterator.node i) = some n) (hi : i ∉ done) :
    ∃ d1, dest.merge_node g0 i = some d1 ∧ graph.merged_upto g0 d1.m_graph (i :: done) := by
  by_cases hdum : bundle_node.is_dummy n.data = true
  · refine ⟨dest, by simp only [graph_data.merge_node, hn, hdum, if_true], ?_⟩
    refine ⟨h.length_eq, h.top_eq, h.dead, ?_⟩
    intro k m hm
    obtain ⟨m1, hm1, hp, hc, hd⟩ := h.live k m hm
    refine ⟨m1, hm1, hp, hc, ?_⟩
    rw [hd]
    by_cases hk : k = i
    · subst hk
      rw [hn] at hm
      obtain rfl := Option.some.inj hm
      simp [hdum]
    · simp [hk]
  · have hdum1 : bundle_node.is_dummy n.data = false := by simpa using hdum
    obtain ⟨n1, hn1, hp1, hc1, hd1⟩ := h.live i n hn
    have hd2 : n1.data = n.data := by
      rw [hd1, if_neg (fun hc => hi hc.1)]
    have hfind := graph_data.find_self dest g0 done h hwf hdist i n hn
    refine ⟨{ dest with m_graph := dest.m_graph.plus_at i n.data }, ?_, ?_⟩
    · simp only [graph_data.merge_node, hn, hdum1, hfind, hn1, hd2, Bool.false_eq_true,
        if_false]
    · obtain ⟨hlen, htop⟩ := graph.plus_at_shape dest.m_graph i n.data
      refine ⟨by simp only; rw [hlen, h.length_eq], by simp only; rw [htop, h.top_eq], ?_, ?_⟩
      · intro k hk
        have hki : k ≠ i := by
          intro hki
          rw [hki, hn] at hk
          simp at hk
        simp only
        rw [graph.get_plus_at dest.m_graph i n.data n1 hn1 k, if_neg hki]
        exact h.dead k hk
      · intro k m hm
        simp only
        rw [graph.get_plus_at dest.m_graph i n.data n1 hn1 k]
        by_cases hki : k = i
        · subst hki
          rw [hn] at hm
          obtain rfl := Option.some.inj hm
          refine ⟨{ n1 with data := bundle_node.plus n1.data n.data }, by rw [if_pos rfl],
            hp1, hc1, ?_⟩
          simp [hd2, hdum1]
        · rw [if_neg hki]
          obtain ⟨m1, hm1, hp, hc, hd⟩ := h.live k m hm
          refine ⟨m1, hm1, hp, hc, ?_⟩
          rw [hd]
          simp [hki]

/-- The merge of a list of distinct live nodes of a tree into a merged copy of that
tree: every node of the list receives a copy of itself. -/
theorem graph_data.merge_loop_self [graph_node α] [bundle_node α] (g0 : graph α)
    (hwf : g0.wf) (hdist : g0.distinct_payloads = true) :
    ∀ (rest done : List Nat) (dest : graph_data α),
      graph.merged_upto g0 dest.m_graph done → (∀ i ∈ rest, i ∉ done) → rest.Nodup →
      (∀ i ∈ rest, ∃ n, g0.get (iterator.node i) = some n) →
      ∃ d1 done1, graph_data.merge_loop g0 rest dest = some d1 ∧
        graph.merged_upto g0 d1.m_graph done1 ∧ ∀ k, k ∈ done1 ↔ k ∈ rest ∨ k ∈ done := by
  intro rest
  induction rest with
  | nil =>
    intro done dest h _ _ _
    exact ⟨dest, done, rfl, h, fun k => by simp⟩
  | cons i rest ih =>
    intro done dest h hnot hnd hlive
    obtain ⟨n, hn⟩ := hlive i (List.mem_cons_self _ _)
    obtain ⟨d1, hd1, hm1⟩ := graph_data.merge_node_self dest g0 done h hwf hdist i n hn
      (hnot i (List.mem_cons_self _ _))
    have hnd1 := List.nodup_cons.1 hnd
    obtain ⟨d2, done2, hd2, hm2, hmem⟩ := ih (i :: done) d1 hm1
      (by
        intro k hk hkd
        rcases List.mem_cons.1 hkd with rfl | hkd
        · exact hnd1.1 hk
        · exact hnot k (List.mem_cons_of_mem _ hk) hkd)
      hnd1.2 (fun k hk => hlive k (List.mem_cons_of_mem _ hk))
    refine ⟨d2, done2, by simp only [graph_data.merge_loop, hd1, hd2], hm2, ?_⟩
    intro k
    rw [hmem k]
    simp only [List.mem_cons]
    tauto

/-- The tree of `measured_chain_state` is well formed: the state is reached from a
construction through the push/pop interface. -/
theorem measured_chain_state_wf : measured_chain_state.m_graph.wf := by
  obtain ⟨s1, hrun, hinv, _⟩ := graph_data.inv_run measured_chain_events measured_root_state
    (graph_data.inv_construct ⟨1, 0, false, 5⟩ 0 none measured_root_state (by decide))
    (by decide)
  have h : measured_root_state.run measured_chain_events = some measured_chain_state := by
    decide
  rw [h] at hrun
  obtain rfl := Option.some.inj hrun
  exact hinv.wf

/-- In a tree without two nodes in the same logical position no two nodes are
payload-equal, the value of `get_rolling_hash` being the same for all nodes. -/
theorem graph.distinct_positions_payloads [graph_node α] (g : graph α)
    (h : g.distinct_positions = true) : g.distinct_payloads = true := by
  simp only [graph.distinct_positions, List.all_eq_true, List.mem_range] at h
  simp only [graph.distinct_payloads, List.all_eq_true, List.mem_range]
  intro i hi j hj
  have hij := h i hi j hj
  cases hn : g.get (iterator.node i) with
  | none => simp
  | some n =>
    cases hm : g.get (iterator.node j) with
    | none => simp
    | some m =>
      simp only [hn, hm, graph_data.get_rolling_hash_eq, iterator.to_bool, if_true,
        decide_True, Bool.and_true] at hij
      simpa using hij

/-- Counterexample to C31: on the rooted graph data constructed at the starting depth -2,
with the cursor on the head, `append_child(node)` leaves depth -1 with the cursor on
the new node, and `pop_graph()` then changes nothing: `current()` is not back on the
head and `depth()` is -1, not -2. -/
theorem graph_data.pop_graph_below_zero_stays :
    graph_data.construct (⟨1, -2, false⟩ : call_node) (-2) none = some sunken_root_state ∧
      sunken_root_state.current = iterator.node 0 ∧ sunken_root_state.depth = -2 ∧
      sunken_root_state.append_child ⟨2, -1, false⟩ =
        some (sunken_child_state, iterator.node 1) ∧
      sunken_child_state.pop_graph = some (sunken_child_state, iterator.node 1) ∧
      sunken_child_state.current ≠ sunken_root_state.current ∧
      sunken_child_state.depth ≠ sunken_root_state.depth := by
  refine ⟨graph_data.construct_eq _ _ _, by decide, by decide, by decide, by decide,
    by decide, by decide⟩

/-- Claim C31, amended: for every rooted graph data with `depth() = k >= 0` and
`current()` on the live node `c`, `append_child(node)` followed by `pop_graph()`
returns, restores `current() == c` and `depth() == k`, `pop_graph()` returns `c`, and
the appended node stays in the tree, with `c` as its parent and as the last child of
`c`. -/
theorem graph_data.append_child_pop_graph_round_trip (s : graph_data α) (node : α) (c : Nat)
    (k : Int) (n : tree_node α) (hc : s.current = iterator.node c)
    (hn : s.m_graph.get (iterator.node c) = some n) (hk : s.depth = k) (h0 : 0 ≤ k) :
    ∃ s1 it s2, s.append_child node = some (s1, it) ∧
      s1.pop_graph = some (s2, iterator.node c) ∧
      s2.current = iterator.node c ∧ s2.depth = k ∧
      s2.head = s.head ∧ s2.sea_level = s.sea_level ∧
      s.m_graph.get it = none ∧
      s2.m_graph.get it = some { data := node, parent := some c, children := [] } ∧
      s2.m_graph.get (iterator.node c) =
        some { n with children := n.children ++ [s.m_graph.nodes.length] } ∧
      it = iterator.node s.m_graph.nodes.length := by
  simp only [graph_data.current, graph_data.depth, graph_data.head,
    graph_data.sea_level] at hc hk ⊢
  obtain ⟨g1, it, happ, hs⟩ := graph_data.append_child_live s node c n hc hn
  obtain ⟨hit, _, _, hnew, hpar, _⟩ := graph.get_append_child s.m_graph g1 c n node it hn happ
  have hpop := graph_data.pop_graph_live
    { s with m_depth := s.m_depth + 1, m_graph := g1, m_current := it }
    s.m_graph.nodes.length _ hit hnew
  have hpos : (0 : Int) < s.m_depth + 1 := by omega
  simp only [if_pos hpos] at hpop
  refine ⟨_, it, _, hs, hpop, rfl, ?_, rfl, rfl, ?_, ?_, hpar, hit⟩
  · show s.m_depth + 1 - 1 = k
    omega
  · rw [hit]
    have hlt : ¬ s.m_graph.nodes.length < s.m_graph.nodes.length := Nat.lt_irrefl _
    cases hg : s.m_graph.get (iterator.node s.m_graph.nodes.length) with
    | none => rfl
    | some m => exact absurd (s.m_graph.get_lt _ m hg) hlt
  · show g1.get it = _
    rw [hit]
    exact hnew

/-- Witness of C31, amended: the sample tree with the cursor on its second scope 4 at
depth 2. -/
theorem graph_data.append_child_pop_graph_round_trip_witness :
    ∃ s1 it s2, sample_nested_state.append_child (⟨7, 3, false⟩ : call_node) = some (s1, it) ∧
      s1.pop_graph = some (s2, iterator.node 4) ∧
      s2.current = iterator.node 4 ∧ s2.depth = 2 ∧
      s2.head = sample_nested_state.head ∧ s2.sea_level = sample_nested_state.sea_level ∧
      sample_nested_state.m_graph.get it = none ∧
      s2.m_graph.get it = some { data := ⟨7, 3, false⟩, parent := some 4, children := [] } ∧
      s2.m_graph.get (iterator.node 4) =
        some { (⟨⟨4, 2, false⟩, some 3, []⟩ : tree_node call_node) with
               children := (⟨⟨4, 2, false⟩, some 3, []⟩ : tree_node call_node).children ++
                 [sample_nested_state.m_graph.nodes.length] } ∧
      it = iterator.node sample_nested_state.m_graph.nodes.length :=
  graph_data.append_child_pop_graph_round_trip sample_nested_state ⟨7, 3, false⟩ 4 2
    ⟨⟨4, 2, false⟩, some 3, []⟩ (by decide) (by decide) (by decide) (by decide)

/-- Every call of the push/pop interface keeps the sea level and the head. -/
theorem graph_data.step_keeps_sea_level (s : graph_data α) (hinv : s.inv) (c : call α)
    (s1 : graph_data α) (hstep : s.step c = some s1) :
    s1.m_sea_level = s.m_sea_level ∧ s1.m_head = s.m_head := by
  obtain ⟨_, ⟨cur, n, hc, hn⟩, _⟩ := hinv
  cases c with
  | append_child node =>
    obtain ⟨g1, it, _, hs⟩ := graph_data.append_child_live s node cur n hc hn
    simp only [graph_data.step, hs, Option.map_some', Option.some.injEq] at hstep
    subst hstep
    exact ⟨rfl, rfl⟩
  | pop_graph =>
    have hpop := graph_data.pop_graph_live s cur n hc hn
    simp only [graph_data.step, hpop] at hstep
    split at hstep
    · split at hstep <;>
        (simp only [Option.map_some', Option.some.injEq] at hstep; subst hstep; exact ⟨rfl, rfl⟩)
    · split at hstep <;>
        (simp only [Option.map_some', Option.some.injEq] at hstep; subst hstep; exact ⟨rfl, rfl⟩)

/-- Every finite sequence of calls returns from a rooted state, whatever the depth, and
keeps the sea level. -/
theorem graph_data.run_keeps_sea_level (cs : List (call α)) :
    ∀ s : graph_data α, s.inv →
      ∃ s1, s.run cs = some s1 ∧ s1.inv ∧ s1.m_sea_level = s.m_sea_level := by
  induction cs with
  | nil => intro s hinv; exact ⟨s, rfl, hinv, rfl⟩
  | cons c cs ih =>
    intro s hinv
    obtain ⟨s1, hstep, hinv1, _⟩ := graph_data.inv_step s hinv c
    obtain ⟨hsea, _⟩ := graph_data.step_keeps_sea_level s hinv c s1 hstep
    obtain ⟨s2, hrun, hinv2, hsea2⟩ := ih s1 hinv1
    exact ⟨s2, by simp only [graph_data.run, hstep, hrun], hinv2, by rw [hsea2, hsea]⟩

/-- Counterexample to C32: a graph data constructed at the starting depth 1 is at sea
level right after construction, and after `reset()` it is not: `depth()` is 0 and
`sea_level()` is still 1. -/
theorem graph_data.reset_leaves_sea_level :
    graph_data.construct (⟨1, 1, false⟩ : call_node) 1 none = some mounted_root_state ∧
      mounted_root_state.at_sea_level = true ∧
      mounted_root_state.reset = some mounted_reset_state ∧
      mounted_reset_state.depth = 0 ∧ mounted_reset_state.sea_level = 1 ∧
      mounted_reset_state.at_sea_level = false := by
  refine ⟨graph_data.construct_eq _ _ _, by decide, by decide, by decide, by decide,
    by decide⟩

/-- Claim C32, amended: for a graph data constructed at any starting depth `d` and driven
by any calls of `append_child` and `pop_graph`, `at_sea_level()` is true right after
construction, and `reset()` returns and leaves `depth() = 0`, `current() = head()` and
`sea_level() = d`, so that after it `at_sea_level()` is true exactly when `d = 0`. -/
theorem graph_data.reset_at_sea_level_iff (root : α) (d : Int) (m : Option Nat)
    (cs : List (call α)) :
    ∃ s0 s1 s2, graph_data.construct root d m = some s0 ∧ s0.at_sea_level = true ∧
      s0.run cs = some s1 ∧ s1.reset = some s2 ∧
      s2.depth = 0 ∧ s2.current = s2.head ∧ s2.sea_level = d ∧
      (s2.at_sea_level = true ↔ d = 0) := by
  have h0 := graph_data.construct_eq root d m
  have hinv0 := graph_data.inv_construct root d m _ h0
  obtain ⟨s1, hrun, hinv1, hsea1⟩ := graph_data.run_keeps_sea_level cs _ hinv0
  obtain ⟨⟨_, _, ⟨h, nh, hh, hnh⟩⟩, hinv1b⟩ := And.intro hinv1 hinv1
  obtain ⟨g1, _, hreset⟩ := graph_data.reset_live s1 h nh hh hnh
  refine ⟨_, s1, _, h0, by simp [graph_data.at_sea_level], hrun, hreset, rfl, rfl, hsea1, ?_⟩
  simp only [graph_data.at_sea_level, decide_eq_true_eq]
  rw [hsea1]
  constructor
  · intro h1; exact h1.symm
  · intro h1; exact h1.symm

/-! ## `is_dummy` and `set_master` -/

/-- What `is_dummy(itr)` computes: whether the catalogue has an entry whose depth key
is 1, for a non-null iterator, or 0, for a null one. -/
theorem graph_data.is_dummy_eq (s : graph_data α) (itr : iterator) :
    s.is_dummy itr = true ↔
      ∃ entry ∈ s.m_dummies, entry.1 = if itr.to_bool then 1 else 0 := by
  simp [graph_data.is_dummy, List.any_eq_true]

/-- Claim C33 fails: for the root registered in the catalogue at construction at depth 0,
`is_dummy(head())` is false although `(0, head())` is an entry of the catalogue; and
in a graph data constructed at depth 1, `is_dummy(current())` is true for the real
node that `append_child` has just created, which is in no entry of the catalogue. -/
theorem graph_data.is_dummy_looks_up_depth_key :
    (graph_data.construct (⟨1, 0, false⟩ : call_node) 0 none = some sample_root_state ∧
        (0, sample_root_state.head) ∈ sample_root_state.m_dummies ∧
        sample_root_state.is_dummy sample_root_state.head = false) ∧
      (graph_data.construct (⟨1, 1, false⟩ : call_node) 1 none = some mounted_root_state ∧
        mounted_root_state.append_child ⟨2, 2, false⟩ =
          some (mounted_child_state, iterator.node 1) ∧
        mounted_child_state.current = iterator.node 1 ∧
        (∀ entry ∈ mounted_child_state.m_dummies, entry.2 ≠ iterator.node 1) ∧
        mounted_child_state.is_dummy mounted_child_state.current = true) := by
  refine ⟨⟨graph_data.construct_eq _ _ _, by decide, by decide⟩,
    ⟨graph_data.construct_eq _ _ _, by decide, by decide, by decide, by decide⟩⟩

/-- Claim C34: `add_dummy()` on a graph data whose master pointer is null returns the
state unchanged (depth, sea level, cursor, tree and catalogue included); the master
pointer is null right after a construction without master, and `set_master(this)`
leaves the state as it is. -/
theorem graph_data.add_dummy_without_master {β : Type} [graph_node α] [dummy_node α β]
    (root : α) (d : Int) (self : Nat) (s master : graph_data α) (hm : s.m_master = none) :
    s.add_dummy master = some s ∧
      s.set_master self (some self) = s ∧
      (s.set_master self (some self)).add_dummy master = some s ∧
      ∃ s0, graph_data.construct root d none = some s0 ∧ s0.m_master = none ∧
        s0.add_dummy master = some s0 ∧
        (s0.set_master self (some self)).add_dummy master = some s0 := by
  have hadd : ∀ t : graph_data α, t.m_master = none → t.add_dummy master = some t := by
    intro t ht
    simp only [graph_data.add_dummy, ht]
  have hset : ∀ t : graph_data α, t.set_master self (some self) = t := by
    intro t
    simp [graph_data.set_master]
  refine ⟨hadd s hm, hset s, by rw [hset s]; exact hadd s hm, _,
    graph_data.construct_eq root d none, rfl, hadd _ rfl, ?_⟩
  rw [hset]
  exact hadd _ rfl

/-- Witness of C34: the freshly constructed sample root state, which has no master. -/
theorem graph_data.add_dummy_without_master_witness :
    sample_root_state.add_dummy sample_nested_state = some sample_root_state ∧
      sample_root_state.set_master 7 (some 7) = sample_root_state ∧
      (sample_root_state.set_master 7 (some 7)).add_dummy sample_nested_state =
        some sample_root_state ∧
      ∃ s0, graph_data.construct (⟨1, 0, false⟩ : call_node) 0 none = some s0 ∧
        s0.m_master = none ∧ s0.add_dummy sample_nested_state = some s0 ∧
        (s0.set_master 7 (some 7)).add_dummy sample_nested_state = some s0 :=
  graph_data.add_dummy_without_master ⟨1, 0, false⟩ 0 7 sample_root_state sample_nested_state
    rfl

/-! ## String joins -/

/-- The recursion of `join_tail` on a stream with `std::boolalpha` is the accumulating
loop of `String.intercalate`. -/
theorem internal.apply_string.join_tail_eq (_sep : join_arg) :
    ∀ (__args : List join_arg) (_ss : stringstream) (_arg : join_arg),
      _ss.boolalpha = true →
      internal.apply_string.join_tail _ss _sep _arg __args =
        String.intercalate.go (_ss.str ++ _sep.render true ++ _arg.render true)
          (_sep.render true) (__args.map (join_arg.render true)) := by
  intro __args
  induction __args with
  | nil =>
    intro _ss _arg hb
    simp [internal.apply_string.join_tail, stringstream.put, hb, String.intercalate.go]
  | cons a rest ih =>
    intro _ss _arg hb
    rw [internal.apply_string.join_tail, ih _ _ (by simp [stringstream.put, hb])]
    simp [stringstream.put, hb, String.intercalate.go, String.append_assoc]

/-- The variadic `join` returns the renderings of its arguments, separated by the
rendering of the separator. -/
theorem apply_string.join_variadic (s a b : join_arg) (rest : List join_arg) :
    apply_string.join s (a :: b :: rest) =
      some (String.intercalate (s.render true)
        ((a :: b :: rest).map (join_arg.render true))) := by
  simp only [apply_string.join, internal.apply_string.join, List.map_cons,
    String.intercalate]
  rw [internal.apply_string.join_tail_eq s rest _ b (by simp [stringstream.put])]
  simp [stringstream.put, String.intercalate.go, String.append_assoc]

/-- Appending a list of strings to a start is the start followed by their
concatenation. -/
theorem string_foldl_append (l : List String) :
    ∀ init : String,
      l.foldl (fun r s => r ++ s) init = init ++ l.foldl (fun r s => r ++ s) "" := by
  induction l with
  | nil => intro init; simp
  | cons x l ih =>
    intro init
    simp only [List.foldl_cons]
    rw [ih (init ++ x), ih ("" ++ x)]
    simp [String.append_assoc]

/-- Claim C35: for every separator `s` and arguments `a1, a2, ..., an`, `n >= 2`,
`apply<std::string>::join(s, a1, ..., an)` returns the renderings of the arguments
(with `std::boolalpha`) in argument order with the rendering of `s` between
neighbours: `render(a1) ++ s ++ render(a2) ++ ... ++ s ++ render(an)`; for two
arguments that is `render(a1) ++ s ++ render(a2)`, without a leading or trailing
separator; `join` with no arguments after a string separator returns the empty
string. -/
theorem apply_string.join_spec (s a b : join_arg) (rest : List join_arg) (sep : String) :
    apply_string.join s (a :: b :: rest) =
        some (String.intercalate (s.render true)
          ((a :: b :: rest).map (join_arg.render true))) ∧
      apply_string.join s [a, b] = some (a.render true ++ s.render true ++ b.render true) ∧
      apply_string.join s (a :: b :: rest) =
        some (a.render true ++
          String.join ((b :: rest).map (fun x => s.render true ++ x.render true))) ∧
      apply_string.join (join_arg.text sep) [] = some "" := by
  have hgo : ∀ (l : List join_arg) (acc : String),
      String.intercalate.go acc (s.render true) (l.map (join_arg.render true)) =
        acc ++ String.join (l.map (fun x => s.render true ++ x.render true)) := by
    intro l
    induction l with
    | nil => intro acc; simp [String.intercalate.go, String.join]
    | cons x l ih =>
      intro acc
      simp only [List.map_cons, String.intercalate.go, ih, String.join, List.foldl_cons]
      rw [string_foldl_append _ ("" ++ (s.render true ++ x.render true))]
      simp [String.append_assoc]
  refine ⟨apply_string.join_variadic s a b rest, ?_, ?_, rfl⟩
  · rw [apply_string.join_variadic]
    simp [String.intercalate, String.intercalate.go]
  · rw [apply_string.join_variadic]
    exact congrArg some (hgo (b :: rest) (a.render true))

/-- Claim C36 fails for a boolean: `join(", ", true, false)` is `"true, false"`, while
the single-argument `join(", ", true)` is `"1"` and `join(", ", false)` is `"0"`, so
`join(s, a) ++ s ++ join(s, b)` is `"1, 0"`.  For arguments that are not booleans the
single-argument `join` renders as the variadic one does and the equation holds. -/
theorem apply_string.join_single_without_boolalpha :
    apply_string.join (join_arg.text ", ") [join_arg.boolean true, join_arg.boolean false] =
        some "true, false" ∧
      apply_string.join (join_arg.text ", ") [join_arg.boolean true] = some "1" ∧
      apply_string.join (join_arg.text ", ") [join_arg.boolean false] = some "0" ∧
      (∀ (s a b : join_arg) (ja jb : String),
        (∀ v, a ≠ join_arg.boolean v) → (∀ v, b ≠ join_arg.boolean v) →
        apply_string.join s [a] = some ja → apply_string.join s [b] = some jb →
        apply_string.join s [a, b] = some (ja ++ s.render true ++ jb)) := by
  refine ⟨by decide, by decide, by decide, ?_⟩
  intro s a b ja jb ha hb hja hjb
  have hone : ∀ x : join_arg, (∀ v, x ≠ join_arg.boolean v) →
      apply_string.join s [x] = some (x.render true) := by
    intro x hx
    cases x with
    | boolean v => exact absurd rfl (hx v)
    | integer i => simp [apply_string.join, stringstream.put, join_arg.render]
    | text t => simp [apply_string.join, stringstream.put, join_arg.render]
    | c_string t => simp [apply_string.join, join_arg.render]
  rw [hone a ha] at hja
  rw [hone b hb] at hjb
  obtain rfl := Option.some.inj hja
  obtain rfl := Option.some.inj hjb
  rw [apply_string.join_variadic]
  simp [String.intercalate, String.intercalate.go]

/-- The outer `join` over strings: for one string or more, the strings separated by the
rendering of the separator. -/
theorem apply_string.join_texts (sep : join_arg) (x : String) (xs : List String) :
    apply_string.join sep ((x :: xs).map join_arg.text) =
      some (String.intercalate (sep.render true) (x :: xs)) := by
  cases xs with
  | nil =>
    simp [apply_string.join, stringstream.put, join_arg.render, String.intercalate,
      String.intercalate.go]
  | cons y ys =>
    simp only [List.map_cons]
    rw [apply_string.join_variadic]
    simp [join_arg.render, Function.comp_def]

/-- The pack expansion of `impl::join` over the indices that are still to do. -/
theorem apply_string_tuple.impl.join_pack_aux (es : join_arg) :
    ∀ (rl re dl de : List join_arg), dl.length = de.length → rl.length = re.length →
      apply_string_tuple.impl.join_pack es (dl ++ rl) (de ++ re)
          (List.range' dl.length rl.length) =
        some ((List.zipWith (fun l e => l.render true ++ es.render true ++ e.render true)
          rl re).map join_arg.text) := by
  intro rl
  induction rl with
  | nil =>
    intro re dl de _ _
    simp [apply_string_tuple.impl.join_pack]
  | cons l rl ih =>
    intro re dl de hd hr
    cases re with
    | nil => simp at hr
    | cons e re =>
      simp only [List.length_cons, Nat.add_right_cancel_iff] at hr
      have hl : (dl ++ l :: rl)[dl.length]? = some l := by
        rw [List.getElem?_append_right (by omega)]
        simp
      have he : (de ++ e :: re)[dl.length]? = some e := by
        rw [hd, List.getElem?_append_right (by omega)]
        simp
      have hrec := ih re (dl ++ [l]) (de ++ [e]) (by simp [hd]) hr
      simp only [List.length_append, List.length_singleton, List.append_assoc,
        List.singleton_append] at hrec
      simp only [List.length_cons, List.range'_succ, apply_string_tuple.impl.join_pack, hl, he,
        hrec]
      rw [apply_string.join_variadic]
      simp [String.intercalate, String.intercalate.go]

/-- Claim C37: for every label tuple `(l1..ln)` and entry tuple `(e1..en)` with `n >= 1`,
`apply<std::tuple<std::string>>::join(ls, es, labels, entries)` returns the strings
`render(li) ++ es ++ render(ei)`, in index order, separated by `ls`; for `n = 0` it
returns the empty string. -/
theorem apply_string_tuple.label_entry_join (ls es : join_arg) (labels entries : List join_arg)
    (hlen : entries.length = labels.length) :
    (0 < labels.length →
      apply_string_tuple.join ls es labels entries =
        some (String.intercalate (ls.render true)
          (List.zipWith (fun l e => l.render true ++ es.render true ++ e.render true)
            labels entries))) ∧
      (labels.length = 0 → apply_string_tuple.join ls es labels entries = some "") := by
  refine ⟨?_, ?_⟩
  · intro hpos
    have hpack := apply_string_tuple.impl.join_pack_aux es labels entries [] [] rfl hlen.symm
    simp only [List.nil_append, List.length_nil] at hpack
    rw [← List.range_eq_range'] at hpack
    cases labels with
    | nil => simp at hpos
    | cons l labels =>
      cases entries with
      | nil => simp at hlen
      | cons e entries =>
        simp only [apply_string_tuple.join, hpos, if_true, apply_string_tuple.impl.join, hpack]
        simp only [List.zipWith_cons_cons]
        exact apply_string.join_texts ls _ _
  · intro h0
    simp [apply_string_tuple.join, h0]

/-- Witness of C37: two labels with an integer and a boolean entry. -/
theorem apply_string_tuple.label_entry_join_witness :
    [join_arg.integer 1, join_arg.boolean false].length =
        [join_arg.text "a", join_arg.text "b"].length ∧
      apply_string_tuple.join (join_arg.text ", ") (join_arg.text " = ")
          [join_arg.text "a", join_arg.text "b"] [join_arg.integer 1, join_arg.boolean false] =
        some "a = 1, b = false" :=
  ⟨by decide,
   (apply_string_tuple.label_entry_join (join_arg.text ", ") (join_arg.text " = ")
      [join_arg.text "a", join_arg.text "b"] [join_arg.integer 1, join_arg.boolean false]
      (by decide)).1 (by decide)⟩

/-! ## Unrolling -/

/-- The recursion of `unroll` for `N + 1`: the callable applied `N + 1` times. -/
theorem internal.apply_void.unroll_succ {A W : Type} (Device : device) (__func : A → W → W)
    (__args : A) :
    ∀ (N : Nat) (w : W),
      internal.apply_void.unroll (N + 1) Device __func __args w =
        some ((__func __args)^[N + 1] w) := by
  intro N
  induction N with
  | zero =>
    intro w
    cases Device <;> rfl
  | succ N ih =>
    intro w
    have hstep : internal.apply_void.unroll (N + 2) Device __func __args w =
        internal.apply_void.unroll (N + 1) Device __func __args (__func __args w) := by
      cases Device <;> rfl
    rw [hstep, ih]
    rfl

/-- Claim C38: for every `N >= 1` and either device tag, `unroll<N, Device>(f, args...)`
returns (the recursion on `N` ends) and its effect is that of `N` calls of `f` with
the arguments `args`, one after the other; a callable that records its calls has
recorded exactly `N` calls, each with `args`. -/
theorem apply_void.unroll_spec {A W : Type} (N : Nat) (Device : device) (f : A → W → W)
    (args : A) (w : W) (hN : 1 ≤ N) :
    apply_void.unroll N Device f args w = some ((f args)^[N] w) ∧
      apply_void.unroll N Device recording_fn args [] = some (List.replicate N args) := by
  obtain ⟨M, rfl⟩ : ∃ M, N = M + 1 := ⟨N - 1, by omega⟩
  have hrec : ∀ (K : Nat) (log : List A),
      (recording_fn args)^[K] log = log ++ List.replicate K args := by
    intro K
    induction K with
    | zero => intro log; simp
    | succ K ih =>
      intro log
      rw [Function.iterate_succ_apply, ih]
      simp [recording_fn, List.replicate_succ]
  have hun : ∀ (B : Type) (g : A → B → B) (b : B),
      apply_void.unroll (M + 1) Device g args b = some ((g args)^[M + 1] b) := by
    intro B g b
    cases Device <;>
      simp only [apply_void.unroll, internal.apply_void.unroll_succ]
  refine ⟨hun W f w, ?_⟩
  rw [hun, hrec]
  simp

/-- Witness of C38: three rounds on the cpu of a callable that adds its argument to the
state. -/
theorem apply_void.unroll_spec_witness :
    apply_void.unroll 3 device.cpu (fun (a : Int) (w : Int) => w + a) 5 0 =
        some ((fun (w : Int) => w + 5)^[3] 0) ∧
      apply_void.unroll 3 device.cpu recording_fn (5 : Int) [] =
        some (List.replicate 3 (5 : Int)) :=
  apply_void.unroll_spec 3 device.cpu (fun (a : Int) (w : Int) => w + a) 5 0 (by decide)

/-! ## The collection mode -/

/-- Lower-casing keeps a string empty or non-empty. -/
theorem cpu_roofline.aslc_eq_empty (str : String) : cpu_roofline.aslc str = "" ↔ str = "" := by
  constructor
  · intro h
    have hd : (cpu_roofline.aslc str).data = [] := by rw [h]
    simp only [cpu_roofline.aslc, List.map_eq_nil_iff] at hd
    exact String.ext hd
  · intro h
    subst h
    rfl

/-- The string that `_get` compares is the lower-cased chosen setting. -/
theorem cpu_roofline.event_mode_get_eq (cpu rf : String) :
    cpu_roofline.event_mode_get cpu rf =
      if cpu_roofline.aslc (cpu_roofline.chosen_mode cpu rf) = "op" ∨
          cpu_roofline.aslc (cpu_roofline.chosen_mode cpu rf) = "hw" ∨
          cpu_roofline.aslc (cpu_roofline.chosen_mode cpu rf) = "counters" then MODE.OP
      else if cpu_roofline.aslc (cpu_roofline.chosen_mode cpu rf) = "ai" ∨
          cpu_roofline.aslc (cpu_roofline.chosen_mode cpu rf) = "ac" ∨
          cpu_roofline.aslc (cpu_roofline.chosen_mode cpu rf) = "activity" then MODE.AI
      else MODE.OP := by
  by_cases h : cpu = ""
  · subst h
    have h1 : cpu_roofline.aslc "" = "" := rfl
    simp only [cpu_roofline.event_mode_get, cpu_roofline.chosen_mode, h1, if_true]
  · have h1 : ¬ cpu_roofline.aslc cpu = "" := fun hc => h ((cpu_roofline.aslc_eq_empty cpu).1 hc)
    simp only [cpu_roofline.event_mode_get, cpu_roofline.chosen_mode, h1, h, if_false]

/-- Claim C39: at its first call `event_mode()` decides the mode from the setting
`cpu_roofline_mode`, or from `roofline_mode` when the former is empty, and keeps it:
the mode is AI exactly when the chosen string lower-cases to "ai", "ac" or "activity"
and OP for every other string, and `get_mode_string()` is "ai" in the first case and
"op" otherwise.  So "AI" and "Activity" give AI, "op", "HW", "counters", the empty
string and an unrecognised value give OP, and `roofline_mode` is not looked at when
`cpu_roofline_mode` is not empty. -/
theorem cpu_roofline.event_mode_spec (cpu rf : String) :
    ((cpu_roofline.event_mode none cpu rf).1 = MODE.AI ↔
        (cpu_roofline.aslc (cpu_roofline.chosen_mode cpu rf) = "ai" ∨
          cpu_roofline.aslc (cpu_roofline.chosen_mode cpu rf) = "ac" ∨
          cpu_roofline.aslc (cpu_roofline.chosen_mode cpu rf) = "activity")) ∧
      ((cpu_roofline.event_mode none cpu rf).1 = MODE.OP ↔
        ¬ (cpu_roofline.aslc (cpu_roofline.chosen_mode cpu rf) = "ai" ∨
          cpu_roofline.aslc (cpu_roofline.chosen_mode cpu rf) = "ac" ∨
          cpu_roofline.aslc (cpu_roofline.chosen_mode cpu rf) = "activity")) ∧
      (cpu_roofline.event_mode none cpu rf).2 = some (cpu_roofline.event_mode none cpu rf).1 ∧
      (cpu_roofline.get_mode_string none cpu rf =
        if (cpu_roofline.event_mode none cpu rf).1 = MODE.AI then "ai" else "op") ∧
      (cpu_roofline.event_mode none "AI" "op").1 = MODE.AI ∧
      (cpu_roofline.event_mode none "" "Activity").1 = MODE.AI ∧
      (cpu_roofline.event_mode none "op" "ai").1 = MODE.OP ∧
      (cpu_roofline.event_mode none "HW" "").1 = MODE.OP ∧
      (cpu_roofline.event_mode none "counters" "").1 = MODE.OP ∧
      (cpu_roofline.event_mode none "" "").1 = MODE.OP ∧
      (cpu_roofline.event_mode none "roofline" "ai").1 = MODE.OP := by
  have hget := cpu_roofline.event_mode_get_eq cpu rf
  have hdisj : (cpu_roofline.aslc (cpu_roofline.chosen_mode cpu rf) = "op" ∨
        cpu_roofline.aslc (cpu_roofline.chosen_mode cpu rf) = "hw" ∨
        cpu_roofline.aslc (cpu_roofline.chosen_mode cpu rf) = "counters") →
      ¬ (cpu_roofline.aslc (cpu_roofline.chosen_mode cpu rf) = "ai" ∨
        cpu_roofline.aslc (cpu_roofline.chosen_mode cpu rf) = "ac" ∨
        cpu_roofline.aslc (cpu_roofline.chosen_mode cpu rf) = "activity") := by
    intro h1 h2
    rcases h1 with h1 | h1 | h1 <;> rcases h2 with h2 | h2 | h2 <;>
      (rw [h1] at h2; exact absurd h2 (by decide))
  have hfst : (cpu_roofline.event_mode none cpu rf).1 = cpu_roofline.event_mode_get cpu rf := rfl
  refine ⟨?_, ?_, rfl, ?_, by decide, by decide, by decide, by decide, by decide, by decide,
    by decide⟩
  · rw [hfst, hget]
    by_cases h1 : (cpu_roofline.aslc (cpu_roofline.chosen_mode cpu rf) = "op" ∨
        cpu_roofline.aslc (cpu_roofline.chosen_mode cpu rf) = "hw" ∨
        cpu_roofline.aslc (cpu_roofline.chosen_mode cpu rf) = "counters")
    · rw [if_pos h1]
      constructor
      · intro h; exact absurd h (by decide)
      · intro h; exact absurd h (hdisj h1)
    · rw [if_neg h1]
      by_cases h2 : (cpu_roofline.aslc (cpu_roofline.chosen_mode cpu rf) = "ai" ∨
          cpu_roofline.aslc (cpu_roofline.chosen_mode cpu rf) = "ac" ∨
          cpu_roofline.aslc (cpu_roofline.chosen_mode cpu rf) = "activity")
      · rw [if_pos h2]
        exact ⟨fun _ => h2, fun _ => rfl⟩
      · rw [if_neg h2]
        constructor
        · intro h; exact absurd h (by decide)
        · intro h; exact absurd h h2
  · rw [hfst, hget]
    by_cases h1 : (cpu_roofline.aslc (cpu_roofline.chosen_mode cpu rf) = "op" ∨
        cpu_roofline.aslc (cpu_roofline.chosen_mode cpu rf) = "hw" ∨
        cpu_roofline.aslc (cpu_roofline.chosen_mode cpu rf) = "counters")
    · rw [if_pos h1]
      exact ⟨fun _ => hdisj h1, fun _ => rfl⟩
    · rw [if_neg h1]
      by_cases h2 : (cpu_roofline.aslc (cpu_roofline.chosen_mode cpu rf) = "ai" ∨
          cpu_roofline.aslc (cpu_roofline.chosen_mode cpu rf) = "ac" ∨
          cpu_roofline.aslc (cpu_roofline.chosen_mode cpu rf) = "activity")
      · rw [if_pos h2]
        constructor
        · intro h; exact absurd h (by decide)
        · intro h; exact absurd h2 h
      · rw [if_neg h2]
        exact ⟨fun _ => h2, fun _ => rfl⟩
  · simp only [cpu_roofline.get_mode_string]
    cases (cpu_roofline.event_mode none cpu rf).1 <;> simp

/-! ## The labels of the roofline component -/

/-- A successful `find` splits the string around the first occurrence. -/
theorem string_find_some (pat : List Char) :
    ∀ (s : List Char) (n : Nat), string_find pat s = some n →
      ∃ pre post, s = pre ++ pat ++ post ∧ pre.length = n := by
  intro s
  induction s with
  | nil =>
    intro n h
    by_cases hp : pat = []
    · simp only [string_find, hp, if_true, Option.some.injEq] at h
      exact ⟨[], [], by simp [hp], by simpa using h⟩
    · simp [string_find, hp] at h
  | cons c s ih =>
    intro n h
    by_cases hp : pat.isPrefixOf (c :: s) = true
    · simp only [string_find, hp, if_true, Option.some.injEq] at h
      obtain ⟨post, hpost⟩ := List.isPrefixOf_iff_prefix.1 hp
      exact ⟨[], post, by simp [hpost], by simpa using h⟩
    · simp only [string_find, hp, Bool.false_eq_true, if_false, Option.map_eq_some'] at h
      obtain ⟨m, hm, hn⟩ := h
      obtain ⟨pre, post, hs, hlen⟩ := ih m hm
      exact ⟨c :: pre, post, by simp [hs], by simp [hlen, hn]⟩

/-- A failed `find` means that the pattern does not occur. -/
theorem string_find_none (pat : List Char) :
    ∀ s : List Char, string_find pat s = none → ¬ pat <:+: s := by
  intro s
  induction s with
  | nil =>
    intro h hin
    have hp : pat = [] := List.infix_nil.1 hin
    simp [string_find, hp] at h
  | cons c s ih =>
    intro h hin
    by_cases hp : pat.isPrefixOf (c :: s) = true
    · simp [string_find, hp] at h
    · simp only [string_find, hp, Bool.false_eq_true, if_false, Option.map_eq_none'] at h
      rcases List.infix_cons_iff.1 hin with h1 | h1
      · exact hp ( List.isPrefixOf_iff_prefix.2 h1)
      · exact ih h h1

/-- Replacing an occurrence of the pattern. -/
theorem string_replace_at (pre pat post str : List Char) :
    string_replace (pre ++ pat ++ post) pre.length pat.length str = pre ++ str ++ post := by
  simp [string_replace, List.take_append_eq_append_take, List.drop_append_eq_append_drop]

/-- A replacement loop ends within the given rounds when every replacement lowers a
measure that is below the number of rounds; it ends with a string without the
pattern and keeps every property that the replacements keep. -/
theorem replace_loop_ends (pat str : List Char) (mu : List Char → Nat) (P : List Char → Prop)
    (hmu : ∀ pre post, mu (pre ++ str ++ post) < mu (pre ++ pat ++ post))
    (hP : ∀ pre post, P (pre ++ pat ++ post) → P (pre ++ str ++ post)) :
    ∀ (rounds : Nat) (s : List Char), mu s < rounds → P s →
      ∃ r, replace_loop pat str rounds s = some r ∧ ¬ pat <:+: r ∧ P r := by
  intro rounds
  induction rounds with
  | zero => intro s h _; omega
  | succ rounds ih =>
    intro s h hs
    cases hf : string_find pat s with
    | none =>
      exact ⟨s, by simp only [replace_loop, hf], string_find_none pat s hf, hs⟩
    | some n =>
      obtain ⟨pre, post, hsplit, hlen⟩ := string_find_some pat s n hf
      have hrep : string_replace s n pat.length str = pre ++ str ++ post := by
        rw [hsplit, ← hlen]
        exact string_replace_at pre pat post str
      have hlt := hmu pre post
      rw [← hsplit] at hlt
      obtain ⟨r, hr, hnone, hPr⟩ := ih (pre ++ str ++ post) (by omega)
        (hP pre post (by rw [← hsplit]; exact hs))
      exact ⟨r, by simp only [replace_loop, hf, hrep, hr], hnone, hPr⟩

/-- A character that is in neither the replacement nor the string is not in the string
after a replacement. -/
theorem not_mem_replace (c : Char) (pre pat post str : List Char) (hstr : c ∉ str)
    (h : c ∉ pre ++ pat ++ post) : c ∉ pre ++ str ++ post := by
  simp only [List.mem_append, not_or] at h ⊢
  exact ⟨⟨h.1.1, hstr⟩, h.2⟩

/-- A replacement that removes one occurrence of a character and adds none lowers the
number of its occurrences. -/
theorem count_replace (c : Char) (pre pat post str : List Char) (hstr : str.count c = 0)
    (hpat : 0 < pat.count c) :
    (pre ++ str ++ post).count c < (pre ++ pat ++ post).count c := by
  simp only [List.count_append, hstr]
  omega

/-- A character occurs in a string when the string of that one character does. -/
theorem not_mem_of_not_infix (c : Char) (r : List Char) (h : ¬ [c] <:+: r) : c ∉ r := by
  intro hc
  obtain ⟨s, t, hst⟩ := List.append_of_mem hc
  exact h ⟨s, t, by simp [hst]⟩

/-- The first loop of `label_array()` ends for every string. -/
theorem cpu_roofline.label_array_loop1 (itr : List Char) :
    ∃ r, replace_while "L/S".toList "Loads_Stores".toList itr = some r := by
  obtain ⟨r, hr, _, _⟩ := replace_loop_ends "L/S".toList "Loads_Stores".toList
    (fun s => s.count '/') (fun _ => True)
    (fun pre post => count_replace '/' pre _ post _ (by decide) (by decide))
    (fun _ _ _ => trivial) (itr.length + 1) itr
    (Nat.lt_succ_of_le (List.count_le_length _ _)) trivial
  exact ⟨r, hr⟩

/-- The second loop of `label_array()` ends for every string, without a '/' left. -/
theorem cpu_roofline.label_array_loop2 (itr : List Char) :
    ∃ r, replace_while "/".toList "_per_".toList itr = some r ∧ '/' ∉ r := by
  obtain ⟨r, hr, hnone, _⟩ := replace_loop_ends "/".toList "_per_".toList
    (fun s => s.count '/') (fun _ => True)
    (fun pre post => count_replace '/' pre _ post _ (by decide) (by decide))
    (fun _ _ _ => trivial) (itr.length + 1) itr
    (Nat.lt_succ_of_le (List.count_le_length _ _)) trivial
  exact ⟨r, hr, not_mem_of_not_infix '/' r hnone⟩

/-- The third loop body of `label_array()` ends for every string without a '/', and
leaves neither a '/' nor a blank nor two underscores in a row. -/
theorem cpu_roofline.label_array_loop3 (itr : List Char) (h : '/' ∉ itr) :
    ∃ r, cpu_roofline.label_array_body3 itr = some r ∧ '/' ∉ r ∧ ' ' ∉ r ∧
      ¬ "__".toList <:+: r := by
  obtain ⟨r1, hr1, hnone1, hP1⟩ := replace_loop_ends " ".toList "_".toList
    (fun s => s.count ' ') (fun s => '/' ∉ s)
    (fun pre post => count_replace ' ' pre _ post _ (by decide) (by decide))
    (fun pre post hp => not_mem_replace '/' pre _ post _ (by decide) hp)
    (itr.length + 1) itr (Nat.lt_succ_of_le (List.count_le_length _ _)) h
  have hblank : ' ' ∉ r1 := not_mem_of_not_infix ' ' r1 hnone1
  obtain ⟨r2, hr2, hnone2, hP2⟩ := replace_loop_ends "__".toList "_".toList
    (fun s => s.length) (fun s => '/' ∉ s ∧ ' ' ∉ s)
    (fun pre post => by simp)
    (fun pre post hp => ⟨not_mem_replace '/' pre _ post _ (by decide) hp.1,
      not_mem_replace ' ' pre _ post _ (by decide) hp.2⟩)
    (r1.length + 1) r1 (Nat.lt_succ_self _) ⟨hP1, hblank⟩
  refine ⟨r2, ?_, hP2.1, hP2.2, hnone2⟩
  have h1 : replace_while " ".toList "_".toList itr = some r1 := hr1
  have h2 : replace_while "__".toList "_".toList r1 = some r2 := hr2
  simp only [cpu_roofline.label_array_body3, h1, h2]

/-- A loop over an array whose body ends on every element ends, keeps the number of
elements, and every element of the result has what the body guarantees. -/
theorem for_each_spec {β : Type} (body : β → Option β) (Pin Pout : β → Prop)
    (hbody : ∀ x, Pin x → ∃ y, body x = some y ∧ Pout y) :
    ∀ arr : List β, (∀ x ∈ arr, Pin x) →
      ∃ ys, for_each body arr = some ys ∧ ys.length = arr.length ∧ ∀ y ∈ ys, Pout y := by
  intro arr
  induction arr with
  | nil => intro _; exact ⟨[], rfl, rfl, fun y hy => by simp at hy⟩
  | cons x arr ih =>
    intro hin
    obtain ⟨y, hy, hPy⟩ := hbody x (hin x (List.mem_cons_self _ _))
    obtain ⟨ys, hys, hlen, hall⟩ := ih (fun z hz => hin z (List.mem_cons_of_mem _ hz))
    refine ⟨y :: ys, by simp only [for_each, hy, hys], by simp [hlen], ?_⟩
    intro z hz
    rcases List.mem_cons.1 hz with rfl | hz
    · exact hPy
    · exact hall z hz

/-- A loop over an array that ends with an element the body leaves alone. -/
theorem for_each_append_fixed {β : Type} (body : β → Option β) (last : β)
    (hlast : body last = some last) :
    ∀ (arr ys : List β), for_each body (arr ++ [last]) = some ys →
      ∃ zs, ys = zs ++ [last] ∧ for_each body arr = some zs := by
  intro arr
  induction arr with
  | nil =>
    intro ys h
    simp only [List.nil_append, for_each, hlast, Option.some.injEq] at h
    exact ⟨[], by simp [← h], rfl⟩
  | cons x arr ih =>
    intro ys h
    rw [List.cons_append, for_each] at h
    cases hx : body x with
    | none => simp [hx] at h
    | some y =>
      cases hr : for_each body (arr ++ [last]) with
      | none => simp [hx, hr] at h
      | some rs =>
        rw [hx, hr] at h
        simp only [Option.some.injEq] at h
        obtain ⟨zs, hzs, hfor⟩ := ih rs hr
        exact ⟨y :: zs, by simp [← h, hzs], by simp only [for_each, hx, hfor]⟩

/-- Claim C40: for every list of events and of their short descriptions, `label_array()`
returns (each of its replacement loops ends), the array has one label per event
followed by a final "Runtime", that is `m_events.size() + 1` entries, and no label of
it contains a blank, a '/' or two consecutive underscores; the thread-local label
array takes the new array when it was shorter. -/
theorem cpu_roofline.label_array_spec (short_descr : Int → List Char) (m_events : List Int)
    (events_label_array : List (List Char)) :
    ∃ arr labels, cpu_roofline.label_array short_descr m_events events_label_array =
        some (arr, labels) ∧
      arr.length = m_events.length + 1 ∧
      arr.getLast? = some "Runtime".toList ∧
      (∀ l ∈ arr, ' ' ∉ l ∧ '/' ∉ l ∧ ¬ "__".toList <:+: l) ∧
      labels = if events_label_array.length < arr.length then arr else events_label_array := by
  have hR1 : replace_while "L/S".toList "Loads_Stores".toList "Runtime".toList =
      some "Runtime".toList := by decide
  have hR2 : replace_while "/".toList "_per_".toList "Runtime".toList =
      some "Runtime".toList := by decide
  have hR3 : cpu_roofline.label_array_body3 "Runtime".toList = some "Runtime".toList := by
    decide
  obtain ⟨ys1, h1, hlen1, _⟩ := for_each_spec
    (replace_while "L/S".toList "Loads_Stores".toList) (fun _ => True) (fun _ => True)
    (fun x _ => by
      obtain ⟨r, hr⟩ := cpu_roofline.label_array_loop1 x
      exact ⟨r, hr, trivial⟩)
    (m_events.map short_descr ++ ["Runtime".toList]) (fun _ _ => trivial)
  obtain ⟨zs1, hzs1, _⟩ := for_each_append_fixed _ _ hR1 _ ys1 h1
  obtain ⟨ys2, h2, hlen2, hall2⟩ := for_each_spec
    (replace_while "/".toList "_per_".toList) (fun _ => True) (fun y => '/' ∉ y)
    (fun x _ => cpu_roofline.label_array_loop2 x) ys1 (fun _ _ => trivial)
  obtain ⟨zs2, hzs2, _⟩ := for_each_append_fixed _ _ hR2 zs1 ys2 (by rw [← hzs1]; exact h2)
  obtain ⟨ys3, h3, hlen3, hall3⟩ := for_each_spec cpu_roofline.label_array_body3
    (fun y => '/' ∉ y) (fun y => '/' ∉ y ∧ ' ' ∉ y ∧ ¬ "__".toList <:+: y)
    (fun x hx => cpu_roofline.label_array_loop3 x hx) ys2 hall2
  obtain ⟨zs3, hzs3, _⟩ := for_each_append_fixed _ _ hR3 zs2 ys3 (by rw [← hzs2]; exact h3)
  refine ⟨ys3, _, by simp only [cpu_roofline.label_array, h1, h2, h3], ?_, ?_, ?_, rfl⟩
  · rw [hlen3, hlen2, hlen1]
    simp
  · rw [hzs3]
    simp
  · intro l hl
    obtain ⟨ha, hb, hc⟩ := hall3 l hl
    exact ⟨hb, ha, hc⟩
end tim
